import Mathlib

/-!
# Verification of the Capy semantic middle-end

This file embeds (shallowly) the parts of the Capy compiler that the
specification's claims are about:

* the type universe `Ty` and the weak-type replacement order (§3 and §4.3.2
  of the spec; the concrete `ty.rs` is not part of the sources, so these
  are modelled from the spec, as marked on each definition);
* `replace_weak_tys`, `reinfer_usages`, `reinfer_expr` and `finish_body`
  from `crates/hir_ty/src/globals.rs`;
* the diagnostic-producing branches of `infer_expr` for `If`, `Switch`,
  `Index`, `Deref` and `Call`, and `expect_match`;
* `is_safe_to_compile`;
* the aggregate calling convention of `crates/codegen/src/functions.rs`.

Machine integers of the source are modelled as `Nat` (the source values are
`u64`; every comparison against `u32::MAX` etc. appears explicitly).
Fallible / panicking code paths return `Option` (`none` = panic), and the
mutually recursive inference procedures take explicit fuel, since the
source's recursion through local usages is not structurally decreasing
(the source itself notes a possible infinite loop in a TODO).
-/

namespace Capy

/-- Interned identifier key (`hir::Name`): equality is integer equality. -/
abbrev Name := Nat

/-- Interned file key (`hir::FileName`). -/
abbrev FileName := Nat

mutual

/-- Modelled from the spec: the interned type universe `Ty` (§3).  Bit widths
use `0` for the weak, inferable width and `255` for the platform pointer
width, exactly as the spec states.  `ty.rs` is not among the provided
sources; every constructor here is taken from the spec's data model.
Member/variant/parameter vectors are spelled as the mutually defined spine
types `Members`/`Tys`/`Params` (plain lists, needed so that equality on the
interned universe stays decidable). -/
inductive Ty where
  | unknown
  | notYetResolved
  | noEval
  | void
  | bool
  | char
  | string
  | iInt (bw : Nat)
  | uInt (bw : Nat)
  | float (bw : Nat)
  | pointer (mutable : Bool) (subTy : Ty)
  | array (anonymous : Bool) (size : Nat) (subTy : Ty)
  | slice (subTy : Ty)
  | rawPtr (mutable : Bool)
  | rawSlice
  | «struct» (uid : Nat) (anonymous : Bool) (members : Members)
  | enum (uid : Nat) (variants : Tys)
  | variant (enumUid : Nat) (variantName : Name) (uid : Nat) (subTy : Ty)
      (discriminant : Nat)
  | function (paramTys : Params) (returnTy : Ty)
  | distinct (uid : Nat) (subTy : Ty)
  | file (f : FileName)
  | type
  | any

/-- A vector of types (`Vec<Intern<Ty>>`): enum variant types. -/
inductive Tys where
  | nil
  | cons (t : Ty) (ts : Tys)

/-- Struct member vector (`Vec<MemberTy>`): names with their types. -/
inductive Members where
  | nil
  | cons (name : Name) (ty : Ty) (rest : Members)

/-- Function parameter vector (`Vec<ParamTy>`): type plus the `varargs` and
`impossible_to_differentiate` flags used by call checking. -/
inductive Params where
  | nil
  | cons (ty : Ty) (varargs : Bool) (impossibleToDifferentiate : Bool)
      (rest : Params)

end

deriving instance DecidableEq for Ty, Tys, Members, Params
deriving instance Repr for Ty, Tys, Members, Params

/-- The types of a `Tys` spine, as a list. -/
def Tys.toList : Tys → List Ty
  | .nil => []
  | .cons t ts => t :: ts.toList

/-- Struct member lookup by name (`member_tys[&name.name]` uses this map). -/
def Members.find : Members → Name → Option Ty
  | .nil, _ => none
  | .cons n t rest, name => if n = name then some t else rest.find name

/-- The parameter spine as a list of (type, varargs, impossible) triples. -/
def Params.toList : Params → List (Ty × Bool × Bool)
  | .nil => []
  | .cons t v i rest => (t, v, i) :: rest.toList

namespace Ty

/-- `Ty::is_unknown` (modelled from the spec's sentinel description). -/
def isUnknown : Ty → Bool
  | .unknown => true
  | _ => false

/-- `Ty::is_void`. -/
def isVoid : Ty → Bool
  | .void => true
  | _ => false

/-- `Ty::as_pointer`: the mutability and pointee of a concrete pointer. -/
def asPointer : Ty → Option (Bool × Ty)
  | .pointer m s => some (m, s)
  | _ => none

/-- `Ty::as_array`: size and element type of an array. -/
def asArray : Ty → Option (Nat × Ty)
  | .array _ size s => some (size, s)
  | _ => none

/-- `Ty::as_slice`: element type of a slice. -/
def asSlice : Ty → Option Ty
  | .slice s => some s
  | _ => none

/-- `Ty::as_struct`: the member vector of a struct. -/
def asStruct : Ty → Option Members
  | .struct _ _ members => some members
  | _ => none

/-- `Ty::as_function`: parameter vector and return type. -/
def asFunction : Ty → Option (Params × Ty)
  | .function ps r => some (ps, r)
  | _ => none

/-- Modelled from the spec: a type is *weak* when it is open to replacement —
integer/float bit width `0`, an anonymous array, or an anonymous struct
(glossary entry "Weak type"); a pointer is weak when its pointee is weak
(the source's `replace_weak_tys` replaces through `^mut {uint}`). -/
def isWeak : Ty → Bool
  | .iInt 0 => true
  | .uInt 0 => true
  | .float 0 => true
  | .array anonymous _ _ => anonymous
  | .struct _ anonymous _ => anonymous
  | .pointer _ s => isWeak s
  | _ => false

/-- Modelled from the spec: `Ty::is_weak_replaceable_by` (§4.3.2).
`UInt(0)`/`IInt(0)` are replaceable by strong integer types (and floats),
`Float(0)` by strong floats, anonymous arrays by same-size non-anonymous
arrays or slices with compatible sub-types, anonymous (empty-literal)
structs by named structs, and pointers pointwise through their pointee
("`^mut {uint}` is technically replaceable by `^i32`", globals.rs:385).
Replacement targets are always strong types ("open to replacement by a
compatible strong type", spec glossary). -/
def isWeakReplaceableBy : Ty → Ty → Bool
  | .uInt 0, .uInt n => n ≠ 0
  | .uInt 0, .iInt n => n ≠ 0
  | .uInt 0, .float n => n ≠ 0
  | .iInt 0, .iInt n => n ≠ 0
  | .iInt 0, .float n => n ≠ 0
  | .float 0, .float n => n ≠ 0
  | .pointer _ s1, .pointer _ s2 => isWeakReplaceableBy s1 s2
  | .array true size1 s1, .array false size2 s2 =>
      size1 = size2 && (isWeakReplaceableBy s1 s2 || s1 = s2)
  | .array true _ s1, .slice s2 => isWeakReplaceableBy s1 s2 || s1 = s2
  | .struct _ true .nil, .struct _ false _ => true
  | _, _ => false

/-- Modelled from the spec: `can_fit_into` (assignability).  Unknown types
fit everywhere ("`can_fit_into` should return true for unknowns",
globals.rs:1997); equal types fit; a weak type fits into anything it is
replaceable by. -/
def canFitInto (found expected : Ty) : Bool :=
  found.isUnknown || expected.isUnknown || found = expected ||
    found.isWeakReplaceableBy expected

/-- Modelled from the spec: `Ty::max`, the least upper bound used to unify
branch/arm types.  `NoEval` is absorbed by the other side; equal types give
themselves; a weak type unifies to the type replacing it; `Unknown`
absorbs. -/
def max (a b : Ty) : Option Ty :=
  if a = b then some a
  else if a = .unknown ∨ b = .unknown then some .unknown
  else if a = .noEval then some b
  else if b = .noEval then some a
  else if a.isWeakReplaceableBy b then some b
  else if b.isWeakReplaceableBy a then some a
  else none

/-- Modelled from the spec: `get_max_int_size` — the largest literal value a
strong integer type can hold (the platform pointer width `255` is taken as
64 bits, the back end's pointer type).  Weak widths have no bound yet. -/
def getMaxIntSize : Ty → Option Nat
  | .iInt 0 => none
  | .uInt 0 => none
  | .iInt 255 => some (2 ^ 63 - 1)
  | .uInt 255 => some (2 ^ 64 - 1)
  | .iInt bw => some (2 ^ (bw - 1) - 1)
  | .uInt bw => some (2 ^ bw - 1)
  | _ => none

/-- Modelled from the spec: `is_functionally_equivalent_to` compares after
stripping `distinct` wrappers (used only inside the `loss_of_distinct`
guards of re-inference). -/
def stripDistinct : Ty → Ty
  | .distinct _ s => stripDistinct s
  | t => t

/-- See `stripDistinct`. -/
def isFunctionallyEquivalentTo (a b : Ty) : Bool :=
  a.stripDistinct = b.stripDistinct

/-- `is_equal_to` in the reinfer guards: plain structural equality. -/
def isEqualTo (a b : Ty) : Bool := a = b

end Ty

/-! ### Facts about the weak-replacement order

These lemmas carry all the weight of the idempotence proofs: a replacement
target is never itself replaceable (targets are strong), hence a second
replacement with the same target finds nothing left to do. -/

/-- Types that can never appear on the left of `isWeakReplaceableBy`:
these are exactly the shapes of replacement targets. -/
def neverSource : Ty → Bool
  | .uInt (_ + 1) => true
  | .iInt (_ + 1) => true
  | .float (_ + 1) => true
  | .pointer _ s => neverSource s
  | .array false _ _ => true
  | .slice _ => true
  | .struct _ false _ => true
  | _ => false

theorem uInt_succ_not_source (n : Nat) (c : Ty) :
    (Ty.uInt (n + 1)).isWeakReplaceableBy c = false := by
  cases c <;> simp [Ty.isWeakReplaceableBy]

theorem iInt_succ_not_source (n : Nat) (c : Ty) :
    (Ty.iInt (n + 1)).isWeakReplaceableBy c = false := by
  cases c <;> simp [Ty.isWeakReplaceableBy]

theorem float_succ_not_source (n : Nat) (c : Ty) :
    (Ty.float (n + 1)).isWeakReplaceableBy c = false := by
  cases c <;> simp [Ty.isWeakReplaceableBy]

theorem array_false_not_source (sz : Nat) (s c : Ty) :
    (Ty.array false sz s).isWeakReplaceableBy c = false := by
  cases c <;> simp [Ty.isWeakReplaceableBy]

theorem slice_not_source (s c : Ty) :
    (Ty.slice s).isWeakReplaceableBy c = false := by
  cases c <;> simp [Ty.isWeakReplaceableBy]

theorem struct_false_not_source (uid : Nat) (ms : Members) (c : Ty) :
    (Ty.struct uid false ms).isWeakReplaceableBy c = false := by
  cases c <;> simp [Ty.isWeakReplaceableBy]

/-- A `neverSource` type is indeed never a replacement source. -/
theorem neverSource_not_source :
    ∀ (b c : Ty), neverSource b = true → b.isWeakReplaceableBy c = false
  | .uInt (n + 1), c, _ => uInt_succ_not_source n c
  | .iInt (n + 1), c, _ => iInt_succ_not_source n c
  | .float (n + 1), c, _ => float_succ_not_source n c
  | .pointer m s, c, h => by
      have hs : neverSource s = true := by simpa [neverSource] using h
      cases c <;> simp only [Ty.isWeakReplaceableBy]
      exact neverSource_not_source s _ hs
  | .array false sz s, c, _ => array_false_not_source sz s c
  | .slice s, c, _ => slice_not_source s c
  | .struct u false ms, c, _ => struct_false_not_source u ms c
  | .uInt 0, _, h => by simp [neverSource] at h
  | .iInt 0, _, h => by simp [neverSource] at h
  | .float 0, _, h => by simp [neverSource] at h
  | .array true _ _, _, h => by simp [neverSource] at h
  | .struct _ true _, _, h => by simp [neverSource] at h
  | .unknown, _, h => by simp [neverSource] at h
  | .notYetResolved, _, h => by simp [neverSource] at h
  | .noEval, _, h => by simp [neverSource] at h
  | .void, _, h => by simp [neverSource] at h
  | .bool, _, h => by simp [neverSource] at h
  | .char, _, h => by simp [neverSource] at h
  | .string, _, h => by simp [neverSource] at h
  | .rawPtr _, _, h => by simp [neverSource] at h
  | .rawSlice, _, h => by simp [neverSource] at h
  | .enum _ _, _, h => by simp [neverSource] at h
  | .variant _ _ _ _ _, _, h => by simp [neverSource] at h
  | .function _ _, _, h => by simp [neverSource] at h
  | .distinct _ _, _, h => by simp [neverSource] at h
  | .file _, _, h => by simp [neverSource] at h
  | .type, _, h => by simp [neverSource] at h
  | .any, _, h => by simp [neverSource] at h

/-- Every replacement target is a `neverSource` type. -/
theorem neverSource_of_target :
    ∀ (a b : Ty), a.isWeakReplaceableBy b = true → neverSource b = true
  | .uInt 0, b, h => by
      cases b <;>
        simp only [Ty.isWeakReplaceableBy, decide_eq_true_eq,
          Bool.false_eq_true] at h <;>
        (rename_i n; cases n <;> simp_all [neverSource])
  | .iInt 0, b, h => by
      cases b <;>
        simp only [Ty.isWeakReplaceableBy, decide_eq_true_eq,
          Bool.false_eq_true] at h <;>
        (rename_i n; cases n <;> simp_all [neverSource])
  | .float 0, b, h => by
      cases b <;>
        simp only [Ty.isWeakReplaceableBy, decide_eq_true_eq,
          Bool.false_eq_true] at h <;>
        (rename_i n; cases n <;> simp_all [neverSource])
  | .pointer m1 s1, b, h => by
      cases b <;>
        simp only [Ty.isWeakReplaceableBy, Bool.false_eq_true] at h
      rename_i m2 s2
      simpa [neverSource] using neverSource_of_target s1 s2 h
  | .array true sz s, b, h => by
      cases b <;>
        try (simp only [Ty.isWeakReplaceableBy, Bool.false_eq_true] at h; done)
      · rename_i anon2 sz2 s2
        cases anon2
        · simp [neverSource]
        · simp [Ty.isWeakReplaceableBy] at h
      · simp [neverSource]
  | .struct u true ms, b, h => by
      cases b <;>
        try (simp only [Ty.isWeakReplaceableBy, Bool.false_eq_true] at h; done)
      rename_i u2 anon2 ms2
      cases anon2
      · simp [neverSource]
      · cases ms <;> simp [Ty.isWeakReplaceableBy] at h
  | .uInt (n + 1), _, h => by rw [uInt_succ_not_source] at h; exact absurd h (by simp)
  | .iInt (n + 1), _, h => by rw [iInt_succ_not_source] at h; exact absurd h (by simp)
  | .float (n + 1), _, h => by rw [float_succ_not_source] at h; exact absurd h (by simp)
  | .array false sz s, _, h => by rw [array_false_not_source] at h; exact absurd h (by simp)
  | .slice s, _, h => by rw [slice_not_source] at h; exact absurd h (by simp)
  | .struct u false ms, _, h => by rw [struct_false_not_source] at h; exact absurd h (by simp)
  | .unknown, b, h => by cases b <;> simp [Ty.isWeakReplaceableBy] at h
  | .notYetResolved, b, h => by cases b <;> simp [Ty.isWeakReplaceableBy] at h
  | .noEval, b, h => by cases b <;> simp [Ty.isWeakReplaceableBy] at h
  | .void, b, h => by cases b <;> simp [Ty.isWeakReplaceableBy] at h
  | .bool, b, h => by cases b <;> simp [Ty.isWeakReplaceableBy] at h
  | .char, b, h => by cases b <;> simp [Ty.isWeakReplaceableBy] at h
  | .string, b, h => by cases b <;> simp [Ty.isWeakReplaceableBy] at h
  | .rawPtr _, b, h => by cases b <;> simp [Ty.isWeakReplaceableBy] at h
  | .rawSlice, b, h => by cases b <;> simp [Ty.isWeakReplaceableBy] at h
  | .enum _ _, b, h => by cases b <;> simp [Ty.isWeakReplaceableBy] at h
  | .variant _ _ _ _ _, b, h => by cases b <;> simp [Ty.isWeakReplaceableBy] at h
  | .function _ _, b, h => by cases b <;> simp [Ty.isWeakReplaceableBy] at h
  | .distinct _ _, b, h => by cases b <;> simp [Ty.isWeakReplaceableBy] at h
  | .file _, b, h => by cases b <;> simp [Ty.isWeakReplaceableBy] at h
  | .type, b, h => by cases b <;> simp [Ty.isWeakReplaceableBy] at h
  | .any, b, h => by cases b <;> simp [Ty.isWeakReplaceableBy] at h

/-- A replacement target is never itself a replacement source: once `a` has
been replaced by `b`, no further replacement applies to `b`. -/
theorem isWeakReplaceableBy_target_not_source {a b : Ty}
    (h : a.isWeakReplaceableBy b = true) (c : Ty) :
    b.isWeakReplaceableBy c = false :=
  neverSource_not_source b c (neverSource_of_target a b h)

/-- The weak-replacement relation is irreflexive. -/
theorem isWeakReplaceableBy_irrefl (a : Ty) :
    a.isWeakReplaceableBy a = false := by
  by_contra h
  have h' := eq_true_of_ne_false h
  have := isWeakReplaceableBy_target_not_source h' a
  rw [this] at h'
  exact Bool.false_ne_true h'

/-! ## The HIR: expressions, statements, bodies

`hir::Expr` and `hir::Stmt` from the version of `hir` used by
`crates/hir_ty/src/globals.rs`.  Arena indices (`Idx<…>`) are `Nat`; the
per-file arenas live in `Bodies` as total index maps. -/

/-- `hir::BinaryOp`. -/
inductive BinaryOp where
  | add | sub | mul | div | mod
  | lt | gt | le | ge | eq | ne
  | and | or
  deriving Repr, DecidableEq

/-- `hir::UnaryOp`. -/
inductive UnaryOp where
  | pos | neg | not
  deriving Repr, DecidableEq

/-- A switch arm: optional variant name (missing when the syntax was bad)
and the arm's body expression. -/
structure SwitchArm where
  variantName : Option Name
  body : Nat
  deriving Repr, DecidableEq

/-- `hir::Expr`.  Children are arena indices.  Fields irrelevant to every
claim (source ranges, string/char payloads) are dropped. -/
inductive Expr where
  | missing
  | intLiteral (num : Nat)
  | floatLiteral
  | boolLiteral (b : Bool)
  | stringLiteral
  | charLiteral
  | arrayDecl (size : Option Nat) (ty : Nat)
  | arrayLiteral (ty : Option Nat) (items : List Nat)
  | index (source : Nat) (idx : Nat)
  | cast (ty : Nat) (sub : Option Nat)
  | ref (mutable : Bool) (inner : Nat)
  | deref (pointer : Nat)
  | binary (lhs rhs : Nat) (op : BinaryOp)
  | unary (inner : Nat) (op : UnaryOp)
  | paren (inner : Option Nat)
  | block (stmts : List Nat) (tailExpr : Option Nat)
  | «if» (condition : Nat) (body : Nat) (elseBranch : Option Nat)
  | «while» (condition : Option Nat) (body : Nat)
  | «switch» (scrutinee : Nat) (arms : List SwitchArm) (default : Option Nat)
  | «local» (localDef : Nat)
  | switchLocal (switchLocal : Nat)
  | param (idx : Nat)
  | localGlobal (name : Name)
  | member (previous : Nat) (name : Name)
  | call (callee : Nat) (args : List Nat)
  | lambda (lambda : Nat)
  | comptime (comptime : Nat)
  | structLiteral (ty : Option Nat) (members : List (Option Name × Nat))
  | primitiveTy
  | structDecl
  | enumDecl
  | distinctDecl
  | directive (name : Name) (args : List Nat)
  | «import» (file : FileName)
  deriving Repr, DecidableEq

/-- `hir::LocalDef`: optional type annotation, optional value, mutability. -/
structure LocalDef where
  ty : Option Nat
  value : Option Nat
  mutable : Bool
  deriving Repr, DecidableEq

/-- `hir::Assign`: destination, value, optional quick-assign operator. -/
structure Assign where
  dest : Nat
  value : Nat
  quickAssignOp : Option BinaryOp
  deriving Repr, DecidableEq

/-- `hir::Stmt`.  `break`/`continue` labels are `None` exactly when the
break escapes the body being checked (unresolved label). -/
inductive Stmt where
  | expr (e : Nat)
  | localDef (localDef : Nat)
  | assign (assign : Nat)
  | «break» (label : Option Nat) (value : Option Nat)
  | «continue» (label : Option Nat)
  | defer (e : Nat)
  deriving Repr, DecidableEq

/-- `hir::Lambda`: we keep only the fields `is_safe_to_compile` and
`infer_expr` look at.  `isExternFlag` is the source's extern flag. -/
structure Lambda where
  returnTy : Option Nat
  body : Nat
  isExternFlag : Bool
  deriving Repr, DecidableEq

/-- A per-file `hir::Bodies`: arenas as total index maps, the
block-to-scope table and the scope usage lists
(`block_to_scope_id` / `scope_id_usages`). -/
structure Bodies where
  exprs : Nat → Expr
  stmts : Nat → Stmt
  localDefs : Nat → LocalDef
  assigns : Nat → Assign
  lambdas : Nat → Lambda
  comptimes : Nat → Nat
  blockToScopeId : Nat → Option Nat
  scopeIdUsages : Nat → List Nat
  numLocalDefs : Nat

/-! ## Diagnostics -/

/-- `ExpectedTy`. -/
inductive ExpectedTy where
  | concrete (ty : Ty)
  | enum
  | variant
  deriving Repr, DecidableEq

/-- `TyDiagnosticKind`, restricted to the kinds produced by the embedded
code paths. -/
inductive TyDiagnosticKind where
  | mismatch (expected : ExpectedTy) (found : Ty)
  | intTooBigForType (found : Nat) (max : Nat) (ty : Ty)
  | missingElse (expected : Ty)
  | ifMismatch (first second : Ty)
  | indexRaw
  | indexOutOfBounds (index : Nat) (actualSize : Nat) (arrayTy : Ty)
  | indexNonArray (found : Ty)
  | derefRaw
  | derefNonPointer (found : Ty)
  | calledNonFunction (found : Ty)
  | missingArg (expected : ExpectedTy)
  | extraArg (found : Ty)
  | nonExistentVariant (variantName : Name) (enumTy : Ty)
  | switchAlreadyCoversVariant (ty : Ty)
  | switchDoesNotCoverVariant (ty : Ty)
  | switchMismatch (second first : Ty)
  | binaryOpMismatch (op : BinaryOp) (first second : Ty)
  | unaryOpMismatch (op : UnaryOp) (ty : Ty)
  | globalNotConst
  deriving Repr, DecidableEq

/-- `TyDiagnostic`: kind plus the expression it points at.  Source ranges,
file names and `help` notes are presentation data and are not modelled. -/
structure TyDiagnostic where
  kind : TyDiagnosticKind
  expr : Option Nat
  deriving Repr, DecidableEq

/-! ## Operator tables

The per-operator type tables live in `ty.rs`, which is not among the
sources; they are modelled from the spec (§4.3.1 `Binary`): the table
returns `(max_ty, final_output_ty)` or `None`, comparisons produce `Bool`,
arithmetic produces the unified operand type, and the default type of a
failed arithmetic operation is the weak `{uint}`. -/

/-- Modelled from the spec: which operators are comparisons. -/
def BinaryOp.isCmp : BinaryOp → Bool
  | .lt | .gt | .le | .ge | .eq | .ne => true
  | _ => false

/-- The `(max_ty, final_output_ty)` pair of the operator table. -/
structure BinaryOutput where
  maxTy : Ty
  finalOutputTy : Ty
  deriving Repr, DecidableEq

/-- Modelled from the spec: `BinaryOp::get_possible_output_ty`. -/
def BinaryOp.getPossibleOutputTy (op : BinaryOp) (lhs rhs : Ty) :
    Option BinaryOutput :=
  (lhs.max rhs).map fun m =>
    if op.isCmp then ⟨m, .bool⟩ else ⟨m, m⟩

/-- Modelled from the spec: `BinaryOp::default_ty` — `{uint}` for
arithmetic ("the default type of addition", globals.rs:916), `bool` for
comparisons and logic. -/
def BinaryOp.defaultTy (op : BinaryOp) : Ty :=
  match op with
  | .and | .or => .bool
  | _ => if op.isCmp then .bool else .uInt 0

/-- Modelled from the spec: `BinaryOp::can_perform` — whether the unified
operand type supports the operator.  Arithmetic needs numbers, logic needs
`bool`, comparisons work on scalars. -/
def BinaryOp.canPerform (op : BinaryOp) (t : Ty) : Bool :=
  match op with
  | .and | .or => t = .bool
  | .eq | .ne => true
  | .lt | .gt | .le | .ge | .add | .sub | .mul | .div | .mod =>
    match t with
    | .iInt _ | .uInt _ | .float _ => true
    | _ => false

/-- Modelled from the spec: `UnaryOp::can_perform`. -/
def UnaryOp.canPerform (op : UnaryOp) (t : Ty) : Bool :=
  match op with
  | .not => t = .bool
  | .pos | .neg =>
    match t with
    | .iInt _ | .uInt _ | .float _ => true
    | _ => false

/-- Modelled from the spec: `UnaryOp::get_possible_output_ty` — negation
turns an unsigned integer signed, everything else keeps its type. -/
def UnaryOp.getPossibleOutputTy (op : UnaryOp) (t : Ty) : Ty :=
  match op, t with
  | .neg, .uInt bw => .iInt bw
  | _, t => t

/-- Modelled from the spec: `UnaryOp::default_ty`. -/
def UnaryOp.defaultTy : UnaryOp → Ty
  | .not => .bool
  | _ => .uInt 0

/-! ## The inference side tables -/

/-- The per-file slice of `ProjectInference` that the embedded procedures
mutate, plus `local_usages` and the diagnostics vector of the inference
context.  Side tables are total maps (the source panics on a missing
entry; those panics are not modelled, re-inference only runs over
expressions that inference already typed). -/
structure InferenceState where
  exprTys : Nat → Ty
  localTys : Nat → Ty
  localUsages : Nat → List Nat
  diags : List TyDiagnostic

namespace InferenceState

/-- `self.tys[self.file].expr_tys.insert(expr, ty)`. -/
def insertExprTy (s : InferenceState) (i : Nat) (t : Ty) : InferenceState :=
  { s with exprTys := fun j => if j = i then t else s.exprTys j }

/-- `self.tys[self.file].local_tys.insert(local_def, ty)`. -/
def insertLocalTy (s : InferenceState) (i : Nat) (t : Ty) : InferenceState :=
  { s with localTys := fun j => if j = i then t else s.localTys j }

/-- `usages.clear()` for one local. -/
def clearLocalUsages (s : InferenceState) (i : Nat) : InferenceState :=
  { s with localUsages := fun j => if j = i then [] else s.localUsages j }

/-- `self.diagnostics.push(d)`. -/
def pushDiag (s : InferenceState) (d : TyDiagnostic) : InferenceState :=
  { s with diags := s.diags ++ [d] }

end InferenceState

/-- Implicit pointer-chain dereference
(`while let Some(ptr) = source_ty.as_pointer() { source_ty = ptr.1 }`). -/
def stripPointers : Ty → Ty
  | .pointer _ s => stripPointers s
  | t => t

/-- `all_usages_ty` (globals.rs 746-767): fold the types of all `break`
values targeting a scope with `Ty::max`; no usages mean `Void`. -/
def allUsagesTy (B : Bodies) (s : InferenceState) (labelId : Nat) : Ty :=
  let maxTy := (B.scopeIdUsages labelId).foldl
    (fun maxTy usage =>
      match B.stmts usage with
      | .«break» _ (some value) =>
          match maxTy with
          | some m => Ty.max m (s.exprTys value)
          | none => some (s.exprTys value)
      | .«break» _ none =>
          match maxTy with
          | some m => Ty.max m .void
          | none => some Ty.void
      | _ => maxTy)
    none
  maxTy.getD .void

/-- The `loss_of_distinct` guard of re-inference (globals.rs 894-895). -/
def lossOfDistinct (previousTy newTy : Ty) : Bool :=
  (match previousTy with | .distinct _ _ => true | _ => false) &&
    newTy.isFunctionallyEquivalentTo previousTy

/-- The `array_to_slice` guard of re-inference (globals.rs 896-908). -/
def arrayToSlice (previousTy newTy : Ty) : Bool :=
  match previousTy, newTy with
  | .slice previousSubTy, .array _ _ newSubTy =>
      previousSubTy.isWeakReplaceableBy newSubTy ||
        previousSubTy.isEqualTo newSubTy
  | _, _ => false

/-- The `strong_int_to_weak_int` guard of re-inference (globals.rs 921). -/
def strongIntToWeakInt (previousTy newTy : Ty) : Bool :=
  match previousTy, newTy with
  | .uInt bw, .uInt 0 | .uInt bw, .iInt 0
  | .iInt bw, .uInt 0 | .iInt bw, .iInt 0 => bw ≠ 0
  | _, _ => false

/-- The re-inference update of one expression's entry (globals.rs 894-940):
panic (`none`) when the new type is not reachable from the previous one,
skip the insert on the three benign mismatch shapes. -/
def reinferUpdateExprTy (s : InferenceState) (expr : Nat) (newTy : Ty) :
    Option InferenceState :=
  let previousTy := s.exprTys expr
  let loss := lossOfDistinct previousTy newTy
  let arr := arrayToSlice previousTy newTy
  let sw := strongIntToWeakInt previousTy newTy
  if previousTy ≠ newTy ∧
      ¬(previousTy.isWeakReplaceableBy newTy = true ∨ loss = true ∨
        arr = true ∨ sw = true) then
    none
  else if loss = false ∧ arr = false ∧ sw = false then
    pure (s.insertExprTy expr newTy)
  else
    pure s

/-- The corresponding update of a local's entry (globals.rs 957-1006). -/
def reinferUpdateLocalTy (s : InferenceState) (localDef : Nat) (newTy : Ty) :
    Option InferenceState :=
  let previousTy := s.localTys localDef
  let loss := lossOfDistinct previousTy newTy
  let arr := arrayToSlice previousTy newTy
  let sw := strongIntToWeakInt previousTy newTy
  if previousTy ≠ newTy ∧
      ¬(previousTy.isWeakReplaceableBy newTy = true ∨ loss = true ∨
        arr = true ∨ sw = true) then
    none
  else if loss = false ∧ arr = false ∧ sw = false then
    pure (s.insertLocalTy localDef newTy)
  else
    pure s

/-- The `Stmt::LocalDef` rule of re-inference (globals.rs 944-1007). -/
def reinferLocalDefStmt (B : Bodies) (s : InferenceState) (localDef : Nat) :
    Option InferenceState :=
  let defBody := B.localDefs localDef
  if defBody.ty.isSome then
    -- a type annotation pins the local's type
    pure s
  else
    match defBody.value with
    | none => pure s
    | some value => reinferUpdateLocalTy s localDef (s.exprTys value)

/-! ## `replace_weak_tys` and re-inference

The mutually recursive nest `replace_weak_tys` ↔ `reinfer_usages` ↔
`reinfer_expr` (globals.rs 104-1017).  `reinfer_expr` walks the
`DescentOpts::Infer` descendants children-first; the walk is spelled as the
structurally identical recursive traversal (`hir`'s descendant iterator is
not among the sources; spec §4.3.1 specifies the children-before-parents
order).  Every function takes fuel and returns `none` when fuel runs out or
the source would panic. -/

mutual

/-- `GlobalInferenceCtx::replace_weak_tys` (globals.rs 240-453).  Returns
the updated state and the source's boolean: `true` iff `expr` had a weak
type that was really replaced (the anonymous-array-to-slice adjustment
returns `false`). -/
def replaceWeakTys (B : Bodies) : Nat → InferenceState → Nat → Ty →
    Option (InferenceState × Bool)
  | 0, _, _, _ => none
  | fuel + 1, s, expr, newTy₀ =>
    let exprBody := B.exprs expr
    if exprBody = .missing then
      pure (s, false)
    else
    let foundTy := s.exprTys expr
    if foundTy.isWeakReplaceableBy newTy₀ = false then
      pure (s, false)
    else
    let (newTy, reallyReplaced) :=
      match foundTy, newTy₀ with
      | .array true size _, .slice newSubTy =>
          (Ty.array false size newSubTy, false)
      | _, _ => (newTy₀, true)
    let s := s.insertExprTy expr newTy
    (fun s => (s, reallyReplaced)) <$>
      match exprBody with
      | .intLiteral num =>
          match newTy.getMaxIntSize with
          | some maxSize =>
              if num > maxSize then
                pure (s.pushDiag ⟨.intTooBigForType num maxSize newTy, some expr⟩)
              else pure s
          | none => pure s
      | .arrayLiteral none items =>
          match newTy with
          | .array _ _ subTy => replaceWeakTysList B fuel s items subTy
          | .slice subTy =>
              let newTy := Ty.array false items.length subTy
              let s := s.insertExprTy expr newTy
              replaceWeakTysList B fuel s items subTy
          | _ => none
      | .paren (some inner) =>
          (·.1) <$> replaceWeakTys B fuel s inner newTy
      | .block _ tailExpr => do
          let s ← match B.blockToScopeId expr with
            | some scopeId =>
                replaceWeakTysBreakValues B fuel s (B.scopeIdUsages scopeId) newTy
            | none => pure s
          match tailExpr with
          | some tailExpr => (·.1) <$> replaceWeakTys B fuel s tailExpr newTy
          | none => pure s
      | .«if» _ body elseBranch => do
          let (s, _) ← replaceWeakTys B fuel s body newTy
          match elseBranch with
          | some elseBranch => (·.1) <$> replaceWeakTys B fuel s elseBranch newTy
          | none => pure s
      | .«while» none _ =>
          match B.blockToScopeId expr with
          | some scopeId =>
              replaceWeakTysBreakValues B fuel s (B.scopeIdUsages scopeId) newTy
          | none => pure s
      | .«switch» _ arms default => do
          let s ← replaceWeakTysList B fuel s (arms.map SwitchArm.body) newTy
          match default with
          | some defaultBody =>
              (·.1) <$> replaceWeakTys B fuel s defaultBody newTy
          | none => pure s
      | .comptime comptime =>
          (·.1) <$> replaceWeakTys B fuel s (B.comptimes comptime) newTy
      | .deref pointer =>
          let mutable := ((s.exprTys expr).asPointer.map Prod.fst).getD false
          (·.1) <$> replaceWeakTys B fuel s pointer (.pointer mutable newTy)
      | .ref _ inner => do
          -- `^mut {uint}` keeps its mutability when replaced by `^i32`
          let (oldMutable, _) ← foundTy.asPointer
          let (_, subTy) ← newTy.asPointer
          let (s, _) ← replaceWeakTys B fuel s inner subTy
          pure (s.insertExprTy expr (.pointer oldMutable subTy))
      | .binary lhs rhs _ => do
          let (s, _) ← replaceWeakTys B fuel s lhs newTy
          (·.1) <$> replaceWeakTys B fuel s rhs newTy
      | .unary inner _ =>
          (·.1) <$> replaceWeakTys B fuel s inner newTy
      | .«local» localDef => do
          let localBody := B.localDefs localDef
          let s ← match localBody.value with
            | some value => do
                let (s, changed) ← replaceWeakTys B fuel s value newTy
                pure (if changed then s.insertLocalTy localDef newTy else s)
            | none => pure s
          -- re-infer everything that used this variable, clearing the
          -- usage set first so no nasty recursion takes place
          let usages := s.localUsages localDef
          let s := s.clearLocalUsages localDef
          reinferUsages B fuel s usages
      | .structLiteral _ members => do
          let memberTys ← newTy.asStruct
          replaceWeakTysMembers B fuel s members memberTys
      | _ => pure s
  termination_by fuel _ _ _ => fuel

/-- The `for item in items { self.replace_weak_tys(item, sub_ty); }` loops
of `replace_weak_tys` (array items, switch arm bodies). -/
def replaceWeakTysList (B : Bodies) : Nat → InferenceState → List Nat → Ty →
    Option InferenceState
  | 0, _, _, _ => none
  | _ + 1, s, [], _ => pure s
  | fuel + 1, s, e :: rest, ty => do
      let (s, _) ← replaceWeakTys B fuel s e ty
      replaceWeakTysList B fuel s rest ty
  termination_by fuel _ _ _ => fuel

/-- The scope-usage loops of `replace_weak_tys`: replace the value of every
`break` statement targeting the block's scope. -/
def replaceWeakTysBreakValues (B : Bodies) : Nat → InferenceState →
    List Nat → Ty → Option InferenceState
  | 0, _, _, _ => none
  | _ + 1, s, [], _ => pure s
  | fuel + 1, s, usage :: rest, ty => do
      let s ← match B.stmts usage with
        | .«break» _ (some value) =>
            (·.1) <$> replaceWeakTys B fuel s value ty
        | _ => pure s
      replaceWeakTysBreakValues B fuel s rest ty
  termination_by fuel _ _ _ => fuel

/-- The `StructLiteral` branch of `replace_weak_tys` (globals.rs 434-448):
members with a name are replaced by the member type of the new struct type
(the source indexes the member map and panics on a missing name). -/
def replaceWeakTysMembers (B : Bodies) : Nat → InferenceState →
    List (Option Name × Nat) → Members → Option InferenceState
  | 0, _, _, _ => none
  | _ + 1, s, [], _ => pure s
  | fuel + 1, s, member :: rest, memberTys => do
      let s ← match member.1 with
        | none => pure s
        | some name => do
            let newMemberTy ← memberTys.find name
            (·.1) <$> replaceWeakTys B fuel s member.2 newMemberTy
      replaceWeakTysMembers B fuel s rest memberTys
  termination_by fuel _ _ _ => fuel

/-- `GlobalInferenceCtx::reinfer_usages` (globals.rs 144-219). -/
def reinferUsages (B : Bodies) : Nat → InferenceState → List Nat →
    Option InferenceState
  | 0, _, _ => none
  | _ + 1, s, [] => pure s
  | fuel + 1, s, usage :: rest => do
      let s ← match B.stmts usage with
        | .localDef userLocalDef =>
            let userLocalBody := B.localDefs userLocalDef
            match userLocalBody.value with
            | some value => do
                let (s, userLocalTy) ← reinferExpr B fuel s value
                -- if there is no type annotation on the user, replace its type
                if userLocalBody.ty.isNone then
                  pure (s.insertLocalTy userLocalDef userLocalTy)
                else pure s
            | none => pure s
        | .assign assign => do
            let assignBody := B.assigns assign
            let (s, destTy) ← reinferExpr B fuel s assignBody.dest
            let (s, valueTy) ← reinferExpr B fuel s assignBody.value
            match assignBody.quickAssignOp.map
                (fun op => (op, op.getPossibleOutputTy destTy valueTy)) with
            | some (_, some outputTy) => do
                let maxTy := outputTy.maxTy
                let (s, _) ← replaceWeakTys B fuel s assignBody.dest maxTy
                (·.1) <$> replaceWeakTys B fuel s assignBody.value maxTy
            | some (_, none) => pure s
            | none =>
                if destTy.isWeakReplaceableBy valueTy then
                  (·.1) <$> replaceWeakTys B fuel s assignBody.dest valueTy
                else if valueTy.canFitInto destTy then
                  (·.1) <$> replaceWeakTys B fuel s assignBody.value valueTy
                else pure s
        | .expr e => (·.1) <$> reinferExpr B fuel s e
        | .«break» _ (some value) => (·.1) <$> reinferExpr B fuel s value
        | .«break» _ none => pure s
        | .defer e => (·.1) <$> reinferExpr B fuel s e
        | .«continue» _ => pure s
      reinferUsages B fuel s rest
  termination_by fuel _ _ => fuel

/-- `GlobalInferenceCtx::reinfer_expr` (globals.rs 740-1017): if the root is
already `Unknown` return it, otherwise walk all descendants children-first
and re-apply the per-shape rules, returning the root's new type. -/
def reinferExpr (B : Bodies) : Nat → InferenceState → Nat →
    Option (InferenceState × Ty)
  | 0, _, _ => none
  | fuel + 1, s, expr =>
    let previousTy := s.exprTys expr
    if previousTy = .unknown then
      pure (s, previousTy)
    else do
      let s ← reinferWalk B fuel s expr
      pure (s, s.exprTys expr)
  termination_by fuel _ _ => fuel

/-- One step of the children-first walk of `reinfer_expr`: process the
sub-expressions (and the statements of blocks), then this expression's
rule. -/
def reinferWalk (B : Bodies) : Nat → InferenceState → Nat →
    Option InferenceState
  | 0, _, _ => none
  | fuel + 1, s, expr => do
      let s ← match B.exprs expr with
        | .arrayLiteral _ items => reinferWalkList B fuel s items
        | .index source idx => do
            let s ← reinferWalk B fuel s source
            reinferWalk B fuel s idx
        | .cast _ (some sub) => reinferWalk B fuel s sub
        | .ref _ inner => reinferWalk B fuel s inner
        | .deref pointer => reinferWalk B fuel s pointer
        | .binary lhs rhs _ => do
            let s ← reinferWalk B fuel s lhs
            reinferWalk B fuel s rhs
        | .unary inner _ => reinferWalk B fuel s inner
        | .paren (some inner) => reinferWalk B fuel s inner
        | .block stmts tailExpr => do
            let s ← reinferWalkStmts B fuel s stmts
            match tailExpr with
            | some tailExpr => reinferWalk B fuel s tailExpr
            | none => pure s
        | .«if» condition body elseBranch => do
            let s ← reinferWalk B fuel s condition
            let s ← reinferWalk B fuel s body
            match elseBranch with
            | some elseBranch => reinferWalk B fuel s elseBranch
            | none => pure s
        | .«while» condition body => do
            let s ← match condition with
              | some condition => reinferWalk B fuel s condition
              | none => pure s
            reinferWalk B fuel s body
        | .«switch» scrutinee arms default => do
            let s ← reinferWalk B fuel s scrutinee
            let s ← reinferWalkList B fuel s (arms.map SwitchArm.body)
            match default with
            | some defaultBody => reinferWalk B fuel s defaultBody
            | none => pure s
        | .call callee args => do
            let s ← reinferWalk B fuel s callee
            reinferWalkList B fuel s args
        | .structLiteral _ members =>
            reinferWalkList B fuel s (members.map Prod.snd)
        | .comptime comptime => reinferWalk B fuel s (B.comptimes comptime)
        | _ => pure s
      reinferRule B fuel s expr
  termination_by fuel _ _ => fuel

/-- Children-first walk over an expression list. -/
def reinferWalkList (B : Bodies) : Nat → InferenceState → List Nat →
    Option InferenceState
  | 0, _, _ => none
  | _ + 1, s, [] => pure s
  | fuel + 1, s, e :: rest => do
      let s ← reinferWalk B fuel s e
      reinferWalkList B fuel s rest
  termination_by fuel _ _ => fuel

/-- Children-first walk over block statements, applying the
`Stmt::LocalDef` rule after the statement's own expressions. -/
def reinferWalkStmts (B : Bodies) : Nat → InferenceState → List Nat →
    Option InferenceState
  | 0, _, _ => none
  | _ + 1, s, [] => pure s
  | fuel + 1, s, stmt :: rest => do
      let s ← match B.stmts stmt with
        | .expr e => reinferWalk B fuel s e
        | .localDef localDef => do
            let defBody := B.localDefs localDef
            let s ← match defBody.value with
              | some value => reinferWalk B fuel s value
              | none => pure s
            reinferLocalDefStmt B s localDef
        | .assign assign => do
            let assignBody := B.assigns assign
            let s ← reinferWalk B fuel s assignBody.dest
            reinferWalk B fuel s assignBody.value
        | .«break» _ (some value) => reinferWalk B fuel s value
        | .«break» _ none => pure s
        | .«continue» _ => pure s
        | .defer e => reinferWalk B fuel s e
      reinferWalkStmts B fuel s rest
  termination_by fuel _ _ => fuel

/-- The per-shape rule of `reinfer_expr` (globals.rs 784-940): compute the
expression's new type from the already re-inferred children, then update
the side table through the panic/skip guards. -/
def reinferRule (B : Bodies) : Nat → InferenceState → Nat →
    Option InferenceState
  | 0, _, _ => none
  | fuel + 1, s, expr =>
    let previousTy := s.exprTys expr
    if previousTy = .unknown ∨ previousTy = .noEval then
      pure s
    else do
      let (s, newTy?) ← (do
        match B.exprs expr with
        | .intLiteral num =>
            match previousTy with
            | .iInt 0 =>
                if num > 2 ^ 31 - 1 then pure (s, some (Ty.iInt 64))
                else pure (s, none)
            | .uInt 0 =>
                if num > 2 ^ 32 - 1 then pure (s, some (Ty.uInt 64))
                else pure (s, none)
            | _ => pure (s, none)
        | .ref mutable inner =>
            let innerTy := s.exprTys inner
            if innerTy = .type then pure (s, some innerTy)
            else pure (s, some (.pointer mutable innerTy))
        | .deref pointer =>
            let innerTy := s.exprTys pointer
            pure (s, some ((innerTy.asPointer.map Prod.snd).getD .unknown))
        | .binary lhs rhs op =>
            let lhsTy := s.exprTys lhs
            let rhsTy := s.exprTys rhs
            (match op.getPossibleOutputTy lhsTy rhsTy with
            | some outputTy => do
                let maxTy := outputTy.maxTy
                let (s, _) ← replaceWeakTys B fuel s lhs maxTy
                let (s, _) ← replaceWeakTys B fuel s rhs maxTy
                pure (s, some outputTy.finalOutputTy)
            | none => pure (s, some op.defaultTy))
        | .unary inner op =>
            let innerTy := s.exprTys inner
            if op.canPerform innerTy then
              pure (s, some (op.getPossibleOutputTy innerTy))
            else pure (s, some op.defaultTy)
        | .index source _ =>
            let sourceTy := stripPointers (s.exprTys source)
            pure (s, some (((sourceTy.asArray.map Prod.snd).orElse
              (fun _ => sourceTy.asSlice)).getD .unknown))
        | .block _ tailExpr =>
            let tailTy := tailExpr.map s.exprTys
            (match B.blockToScopeId expr with
            | some labelId =>
                let usagesTy := allUsagesTy B s labelId
                match tailTy with
                | some newTail =>
                    pure (s, some ((usagesTy.max newTail).getD .unknown))
                | none => pure (s, some usagesTy)
            | none => pure (s, some (tailTy.getD .void)))
        | .«if» _ body elseBranch =>
            let bodyTy := s.exprTys body
            (match elseBranch with
            | some elseBranch =>
                let newElse := s.exprTys elseBranch
                pure (s, some ((bodyTy.max newElse).getD .unknown))
            | none =>
                if bodyTy = .noEval then pure (s, some Ty.void)
                else pure (s, some bodyTy))
        | .«while» condition _ =>
            if condition.isSome then pure (s, some Ty.void)
            else
              (match B.blockToScopeId expr with
              | some labelId => pure (s, some (allUsagesTy B s labelId))
              | none => pure (s, some Ty.void))
        | .«local» localDef => pure (s, some (s.localTys localDef))
        | _ => pure (s, none))
      match newTy? with
      | none => pure s
      | some newTy => reinferUpdateExprTy s expr newTy
  termination_by fuel _ _ => fuel

end

/-! ## Write-safety of the replacement/re-inference nest

Every write the nest performs into `expr_tys` either keeps the stored
value, or stores a *replacement target* (a `neverSource` type) over a value
that was still replaceable.  Since targets are never replaceable again,
a second `replace_weak_tys` with the same type finds nothing to do — this
is the engine behind idempotence (claim C2) and the return-value
characterization (claim C3). -/

/-- `TysSafe s s'`: every `expr_tys` entry is unchanged, or it moved from a
replaceable value to a `neverSource` value. -/
def TysSafe (s s' : InferenceState) : Prop :=
  ∀ i, s'.exprTys i = s.exprTys i ∨
    (neverSource (s'.exprTys i) = true ∧ neverSource (s.exprTys i) = false)

theorem TysSafe.refl (s : InferenceState) : TysSafe s s := fun _ => Or.inl rfl

theorem TysSafe.trans {a b c : InferenceState} (h1 : TysSafe a b)
    (h2 : TysSafe b c) : TysSafe a c := by
  intro i
  rcases h2 i with h2i | ⟨h2t, h2f⟩
  · rw [h2i]; exact h1 i
  · rcases h1 i with h1i | ⟨h1t, _⟩
    · rw [h1i] at h2f; exact Or.inr ⟨h2t, h2f⟩
    · rw [h1t] at h2f; exact absurd h2f (by simp)

theorem TysSafe.of_exprTys_eq {s s' : InferenceState}
    (h : s'.exprTys = s.exprTys) : TysSafe s s' := fun i => Or.inl (by rw [h])

theorem TysSafe.pushDiag {s t : InferenceState} (h : TysSafe s t)
    (d : TyDiagnostic) : TysSafe s (t.pushDiag d) :=
  h.trans (TysSafe.of_exprTys_eq rfl)

theorem TysSafe.insertLocalTy {s t : InferenceState} (h : TysSafe s t)
    (i : Nat) (ty : Ty) : TysSafe s (t.insertLocalTy i ty) :=
  h.trans (TysSafe.of_exprTys_eq rfl)

theorem TysSafe.clearLocalUsages {s t : InferenceState} (h : TysSafe s t)
    (i : Nat) : TysSafe s (t.clearLocalUsages i) :=
  h.trans (TysSafe.of_exprTys_eq rfl)

/-- A source type is not a `neverSource` type. -/
theorem neverSource_eq_false_of_source {a b : Ty}
    (h : a.isWeakReplaceableBy b = true) : neverSource a = false := by
  by_contra hn
  have hn' := eq_true_of_ne_false hn
  rw [neverSource_not_source a b hn'] at h
  exact Bool.false_ne_true h

/-- A guarded insert (the stored value is the target of a replacement that
applied to the old value) is safe. -/
theorem TysSafe.insert_guard {s : InferenceState} {i : Nat} {v : Ty}
    (h : (s.exprTys i).isWeakReplaceableBy v = true) :
    TysSafe s (s.insertExprTy i v) := by
  intro j
  by_cases hj : j = i
  · subst hj
    refine Or.inr ⟨?_, neverSource_eq_false_of_source h⟩
    simp only [InferenceState.insertExprTy, if_pos rfl]
    exact neverSource_of_target _ _ h
  · exact Or.inl (by simp [InferenceState.insertExprTy, hj])

/-- Re-storing the value already present is safe. -/
theorem TysSafe.insert_self {s : InferenceState} {i : Nat} {v : Ty}
    (h : s.exprTys i = v) : TysSafe s (s.insertExprTy i v) := by
  intro j
  by_cases hj : j = i
  · subst hj; exact Or.inl (by simp [InferenceState.insertExprTy, h])
  · exact Or.inl (by simp [InferenceState.insertExprTy, hj])

/-- Storing a `neverSource` value over an entry whose original value was
still replaceable is safe, at any point of a safe chain. -/
theorem TysSafe.insert_nonSrc {s t : InferenceState} {i : Nat} {v : Ty}
    (h : TysSafe s t) (hv : neverSource v = true)
    (hns : neverSource (s.exprTys i) = false) :
    TysSafe s (t.insertExprTy i v) := by
  intro j
  by_cases hj : j = i
  · subst hj
    exact Or.inr ⟨by simpa [InferenceState.insertExprTy] using hv, hns⟩
  · have : (t.insertExprTy i v).exprTys j = t.exprTys j := by
      simp [InferenceState.insertExprTy, hj]
    rw [this]; exact h j

/-- `reinferUpdateExprTy` only performs guarded or identical writes. -/
theorem reinferUpdateExprTy_safe {s s' : InferenceState} {e : Nat} {v : Ty}
    (h : reinferUpdateExprTy s e v = some s') : TysSafe s s' := by
  rw [reinferUpdateExprTy] at h
  split at h
  · exact absurd h (by simp)
  · rename_i hguard
    push_neg at hguard
    split at h
    · simp only [Option.pure_def, Option.some.injEq] at h
      subst h
      by_cases heq : s.exprTys e = v
      · exact TysSafe.insert_self heq
      · rcases hguard heq with hw | hl | ha | hsw
        · exact TysSafe.insert_guard hw
        · rename_i hcond; exact absurd hl (by simp_all)
        · rename_i hcond; exact absurd ha (by simp_all)
        · rename_i hcond; exact absurd hsw (by simp_all)
    · simp only [Option.pure_def, Option.some.injEq] at h
      subst h
      exact TysSafe.refl s

/-- `reinferUpdateLocalTy` never writes `expr_tys`. -/
theorem reinferUpdateLocalTy_safe {s s' : InferenceState} {l : Nat} {v : Ty}
    (h : reinferUpdateLocalTy s l v = some s') : TysSafe s s' := by
  rw [reinferUpdateLocalTy] at h
  split at h
  · exact absurd h (by simp)
  · split at h <;> simp only [Option.pure_def, Option.some.injEq] at h <;>
      subst h
    · exact TysSafe.of_exprTys_eq rfl
    · exact TysSafe.refl s

/-- `reinferLocalDefStmt` never writes `expr_tys`. -/
theorem reinferLocalDefStmt_safe {B : Bodies} {s s' : InferenceState}
    {l : Nat} (h : reinferLocalDefStmt B s l = some s') : TysSafe s s' := by
  rw [reinferLocalDefStmt] at h
  split at h
  · simp only [Option.pure_def, Option.some.injEq] at h; subst h
    exact TysSafe.refl s
  · split at h
    · simp only [Option.pure_def, Option.some.injEq] at h; subst h
      exact TysSafe.refl s
    · exact reinferUpdateLocalTy_safe h


/-- Decompose `(·.1) <$> x = some s` (discarded boolean/type results). -/
theorem map_fst_eq_some {α β : Type} {x : Option (α × β)} {s : α}
    (h : ((·.1) <$> x) = some s) : ∃ r, x = some (s, r) := by
  simp only [Option.map_eq_map, Option.map_eq_some'] at h
  obtain ⟨⟨a, b⟩, hx, hf⟩ := h
  exact ⟨b, by simp_all⟩

/-- Inversion for `asPointer`. -/
theorem asPointer_eq_some {t : Ty} {m : Bool} {sub : Ty}
    (h : t.asPointer = some (m, sub)) : t = .pointer m sub := by
  cases t <;> simp_all [Ty.asPointer]

set_option maxHeartbeats 1000000 in
theorem nest_safe (B : Bodies) : ∀ fuel : Nat,
    (∀ s e t s' r, replaceWeakTys B fuel s e t = some (s', r) → TysSafe s s') ∧
    (∀ s es t s', replaceWeakTysList B fuel s es t = some s' → TysSafe s s') ∧
    (∀ s us t s', replaceWeakTysBreakValues B fuel s us t = some s' →
      TysSafe s s') ∧
    (∀ s ms mt s', replaceWeakTysMembers B fuel s ms mt = some s' →
      TysSafe s s') ∧
    (∀ s us s', reinferUsages B fuel s us = some s' → TysSafe s s') ∧
    (∀ s e s' t, reinferExpr B fuel s e = some (s', t) → TysSafe s s') ∧
    (∀ s e s', reinferWalk B fuel s e = some s' → TysSafe s s') ∧
    (∀ s es s', reinferWalkList B fuel s es = some s' → TysSafe s s') ∧
    (∀ s sts s', reinferWalkStmts B fuel s sts = some s' → TysSafe s s') ∧
    (∀ s e s', reinferRule B fuel s e = some s' → TysSafe s s') := by
  intro fuel
  induction fuel with
  | zero =>
      refine ⟨?_, ?_, ?_, ?_, ?_, ?_, ?_, ?_, ?_, ?_⟩
      · intro s e t s' r h; simp [replaceWeakTys] at h
      · intro s es t s' h; simp [replaceWeakTysList] at h
      · intro s us t s' h; simp [replaceWeakTysBreakValues] at h
      · intro s ms mt s' h; simp [replaceWeakTysMembers] at h
      · intro s us s' h; simp [reinferUsages] at h
      · intro s e s' t h; simp [reinferExpr] at h
      · intro s e s' h; simp [reinferWalk] at h
      · intro s es s' h; simp [reinferWalkList] at h
      · intro s sts s' h; simp [reinferWalkStmts] at h
      · intro s e s' h; simp [reinferRule] at h
  | succ fuel ih =>
      obtain ⟨ihR, ihL, ihB, ihM, ihU, ihE, ihW, ihWL, ihWS, ihRl⟩ := ih
      refine ⟨?_, ?_, ?_, ?_, ?_, ?_, ?_, ?_, ?_, ?_⟩
      · -- replaceWeakTys
        intro s e t s' r h
        simp only [replaceWeakTys] at h
        split at h
        · -- Expr::Missing
          simp only [Option.pure_def, Option.some.injEq, Prod.mk.injEq] at h
          obtain ⟨h1, _⟩ := h; subst h1; exact TysSafe.refl _
        · split at h
          · -- not weak-replaceable
            simp only [Option.pure_def, Option.some.injEq, Prod.mk.injEq] at h
            obtain ⟨h1, _⟩ := h; subst h1; exact TysSafe.refl _
          · rename_i hmiss hguard
            have hg : (s.exprTys e).isWeakReplaceableBy t = true := by
              simpa using hguard
            split at h
            · -- anonymous array replaced by a slice
              rename_i sz sub0 nsub heqf
              have base : TysSafe s
                  (s.insertExprTy e (Ty.array false sz nsub)) :=
                TysSafe.insert_nonSrc (TysSafe.refl s) rfl
                  (neverSource_eq_false_of_source hg)
              simp only [Option.map_eq_map, Option.map_eq_some'] at h
              obtain ⟨sF, hm, hfr⟩ := h
              simp only [Prod.mk.injEq] at hfr
              obtain ⟨hfr1, _⟩ := hfr
              subst hfr1
              split at hm
              · -- intLiteral
                (repeat' split at hm) <;>
                  (simp only [Option.pure_def, Option.some.injEq] at hm
                   subst hm
                   first
                     | exact base.pushDiag _
                     | exact base)
              · -- arrayLiteral
                exact base.trans (ihL _ _ _ _ hm)
              · -- paren
                obtain ⟨r1, hm⟩ := map_fst_eq_some hm
                exact base.trans (ihR _ _ _ _ _ hm)
              · -- block
                split at hm
                · simp only [Option.bind_eq_bind, Option.bind_eq_some] at hm
                  obtain ⟨s2, hbv, hm⟩ := hm
                  refine (base.trans (ihB _ _ _ _ hbv)).trans ?_
                  split at hm
                  · obtain ⟨r1, hm⟩ := map_fst_eq_some hm
                    exact ihR _ _ _ _ _ hm
                  · simp only [Option.pure_def, Option.some.injEq] at hm
                    subst hm; exact TysSafe.refl _
                · simp only [Option.pure_def, Option.bind_eq_bind,
                    Option.some_bind] at hm
                  split at hm
                  · obtain ⟨r1, hm⟩ := map_fst_eq_some hm
                    exact base.trans (ihR _ _ _ _ _ hm)
                  · simp only [Option.some.injEq] at hm
                    subst hm; exact base
              · -- if
                simp only [Option.bind_eq_bind, Option.bind_eq_some] at hm
                obtain ⟨⟨s2, r2⟩, hb, hm⟩ := hm
                refine (base.trans (ihR _ _ _ _ _ hb)).trans ?_
                split at hm
                · obtain ⟨r3, hm⟩ := map_fst_eq_some hm
                  exact ihR _ _ _ _ _ hm
                · simp only [Option.pure_def, Option.some.injEq] at hm
                  subst hm; exact TysSafe.refl _
              · -- while
                split at hm
                · exact base.trans (ihB _ _ _ _ hm)
                · simp only [Option.pure_def, Option.some.injEq] at hm
                  subst hm; exact base
              · -- switch
                simp only [Option.bind_eq_bind, Option.bind_eq_some] at hm
                obtain ⟨s2, hl, hm⟩ := hm
                refine (base.trans (ihL _ _ _ _ hl)).trans ?_
                split at hm
                · obtain ⟨r3, hm⟩ := map_fst_eq_some hm
                  exact ihR _ _ _ _ _ hm
                · simp only [Option.pure_def, Option.some.injEq] at hm
                  subst hm; exact TysSafe.refl _
              · -- comptime
                obtain ⟨r1, hm⟩ := map_fst_eq_some hm
                exact base.trans (ihR _ _ _ _ _ hm)
              · -- deref
                obtain ⟨r1, hm⟩ := map_fst_eq_some hm
                exact base.trans (ihR _ _ _ _ _ hm)
              · -- ref
                simp only [Option.bind_eq_bind, Option.bind_eq_some] at hm
                obtain ⟨⟨om, osub⟩, hfp, hm⟩ := hm
                obtain ⟨⟨m2, sub2⟩, hnp, hm⟩ := hm
                simp [Ty.asPointer] at hnp
              · -- binary
                simp only [Option.bind_eq_bind, Option.bind_eq_some] at hm
                obtain ⟨⟨s2, r2⟩, ha, hm⟩ := hm
                obtain ⟨r3, hm⟩ := map_fst_eq_some hm
                exact ((base.trans (ihR _ _ _ _ _ ha)).trans (ihR _ _ _ _ _ hm))
              · -- unary
                obtain ⟨r1, hm⟩ := map_fst_eq_some hm
                exact base.trans (ihR _ _ _ _ _ hm)
              · -- local
                split at hm
                · simp only [Option.bind_eq_bind, Option.bind_eq_some] at hm
                  obtain ⟨⟨s3, chg⟩, hrv, hm⟩ := hm
                  have hs3 : TysSafe s s3 := base.trans (ihR _ _ _ _ _ hrv)
                  cases chg <;>
                    simp only [Bool.false_eq_true, reduceIte, Option.pure_def,
                      Option.bind_eq_bind, Option.bind_eq_some,
                      Option.some.injEq, exists_eq_left'] at hm
                  · exact (hs3.clearLocalUsages _).trans (ihU _ _ _ hm)
                  · exact ((hs3.insertLocalTy _ _).clearLocalUsages _).trans
                      (ihU _ _ _ hm)
                · simp only [Option.pure_def, Option.bind_eq_bind,
                    Option.some_bind] at hm
                  exact (base.clearLocalUsages _).trans (ihU _ _ _ hm)
              · -- structLiteral
                simp only [Option.bind_eq_bind, Option.bind_eq_some] at hm
                obtain ⟨mt, hms, hm⟩ := hm
                exact base.trans (ihM _ _ _ _ hm)
              · -- catch-all
                simp only [Option.pure_def, Option.some.injEq] at hm
                subst hm; exact base
            · -- ordinary replacement
              have base := TysSafe.insert_guard hg
              simp only [Option.map_eq_map, Option.map_eq_some'] at h
              obtain ⟨sF, hm, hfr⟩ := h
              simp only [Prod.mk.injEq] at hfr
              obtain ⟨hfr1, _⟩ := hfr
              subst hfr1
              split at hm
              · -- intLiteral
                (repeat' split at hm) <;>
                  (simp only [Option.pure_def, Option.some.injEq] at hm
                   subst hm
                   first
                     | exact base.pushDiag _
                     | exact base)
              · -- arrayLiteral
                split at hm
                · exact base.trans (ihL _ _ _ _ hm)
                · refine TysSafe.trans
                    (TysSafe.insert_nonSrc base ?_
                      (neverSource_eq_false_of_source hg))
                    (ihL _ _ _ _ hm)
                  simp [neverSource]
                · simp at hm
              · -- paren
                obtain ⟨r1, hm⟩ := map_fst_eq_some hm
                exact base.trans (ihR _ _ _ _ _ hm)
              · -- block
                split at hm
                · simp only [Option.bind_eq_bind, Option.bind_eq_some] at hm
                  obtain ⟨s2, hbv, hm⟩ := hm
                  refine (base.trans (ihB _ _ _ _ hbv)).trans ?_
                  split at hm
                  · obtain ⟨r1, hm⟩ := map_fst_eq_some hm
                    exact ihR _ _ _ _ _ hm
                  · simp only [Option.pure_def, Option.some.injEq] at hm
                    subst hm; exact TysSafe.refl _
                · simp only [Option.pure_def, Option.bind_eq_bind,
                    Option.some_bind] at hm
                  split at hm
                  · obtain ⟨r1, hm⟩ := map_fst_eq_some hm
                    exact base.trans (ihR _ _ _ _ _ hm)
                  · simp only [Option.some.injEq] at hm
                    subst hm; exact base
              · -- if
                simp only [Option.bind_eq_bind, Option.bind_eq_some] at hm
                obtain ⟨⟨s2, r2⟩, hb, hm⟩ := hm
                refine (base.trans (ihR _ _ _ _ _ hb)).trans ?_
                split at hm
                · obtain ⟨r3, hm⟩ := map_fst_eq_some hm
                  exact ihR _ _ _ _ _ hm
                · simp only [Option.pure_def, Option.some.injEq] at hm
                  subst hm; exact TysSafe.refl _
              · -- while
                split at hm
                · exact base.trans (ihB _ _ _ _ hm)
                · simp only [Option.pure_def, Option.some.injEq] at hm
                  subst hm; exact base
              · -- switch
                simp only [Option.bind_eq_bind, Option.bind_eq_some] at hm
                obtain ⟨s2, hl, hm⟩ := hm
                refine (base.trans (ihL _ _ _ _ hl)).trans ?_
                split at hm
                · obtain ⟨r3, hm⟩ := map_fst_eq_some hm
                  exact ihR _ _ _ _ _ hm
                · simp only [Option.pure_def, Option.some.injEq] at hm
                  subst hm; exact TysSafe.refl _
              · -- comptime
                obtain ⟨r1, hm⟩ := map_fst_eq_some hm
                exact base.trans (ihR _ _ _ _ _ hm)
              · -- deref
                obtain ⟨r1, hm⟩ := map_fst_eq_some hm
                exact base.trans (ihR _ _ _ _ _ hm)
              · -- ref
                simp only [Option.bind_eq_bind, Option.bind_eq_some] at hm
                obtain ⟨⟨om, osub⟩, hfp, hm⟩ := hm
                obtain ⟨⟨m2, sub2⟩, hnp, hm⟩ := hm
                obtain ⟨⟨s3, r3⟩, hr, hm⟩ := hm
                simp only [Option.pure_def, Option.some.injEq] at hm
                subst hm
                have hps := asPointer_eq_some hnp
                have hnv := neverSource_of_target _ _ hg
                refine TysSafe.insert_nonSrc
                  (base.trans (ihR _ _ _ _ _ hr)) ?_
                  (neverSource_eq_false_of_source hg)
                rw [hps] at hnv
                simpa [neverSource] using hnv
              · -- binary
                simp only [Option.bind_eq_bind, Option.bind_eq_some] at hm
                obtain ⟨⟨s2, r2⟩, ha, hm⟩ := hm
                obtain ⟨r3, hm⟩ := map_fst_eq_some hm
                exact ((base.trans (ihR _ _ _ _ _ ha)).trans (ihR _ _ _ _ _ hm))
              · -- unary
                obtain ⟨r1, hm⟩ := map_fst_eq_some hm
                exact base.trans (ihR _ _ _ _ _ hm)
              · -- local
                split at hm
                · simp only [Option.bind_eq_bind, Option.bind_eq_some] at hm
                  obtain ⟨⟨s3, chg⟩, hrv, hm⟩ := hm
                  have hs3 : TysSafe s s3 := base.trans (ihR _ _ _ _ _ hrv)
                  cases chg <;>
                    simp only [Bool.false_eq_true, reduceIte, Option.pure_def,
                      Option.bind_eq_bind, Option.bind_eq_some,
                      Option.some.injEq, exists_eq_left'] at hm
                  · exact (hs3.clearLocalUsages _).trans (ihU _ _ _ hm)
                  · exact ((hs3.insertLocalTy _ _).clearLocalUsages _).trans
                      (ihU _ _ _ hm)
                · simp only [Option.pure_def, Option.bind_eq_bind,
                    Option.some_bind] at hm
                  exact (base.clearLocalUsages _).trans (ihU _ _ _ hm)
              · -- structLiteral
                simp only [Option.bind_eq_bind, Option.bind_eq_some] at hm
                obtain ⟨mt, hms, hm⟩ := hm
                exact base.trans (ihM _ _ _ _ hm)
              · -- catch-all
                simp only [Option.pure_def, Option.some.injEq] at hm
                subst hm; exact base
      · -- replaceWeakTysList
        intro s es t s' h
        cases es with
        | nil =>
            simp only [replaceWeakTysList, Option.pure_def,
              Option.some.injEq] at h
            subst h; exact TysSafe.refl s
        | cons e rest =>
            simp only [replaceWeakTysList, Option.bind_eq_bind,
              Option.bind_eq_some] at h
            obtain ⟨⟨s1, r1⟩, h1, h2⟩ := h
            exact (ihR _ _ _ _ _ h1).trans (ihL _ _ _ _ h2)
      · -- replaceWeakTysBreakValues
        intro s us t s' h
        cases us with
        | nil =>
            simp only [replaceWeakTysBreakValues, Option.pure_def,
              Option.some.injEq] at h
            subst h; exact TysSafe.refl s
        | cons usage rest =>
            simp only [replaceWeakTysBreakValues] at h
            split at h
            · simp only [Option.bind_eq_bind, Option.bind_eq_some] at h
              obtain ⟨s1, h1, h2⟩ := h
              obtain ⟨r1, h1⟩ := map_fst_eq_some h1
              exact (ihR _ _ _ _ _ h1).trans (ihB _ _ _ _ h2)
            · simp only [Option.pure_def, Option.bind_eq_bind, Option.some_bind] at h
              exact ihB _ _ _ _ h
      · -- replaceWeakTysMembers
        intro s ms mt s' h
        cases ms with
        | nil =>
            simp only [replaceWeakTysMembers, Option.pure_def,
              Option.some.injEq] at h
            subst h; exact TysSafe.refl s
        | cons hd rest =>
            simp only [replaceWeakTysMembers] at h
            split at h
            · simp only [Option.pure_def, Option.bind_eq_bind, Option.some_bind] at h
              exact ihM _ _ _ _ h
            · simp only [Option.bind_eq_bind, Option.bind_eq_some] at h
              obtain ⟨mty, _, h⟩ := h
              obtain ⟨s1, h1, h2⟩ := h
              obtain ⟨r1, h1⟩ := map_fst_eq_some h1
              exact (ihR _ _ _ _ _ h1).trans (ihM _ _ _ _ h2)
      · -- reinferUsages
        intro s us s' h
        cases us with
        | nil =>
            simp only [reinferUsages, Option.pure_def, Option.some.injEq] at h
            subst h; exact TysSafe.refl s
        | cons usage rest =>
            simp only [reinferUsages] at h
            split at h
            · -- Stmt::LocalDef
              split at h
              · simp only [Option.bind_eq_bind, Option.bind_eq_some] at h
                obtain ⟨⟨s2, ty2⟩, hv, h⟩ := h
                have base := ihE _ _ _ _ hv
                split at h <;>
                  simp only [Option.pure_def, Option.bind_eq_bind,
                    Option.some_bind] at h
                · exact (base.insertLocalTy _ _).trans (ihU _ _ _ h)
                · exact base.trans (ihU _ _ _ h)
              · simp only [Option.pure_def, Option.bind_eq_bind,
                  Option.some_bind] at h
                exact ihU _ _ _ h
            · -- Stmt::Assign
              simp only [Option.bind_eq_bind, Option.bind_eq_some] at h
              obtain ⟨⟨s2, dty⟩, hd, h⟩ := h
              obtain ⟨⟨s3, vty⟩, hv, h⟩ := h
              have base := (ihE _ _ _ _ hd).trans (ihE _ _ _ _ hv)
              split at h
              · simp only [Option.bind_eq_bind, Option.bind_eq_some] at h
                obtain ⟨⟨s4, r4⟩, hra, h⟩ := h
                obtain ⟨s5, hrb, h⟩ := h
                obtain ⟨r5, hrb⟩ := map_fst_eq_some hrb
                exact (((base.trans (ihR _ _ _ _ _ hra)).trans
                  (ihR _ _ _ _ _ hrb)).trans (ihU _ _ _ h))
              · simp only [Option.pure_def, Option.bind_eq_bind,
                  Option.some_bind] at h
                exact base.trans (ihU _ _ _ h)
              · split at h
                · simp only [Option.bind_eq_bind, Option.bind_eq_some] at h
                  obtain ⟨s4, hra, h⟩ := h
                  obtain ⟨r4, hra⟩ := map_fst_eq_some hra
                  exact (base.trans (ihR _ _ _ _ _ hra)).trans (ihU _ _ _ h)
                · split at h
                  · simp only [Option.bind_eq_bind, Option.bind_eq_some] at h
                    obtain ⟨s4, hra, h⟩ := h
                    obtain ⟨r4, hra⟩ := map_fst_eq_some hra
                    exact (base.trans (ihR _ _ _ _ _ hra)).trans (ihU _ _ _ h)
                  · simp only [Option.pure_def, Option.bind_eq_bind,
                      Option.some_bind] at h
                    exact base.trans (ihU _ _ _ h)
            · -- Stmt::Expr
              simp only [Option.bind_eq_bind, Option.bind_eq_some] at h
              obtain ⟨s1, h1, h⟩ := h
              obtain ⟨r1, h1⟩ := map_fst_eq_some h1
              exact (ihE _ _ _ _ h1).trans (ihU _ _ _ h)
            · -- Stmt::Break (some value)
              simp only [Option.bind_eq_bind, Option.bind_eq_some] at h
              obtain ⟨s1, h1, h⟩ := h
              obtain ⟨r1, h1⟩ := map_fst_eq_some h1
              exact (ihE _ _ _ _ h1).trans (ihU _ _ _ h)
            · simp only [Option.pure_def, Option.bind_eq_bind,
                Option.some_bind] at h
              exact ihU _ _ _ h
            · -- Stmt::Defer
              simp only [Option.bind_eq_bind, Option.bind_eq_some] at h
              obtain ⟨s1, h1, h⟩ := h
              obtain ⟨r1, h1⟩ := map_fst_eq_some h1
              exact (ihE _ _ _ _ h1).trans (ihU _ _ _ h)
            · simp only [Option.pure_def, Option.bind_eq_bind,
                Option.some_bind] at h
              exact ihU _ _ _ h
      · -- reinferExpr
        intro s e s' t h
        simp only [reinferExpr] at h
        split at h
        · simp only [Option.pure_def, Option.some.injEq, Prod.mk.injEq] at h
          obtain ⟨rfl, rfl⟩ := h
          exact TysSafe.refl s
        · simp only [Option.bind_eq_bind, Option.bind_eq_some] at h
          obtain ⟨s1, hw, hp⟩ := h
          simp only [Option.pure_def, Option.some.injEq, Prod.mk.injEq] at hp
          obtain ⟨rfl, rfl⟩ := hp
          exact ihW _ _ _ hw
      · -- reinferWalk
        intro s e s' h
        simp only [reinferWalk] at h
        split at h
        · -- arrayLiteral
          simp only [Option.bind_eq_bind, Option.bind_eq_some] at h
          obtain ⟨s1, h1, h2⟩ := h
          exact (ihWL _ _ _ h1).trans (ihRl _ _ _ h2)
        · -- index
          simp only [Option.bind_eq_bind, Option.bind_eq_some] at h
          obtain ⟨s1, ha, s2, hb, h2⟩ := h
          exact ((ihW _ _ _ ha).trans (ihW _ _ _ hb)).trans (ihRl _ _ _ h2)
        · -- cast
          simp only [Option.bind_eq_bind, Option.bind_eq_some] at h
          obtain ⟨s1, h1, h2⟩ := h
          exact (ihW _ _ _ h1).trans (ihRl _ _ _ h2)
        · -- ref
          simp only [Option.bind_eq_bind, Option.bind_eq_some] at h
          obtain ⟨s1, h1, h2⟩ := h
          exact (ihW _ _ _ h1).trans (ihRl _ _ _ h2)
        · -- deref
          simp only [Option.bind_eq_bind, Option.bind_eq_some] at h
          obtain ⟨s1, h1, h2⟩ := h
          exact (ihW _ _ _ h1).trans (ihRl _ _ _ h2)
        · -- binary
          simp only [Option.bind_eq_bind, Option.bind_eq_some] at h
          obtain ⟨s1, ha, s2, hb, h2⟩ := h
          exact ((ihW _ _ _ ha).trans (ihW _ _ _ hb)).trans (ihRl _ _ _ h2)
        · -- unary
          simp only [Option.bind_eq_bind, Option.bind_eq_some] at h
          obtain ⟨s1, h1, h2⟩ := h
          exact (ihW _ _ _ h1).trans (ihRl _ _ _ h2)
        · -- paren
          simp only [Option.bind_eq_bind, Option.bind_eq_some] at h
          obtain ⟨s1, h1, h2⟩ := h
          exact (ihW _ _ _ h1).trans (ihRl _ _ _ h2)
        · -- block
          simp only [Option.bind_eq_bind, Option.bind_eq_some] at h
          obtain ⟨s1, ha, h⟩ := h
          refine TysSafe.trans (ihWS _ _ _ ha) ?_
          split at h
          · simp only [Option.bind_eq_bind, Option.bind_eq_some] at h
            obtain ⟨s2, hb, h2⟩ := h
            exact (ihW _ _ _ hb).trans (ihRl _ _ _ h2)
          · simp only [Option.pure_def, Option.bind_eq_bind,
              Option.some_bind] at h
            exact ihRl _ _ _ h
        · -- if
          simp only [Option.bind_eq_bind, Option.bind_eq_some] at h
          obtain ⟨s1, ha, s2, hb, h⟩ := h
          refine TysSafe.trans ((ihW _ _ _ ha).trans (ihW _ _ _ hb)) ?_
          split at h
          · simp only [Option.bind_eq_bind, Option.bind_eq_some] at h
            obtain ⟨s3, hc, h2⟩ := h
            exact (ihW _ _ _ hc).trans (ihRl _ _ _ h2)
          · simp only [Option.pure_def, Option.bind_eq_bind,
              Option.some_bind] at h
            exact ihRl _ _ _ h
        · -- while
          split at h
          · simp only [Option.bind_eq_bind, Option.bind_eq_some] at h
            obtain ⟨s1, ha, s2, hb, h2⟩ := h
            exact ((ihW _ _ _ ha).trans (ihW _ _ _ hb)).trans (ihRl _ _ _ h2)
          · simp only [Option.pure_def, Option.bind_eq_bind, Option.some_bind,
              Option.bind_eq_some] at h
            obtain ⟨s1, hb, h2⟩ := h
            exact (ihW _ _ _ hb).trans (ihRl _ _ _ h2)
        · -- switch
          simp only [Option.bind_eq_bind, Option.bind_eq_some] at h
          obtain ⟨s1, ha, s2, hb, h⟩ := h
          refine TysSafe.trans ((ihW _ _ _ ha).trans (ihWL _ _ _ hb)) ?_
          split at h
          · simp only [Option.bind_eq_bind, Option.bind_eq_some] at h
            obtain ⟨s3, hc, h2⟩ := h
            exact (ihW _ _ _ hc).trans (ihRl _ _ _ h2)
          · simp only [Option.pure_def, Option.bind_eq_bind,
              Option.some_bind] at h
            exact ihRl _ _ _ h
        · -- call
          simp only [Option.bind_eq_bind, Option.bind_eq_some] at h
          obtain ⟨s1, ha, s2, hb, h2⟩ := h
          exact ((ihW _ _ _ ha).trans (ihWL _ _ _ hb)).trans (ihRl _ _ _ h2)
        · -- structLiteral
          simp only [Option.bind_eq_bind, Option.bind_eq_some] at h
          obtain ⟨s1, h1, h2⟩ := h
          exact (ihWL _ _ _ h1).trans (ihRl _ _ _ h2)
        · -- comptime
          simp only [Option.bind_eq_bind, Option.bind_eq_some] at h
          obtain ⟨s1, h1, h2⟩ := h
          exact (ihW _ _ _ h1).trans (ihRl _ _ _ h2)
        · simp only [Option.pure_def, Option.bind_eq_bind,
            Option.some_bind] at h
          exact ihRl _ _ _ h
      · -- reinferWalkList
        intro s es s' h
        cases es with
        | nil =>
            simp only [reinferWalkList, Option.pure_def, Option.some.injEq] at h
            subst h; exact TysSafe.refl s
        | cons e rest =>
            simp only [reinferWalkList, Option.bind_eq_bind,
              Option.bind_eq_some] at h
            obtain ⟨s1, h1, h2⟩ := h
            exact (ihW _ _ _ h1).trans (ihWL _ _ _ h2)
      · -- reinferWalkStmts
        intro s sts s' h
        cases sts with
        | nil =>
            simp only [reinferWalkStmts, Option.pure_def, Option.some.injEq] at h
            subst h; exact TysSafe.refl s
        | cons stmt rest =>
            simp only [reinferWalkStmts] at h
            split at h
            · -- expr
              simp only [Option.bind_eq_bind, Option.bind_eq_some] at h
              obtain ⟨s1, h1, h2⟩ := h
              exact (ihW _ _ _ h1).trans (ihWS _ _ _ h2)
            · -- localDef
              split at h
              · simp only [Option.bind_eq_bind, Option.bind_eq_some] at h
                obtain ⟨s1, hv, s2, hrule, h2⟩ := h
                exact ((ihW _ _ _ hv).trans
                  (reinferLocalDefStmt_safe hrule)).trans (ihWS _ _ _ h2)
              · simp only [Option.pure_def, Option.bind_eq_bind,
                  Option.some_bind, Option.bind_eq_some] at h
                obtain ⟨s2, hrule, h2⟩ := h
                exact (reinferLocalDefStmt_safe hrule).trans (ihWS _ _ _ h2)
            · -- assign
              simp only [Option.bind_eq_bind, Option.bind_eq_some] at h
              obtain ⟨s1, hd, s2, hv, h2⟩ := h
              exact ((ihW _ _ _ hd).trans (ihW _ _ _ hv)).trans (ihWS _ _ _ h2)
            · -- break some
              simp only [Option.bind_eq_bind, Option.bind_eq_some] at h
              obtain ⟨s1, h1, h2⟩ := h
              exact (ihW _ _ _ h1).trans (ihWS _ _ _ h2)
            · simp only [Option.pure_def, Option.bind_eq_bind,
                Option.some_bind] at h
              exact ihWS _ _ _ h
            · simp only [Option.pure_def, Option.bind_eq_bind,
                Option.some_bind] at h
              exact ihWS _ _ _ h
            · -- defer
              simp only [Option.bind_eq_bind, Option.bind_eq_some] at h
              obtain ⟨s1, h1, h2⟩ := h
              exact (ihW _ _ _ h1).trans (ihWS _ _ _ h2)
      · -- reinferRule
        intro s e s' h
        simp only [reinferRule] at h
        split at h
        · simp only [Option.pure_def, Option.some.injEq] at h
          subst h; exact TysSafe.refl s
        · -- each branch computes the new type purely (state untouched) or,
          -- for `Binary`, through two guarded replacements; the final
          -- update goes through `reinferUpdateExprTy`
          split at h <;>
            (simp only [Option.bind_eq_bind, Option.bind_eq_some] at h
             obtain ⟨⟨s1, nq⟩, hA, h⟩ := h
             first
             | ((repeat' split at hA) <;>
                 (simp only [Option.pure_def, Option.some.injEq,
                    Prod.mk.injEq] at hA
                  obtain ⟨hA1, hA2⟩ := hA
                  subst hA1; subst hA2
                  simp only [Option.pure_def, Option.some.injEq] at h
                  first
                    | (subst h; exact TysSafe.refl _)
                    | exact reinferUpdateExprTy_safe h))
             | (split at hA <;>
                 first
                 | (simp only [Option.bind_eq_bind, Option.bind_eq_some] at hA
                    obtain ⟨⟨s2, r2⟩, ha, ⟨⟨s3, r3⟩, hb, hp⟩⟩ := hA
                    simp only [Option.pure_def, Option.some.injEq,
                      Prod.mk.injEq] at hp
                    obtain ⟨hp1, hp2⟩ := hp
                    subst hp1; subst hp2
                    refine ((ihR _ _ _ _ _ ha).trans
                      (ihR _ _ _ _ _ hb)).trans ?_
                    simp only [Option.pure_def, Option.some.injEq] at h
                    first
                      | (subst h; exact TysSafe.refl _)
                      | exact reinferUpdateExprTy_safe h)
                 | (simp only [Option.pure_def, Option.some.injEq,
                      Prod.mk.injEq] at hA
                    obtain ⟨hA1, hA2⟩ := hA
                    subst hA1; subst hA2
                    simp only [Option.pure_def, Option.some.injEq] at h
                    first
                      | (subst h; exact TysSafe.refl _)
                      | exact reinferUpdateExprTy_safe h)))

theorem TysSafe.nonsrc_at {a b : InferenceState} (h : TysSafe a b) (e : Nat)
    (he : neverSource (a.exprTys e) = true) :
    neverSource (b.exprTys e) = true := by
  rcases h e with heq | ⟨h1, _⟩
  · rw [heq]; exact he
  · exact h1

theorem insertExprTy_self (s : InferenceState) (i : Nat) (t : Ty) :
    (s.insertExprTy i t).exprTys i = t := by
  simp [InferenceState.insertExprTy]

theorem insert_nonsrc_self (s : InferenceState) (e : Nat) (v : Ty)
    (hv : neverSource v = true) :
    neverSource ((s.insertExprTy e v).exprTys e) = true := by
  rw [insertExprTy_self]; exact hv

set_option maxHeartbeats 1000000 in
/-- A completed `replace_weak_tys` call either exits early with the state
unchanged and result `false` (expression missing, or current type not
weak-replaceable by the requested type), or leaves the expression with a
type that can never again be the source of a weak replacement. -/
theorem rwt_result_nonsource (B : Bodies) (fuel : Nat) (s : InferenceState)
    (e : Nat) (T : Ty) (s' : InferenceState) (r : Bool)
    (h : replaceWeakTys B fuel s e T = some (s', r)) :
    (B.exprs e = .missing ∧ s' = s ∧ r = false) ∨
    ((s.exprTys e).isWeakReplaceableBy T = false ∧ s' = s ∧ r = false) ∨
    neverSource (s'.exprTys e) = true := by
  cases fuel with
  | zero => simp [replaceWeakTys] at h
  | succ fuel =>
    obtain ⟨nR, nL, nB, nM, nU, nE, nW, nWL, nWS, nRl⟩ := nest_safe B fuel
    simp only [replaceWeakTys] at h
    split at h
    · rename_i hmiss
      simp only [Option.pure_def, Option.some.injEq, Prod.mk.injEq] at h
      exact Or.inl ⟨hmiss, h.1.symm, h.2.symm⟩
    · split at h
      · rename_i hmiss hguard
        simp only [Option.pure_def, Option.some.injEq, Prod.mk.injEq] at h
        refine Or.inr (Or.inl ⟨?_, h.1.symm, h.2.symm⟩)
        simpa using hguard
      · rename_i hmiss hguard
        have hg : (s.exprTys e).isWeakReplaceableBy T = true := by
          simpa using hguard
        split at h
        · -- anonymous array adjusted to a named array
          rename_i sz sub0 nsub heqf
          have hb := insert_nonsrc_self s e (Ty.array false sz nsub) rfl
          simp only [Option.map_eq_map, Option.map_eq_some'] at h
          obtain ⟨sF, hm, hfr⟩ := h
          simp only [Prod.mk.injEq] at hfr
          obtain ⟨hfr1, _⟩ := hfr
          subst hfr1
          refine Or.inr (Or.inr ?_)
          split at hm
          · -- intLiteral
            (repeat' split at hm) <;>
              (simp only [Option.pure_def, Option.some.injEq] at hm
               subst hm
               first
                 | exact hb
                 | simpa [InferenceState.pushDiag] using hb)
          · -- arrayLiteral
            exact TysSafe.nonsrc_at (nL _ _ _ _ hm) e hb
          · -- paren
            obtain ⟨r1, hm⟩ := map_fst_eq_some hm
            exact TysSafe.nonsrc_at (nR _ _ _ _ _ hm) e hb
          · -- block
            split at hm
            · simp only [Option.bind_eq_bind, Option.bind_eq_some] at hm
              obtain ⟨s2, hbv, hm⟩ := hm
              have h2 := TysSafe.nonsrc_at (nB _ _ _ _ hbv) e hb
              split at hm
              · obtain ⟨r1, hm⟩ := map_fst_eq_some hm
                exact TysSafe.nonsrc_at (nR _ _ _ _ _ hm) e h2
              · simp only [Option.pure_def, Option.some.injEq] at hm
                subst hm; exact h2
            · simp only [Option.pure_def, Option.bind_eq_bind,
                Option.some_bind] at hm
              split at hm
              · obtain ⟨r1, hm⟩ := map_fst_eq_some hm
                exact TysSafe.nonsrc_at (nR _ _ _ _ _ hm) e hb
              · simp only [Option.some.injEq] at hm
                subst hm; exact hb
          · -- if
            simp only [Option.bind_eq_bind, Option.bind_eq_some] at hm
            obtain ⟨⟨s2, r2⟩, hc, hm⟩ := hm
            have h2 := TysSafe.nonsrc_at (nR _ _ _ _ _ hc) e hb
            split at hm
            · obtain ⟨r3, hm⟩ := map_fst_eq_some hm
              exact TysSafe.nonsrc_at (nR _ _ _ _ _ hm) e h2
            · simp only [Option.pure_def, Option.some.injEq] at hm
              subst hm; exact h2
          · -- while
            split at hm
            · exact TysSafe.nonsrc_at (nB _ _ _ _ hm) e hb
            · simp only [Option.pure_def, Option.some.injEq] at hm
              subst hm; exact hb
          · -- switch
            simp only [Option.bind_eq_bind, Option.bind_eq_some] at hm
            obtain ⟨s2, hl, hm⟩ := hm
            have h2 := TysSafe.nonsrc_at (nL _ _ _ _ hl) e hb
            split at hm
            · obtain ⟨r3, hm⟩ := map_fst_eq_some hm
              exact TysSafe.nonsrc_at (nR _ _ _ _ _ hm) e h2
            · simp only [Option.pure_def, Option.some.injEq] at hm
              subst hm; exact h2
          · -- comptime
            obtain ⟨r1, hm⟩ := map_fst_eq_some hm
            exact TysSafe.nonsrc_at (nR _ _ _ _ _ hm) e hb
          · -- deref
            obtain ⟨r1, hm⟩ := map_fst_eq_some hm
            exact TysSafe.nonsrc_at (nR _ _ _ _ _ hm) e hb
          · -- ref
            simp only [Option.bind_eq_bind, Option.bind_eq_some] at hm
            obtain ⟨⟨om, osub⟩, hfp, hm⟩ := hm
            obtain ⟨⟨m2, sub2⟩, hnp, hm⟩ := hm
            simp [Ty.asPointer] at hnp
          · -- binary
            simp only [Option.bind_eq_bind, Option.bind_eq_some] at hm
            obtain ⟨⟨s2, r2⟩, ha, hm⟩ := hm
            obtain ⟨r3, hm⟩ := map_fst_eq_some hm
            exact TysSafe.nonsrc_at (nR _ _ _ _ _ hm) e
              (TysSafe.nonsrc_at (nR _ _ _ _ _ ha) e hb)
          · -- unary
            obtain ⟨r1, hm⟩ := map_fst_eq_some hm
            exact TysSafe.nonsrc_at (nR _ _ _ _ _ hm) e hb
          · -- local
            split at hm
            · simp only [Option.bind_eq_bind, Option.bind_eq_some] at hm
              obtain ⟨⟨s3, chg⟩, hrv, hm⟩ := hm
              have h3 := TysSafe.nonsrc_at (nR _ _ _ _ _ hrv) e hb
              cases chg <;>
                simp only [Bool.false_eq_true, reduceIte, Option.pure_def,
                  Option.bind_eq_bind, Option.bind_eq_some,
                  Option.some.injEq, exists_eq_left'] at hm
              · exact TysSafe.nonsrc_at (nU _ _ _ hm) e h3
              · exact TysSafe.nonsrc_at (nU _ _ _ hm) e h3
            · simp only [Option.pure_def, Option.bind_eq_bind,
                Option.some_bind] at hm
              exact TysSafe.nonsrc_at (nU _ _ _ hm) e hb
          · -- structLiteral
            simp only [Option.bind_eq_bind, Option.bind_eq_some] at hm
            obtain ⟨mt, hms, hm⟩ := hm
            exact TysSafe.nonsrc_at (nM _ _ _ _ hm) e hb
          · -- catch-all
            simp only [Option.pure_def, Option.some.injEq] at hm
            subst hm; exact hb
        · -- ordinary replacement
          have hb := insert_nonsrc_self s e _ (neverSource_of_target _ _ hg)
          simp only [Option.map_eq_map, Option.map_eq_some'] at h
          obtain ⟨sF, hm, hfr⟩ := h
          simp only [Prod.mk.injEq] at hfr
          obtain ⟨hfr1, _⟩ := hfr
          subst hfr1
          refine Or.inr (Or.inr ?_)
          split at hm
          · -- intLiteral
            (repeat' split at hm) <;>
              (simp only [Option.pure_def, Option.some.injEq] at hm
               subst hm
               first
                 | exact hb
                 | simpa [InferenceState.pushDiag] using hb)
          · -- arrayLiteral
            split at hm
            · exact TysSafe.nonsrc_at (nL _ _ _ _ hm) e hb
            · exact TysSafe.nonsrc_at (nL _ _ _ _ hm) e
                (insert_nonsrc_self _ _ _ rfl)
            · simp at hm
          · -- paren
            obtain ⟨r1, hm⟩ := map_fst_eq_some hm
            exact TysSafe.nonsrc_at (nR _ _ _ _ _ hm) e hb
          · -- block
            split at hm
            · simp only [Option.bind_eq_bind, Option.bind_eq_some] at hm
              obtain ⟨s2, hbv, hm⟩ := hm
              have h2 := TysSafe.nonsrc_at (nB _ _ _ _ hbv) e hb
              split at hm
              · obtain ⟨r1, hm⟩ := map_fst_eq_some hm
                exact TysSafe.nonsrc_at (nR _ _ _ _ _ hm) e h2
              · simp only [Option.pure_def, Option.some.injEq] at hm
                subst hm; exact h2
            · simp only [Option.pure_def, Option.bind_eq_bind,
                Option.some_bind] at hm
              split at hm
              · obtain ⟨r1, hm⟩ := map_fst_eq_some hm
                exact TysSafe.nonsrc_at (nR _ _ _ _ _ hm) e hb
              · simp only [Option.some.injEq] at hm
                subst hm; exact hb
          · -- if
            simp only [Option.bind_eq_bind, Option.bind_eq_some] at hm
            obtain ⟨⟨s2, r2⟩, hc, hm⟩ := hm
            have h2 := TysSafe.nonsrc_at (nR _ _ _ _ _ hc) e hb
            split at hm
            · obtain ⟨r3, hm⟩ := map_fst_eq_some hm
              exact TysSafe.nonsrc_at (nR _ _ _ _ _ hm) e h2
            · simp only [Option.pure_def, Option.some.injEq] at hm
              subst hm; exact h2
          · -- while
            split at hm
            · exact TysSafe.nonsrc_at (nB _ _ _ _ hm) e hb
            · simp only [Option.pure_def, Option.some.injEq] at hm
              subst hm; exact hb
          · -- switch
            simp only [Option.bind_eq_bind, Option.bind_eq_some] at hm
            obtain ⟨s2, hl, hm⟩ := hm
            have h2 := TysSafe.nonsrc_at (nL _ _ _ _ hl) e hb
            split at hm
            · obtain ⟨r3, hm⟩ := map_fst_eq_some hm
              exact TysSafe.nonsrc_at (nR _ _ _ _ _ hm) e h2
            · simp only [Option.pure_def, Option.some.injEq] at hm
              subst hm; exact h2
          · -- comptime
            obtain ⟨r1, hm⟩ := map_fst_eq_some hm
            exact TysSafe.nonsrc_at (nR _ _ _ _ _ hm) e hb
          · -- deref
            obtain ⟨r1, hm⟩ := map_fst_eq_some hm
            exact TysSafe.nonsrc_at (nR _ _ _ _ _ hm) e hb
          · -- ref
            simp only [Option.bind_eq_bind, Option.bind_eq_some] at hm
            obtain ⟨⟨om, osub⟩, hfp, hm⟩ := hm
            obtain ⟨⟨m2, sub2⟩, hnp, hm⟩ := hm
            obtain ⟨⟨s3, r3⟩, hr, hm⟩ := hm
            simp only [Option.pure_def, Option.some.injEq] at hm
            subst hm
            have hps := asPointer_eq_some hnp
            have hnv := neverSource_of_target _ _ hg
            rw [hps] at hnv
            rw [insertExprTy_self]
            simpa [neverSource] using hnv
          · -- binary
            simp only [Option.bind_eq_bind, Option.bind_eq_some] at hm
            obtain ⟨⟨s2, r2⟩, ha, hm⟩ := hm
            obtain ⟨r3, hm⟩ := map_fst_eq_some hm
            exact TysSafe.nonsrc_at (nR _ _ _ _ _ hm) e
              (TysSafe.nonsrc_at (nR _ _ _ _ _ ha) e hb)
          · -- unary
            obtain ⟨r1, hm⟩ := map_fst_eq_some hm
            exact TysSafe.nonsrc_at (nR _ _ _ _ _ hm) e hb
          · -- local
            split at hm
            · simp only [Option.bind_eq_bind, Option.bind_eq_some] at hm
              obtain ⟨⟨s3, chg⟩, hrv, hm⟩ := hm
              have h3 := TysSafe.nonsrc_at (nR _ _ _ _ _ hrv) e hb
              cases chg <;>
                simp only [Bool.false_eq_true, reduceIte, Option.pure_def,
                  Option.bind_eq_bind, Option.bind_eq_some,
                  Option.some.injEq, exists_eq_left'] at hm
              · exact TysSafe.nonsrc_at (nU _ _ _ hm) e h3
              · exact TysSafe.nonsrc_at (nU _ _ _ hm) e h3
            · simp only [Option.pure_def, Option.bind_eq_bind,
                Option.some_bind] at hm
              exact TysSafe.nonsrc_at (nU _ _ _ hm) e hb
          · -- structLiteral
            simp only [Option.bind_eq_bind, Option.bind_eq_some] at hm
            obtain ⟨mt, hms, hm⟩ := hm
            exact TysSafe.nonsrc_at (nM _ _ _ _ hm) e hb
          · -- catch-all
            simp only [Option.pure_def, Option.some.injEq] at hm
            subst hm; exact hb

/-! ## Per-index stability

Once an expression's entry holds a type that can never again be the source
of a weak replacement, no step of the `replace_weak_tys`/re-inference nest
changes that entry: every write is either guarded by
`is_weak_replaceable_by` (impossible from such a type) or re-stores the
value already present. -/

def StableAt (e : Nat) (s s' : InferenceState) : Prop :=
  neverSource (s.exprTys e) = true → s'.exprTys e = s.exprTys e

theorem StableAt.stable_refl {e : Nat} (s : InferenceState) : StableAt e s s :=
  fun _ => rfl

theorem StableAt.stable_trans {e : Nat} {a b c : InferenceState}
    (h1 : StableAt e a b) (h2 : StableAt e b c) : StableAt e a c := by
  intro hns
  have e1 := h1 hns
  have e2 := h2 (by rw [e1]; exact hns)
  rw [e2, e1]

theorem StableAt.insert_ne {e : Nat} {s : InferenceState} {x : Nat} {v : Ty}
    (h : ¬ e = x) : StableAt e s (s.insertExprTy x v) :=
  fun _ => by simp [InferenceState.insertExprTy, h]

theorem StableAt.stable_insert_guard {e : Nat} {s : InferenceState} {x : Nat} {v : Ty}
    (hg : (s.exprTys x).isWeakReplaceableBy v = true) :
    StableAt e s (s.insertExprTy x v) := by
  intro hns
  by_cases hex : e = x
  · subst hex
    rw [neverSource_not_source _ _ hns] at hg
    exact absurd hg (by simp)
  · simp [InferenceState.insertExprTy, hex]

theorem StableAt.stable_insert_self {e : Nat} {s : InferenceState} {x : Nat} {v : Ty}
    (h : s.exprTys x = v) : StableAt e s (s.insertExprTy x v) := by
  intro _
  by_cases hex : e = x
  · subst hex; simp [InferenceState.insertExprTy, h]
  · simp [InferenceState.insertExprTy, hex]

theorem StableAt.stable_pushDiag {e : Nat} {s t : InferenceState}
    (h : StableAt e s t) (d : TyDiagnostic) : StableAt e s (t.pushDiag d) :=
  fun hns => h hns

theorem StableAt.stable_insertLocalTy {e : Nat} {s t : InferenceState}
    (h : StableAt e s t) (i : Nat) (v : Ty) :
    StableAt e s (t.insertLocalTy i v) := fun hns => h hns

theorem StableAt.stable_clearLocalUsages {e : Nat} {s t : InferenceState}
    (h : StableAt e s t) (i : Nat) : StableAt e s (t.clearLocalUsages i) :=
  fun hns => h hns

theorem reinferUpdateExprTy_stable {e : Nat} {s s' : InferenceState} {x : Nat}
    {v : Ty} (h : reinferUpdateExprTy s x v = some s') : StableAt e s s' := by
  rw [reinferUpdateExprTy] at h
  split at h
  · exact absurd h (by simp)
  · rename_i hguard
    push_neg at hguard
    split at h
    · simp only [Option.pure_def, Option.some.injEq] at h
      subst h
      by_cases heq : s.exprTys x = v
      · exact StableAt.stable_insert_self heq
      · rcases hguard heq with hw | hl | ha | hsw
        · exact StableAt.stable_insert_guard hw
        · rename_i hcond; exact absurd hl (by simp_all)
        · rename_i hcond; exact absurd ha (by simp_all)
        · rename_i hcond; exact absurd hsw (by simp_all)
    · simp only [Option.pure_def, Option.some.injEq] at h
      subst h
      exact StableAt.stable_refl s

theorem reinferUpdateLocalTy_stable {e : Nat} {s s' : InferenceState}
    {x : Nat} {v : Ty} (h : reinferUpdateLocalTy s x v = some s') :
    StableAt e s s' := by
  rw [reinferUpdateLocalTy] at h
  split at h
  · exact absurd h (by simp)
  · split at h <;> simp only [Option.pure_def, Option.some.injEq] at h <;>
      subst h
    · exact fun _ => rfl
    · exact StableAt.stable_refl s

theorem reinferLocalDefStmt_stable {e : Nat} {B : Bodies}
    {s s' : InferenceState} {l : Nat}
    (h : reinferLocalDefStmt B s l = some s') : StableAt e s s' := by
  rw [reinferLocalDefStmt] at h
  split at h
  · simp only [Option.pure_def, Option.some.injEq] at h; subst h
    exact StableAt.stable_refl s
  · split at h
    · simp only [Option.pure_def, Option.some.injEq] at h; subst h
      exact StableAt.stable_refl s
    · exact reinferUpdateLocalTy_stable h

set_option maxHeartbeats 1000000 in
theorem nest_stable (B : Bodies) (e0 : Nat) : ∀ fuel : Nat,
    (∀ s e t s' r, replaceWeakTys B fuel s e t = some (s', r) → StableAt e0 s s') ∧
    (∀ s es t s', replaceWeakTysList B fuel s es t = some s' → StableAt e0 s s') ∧
    (∀ s us t s', replaceWeakTysBreakValues B fuel s us t = some s' →
      StableAt e0 s s') ∧
    (∀ s ms mt s', replaceWeakTysMembers B fuel s ms mt = some s' →
      StableAt e0 s s') ∧
    (∀ s us s', reinferUsages B fuel s us = some s' → StableAt e0 s s') ∧
    (∀ s e s' t, reinferExpr B fuel s e = some (s', t) → StableAt e0 s s') ∧
    (∀ s e s', reinferWalk B fuel s e = some s' → StableAt e0 s s') ∧
    (∀ s es s', reinferWalkList B fuel s es = some s' → StableAt e0 s s') ∧
    (∀ s sts s', reinferWalkStmts B fuel s sts = some s' → StableAt e0 s s') ∧
    (∀ s e s', reinferRule B fuel s e = some s' → StableAt e0 s s') := by
  intro fuel
  induction fuel with
  | zero =>
      refine ⟨?_, ?_, ?_, ?_, ?_, ?_, ?_, ?_, ?_, ?_⟩
      · intro s e t s' r h; simp [replaceWeakTys] at h
      · intro s es t s' h; simp [replaceWeakTysList] at h
      · intro s us t s' h; simp [replaceWeakTysBreakValues] at h
      · intro s ms mt s' h; simp [replaceWeakTysMembers] at h
      · intro s us s' h; simp [reinferUsages] at h
      · intro s e s' t h; simp [reinferExpr] at h
      · intro s e s' h; simp [reinferWalk] at h
      · intro s es s' h; simp [reinferWalkList] at h
      · intro s sts s' h; simp [reinferWalkStmts] at h
      · intro s e s' h; simp [reinferRule] at h
  | succ fuel ih =>
      obtain ⟨ihR, ihL, ihB, ihM, ihU, ihE, ihW, ihWL, ihWS, ihRl⟩ := ih
      refine ⟨?_, ?_, ?_, ?_, ?_, ?_, ?_, ?_, ?_, ?_⟩
      · -- replaceWeakTys
        intro s e t s' r h
        simp only [replaceWeakTys] at h
        split at h
        · -- Expr::Missing: early exit, no change
          simp only [Option.pure_def, Option.some.injEq, Prod.mk.injEq] at h
          obtain ⟨h1, _⟩ := h; subst h1; exact StableAt.stable_refl _
        · split at h
          · -- not weak-replaceable: early exit, no change
            simp only [Option.pure_def, Option.some.injEq, Prod.mk.injEq] at h
            obtain ⟨h1, _⟩ := h; subst h1; exact StableAt.stable_refl _
          · rename_i hmiss hguard
            have hg : (s.exprTys e).isWeakReplaceableBy t = true := by
              simpa using hguard
            by_cases hex : e0 = e
            · subst hex
              intro hns
              rw [neverSource_not_source _ _ hns] at hg
              exact absurd hg (by simp)
            · split at h
              · -- anonymous array adjusted to a named array
                simp only [Option.map_eq_map, Option.map_eq_some'] at h
                obtain ⟨sF, hm, hfr⟩ := h
                simp only [Prod.mk.injEq] at hfr
                obtain ⟨hfr1, _⟩ := hfr
                subst hfr1
                split at hm
                · -- intLiteral
                  (repeat' split at hm) <;>
                    (simp only [Option.pure_def, Option.some.injEq] at hm
                     subst hm
                     first
                       | exact StableAt.insert_ne hex
                       | exact (StableAt.insert_ne hex).stable_pushDiag _)
                · -- arrayLiteral
                  exact (StableAt.insert_ne hex).stable_trans (ihL _ _ _ _ hm)
                · -- paren
                  obtain ⟨r1, hm⟩ := map_fst_eq_some hm
                  exact (StableAt.insert_ne hex).stable_trans (ihR _ _ _ _ _ hm)
                · -- block
                  split at hm
                  · simp only [Option.bind_eq_bind, Option.bind_eq_some] at hm
                    obtain ⟨s2, hbv, hm⟩ := hm
                    refine ((StableAt.insert_ne hex).stable_trans (ihB _ _ _ _ hbv)).stable_trans ?_
                    split at hm
                    · obtain ⟨r1, hm⟩ := map_fst_eq_some hm
                      exact ihR _ _ _ _ _ hm
                    · simp only [Option.pure_def, Option.some.injEq] at hm
                      subst hm; exact StableAt.stable_refl _
                  · simp only [Option.pure_def, Option.bind_eq_bind,
                      Option.some_bind] at hm
                    split at hm
                    · obtain ⟨r1, hm⟩ := map_fst_eq_some hm
                      exact (StableAt.insert_ne hex).stable_trans (ihR _ _ _ _ _ hm)
                    · simp only [Option.some.injEq] at hm
                      subst hm; exact StableAt.insert_ne hex
                · -- if
                  simp only [Option.bind_eq_bind, Option.bind_eq_some] at hm
                  obtain ⟨⟨s2, r2⟩, hb, hm⟩ := hm
                  refine ((StableAt.insert_ne hex).stable_trans (ihR _ _ _ _ _ hb)).stable_trans ?_
                  split at hm
                  · obtain ⟨r3, hm⟩ := map_fst_eq_some hm
                    exact ihR _ _ _ _ _ hm
                  · simp only [Option.pure_def, Option.some.injEq] at hm
                    subst hm; exact StableAt.stable_refl _
                · -- while
                  split at hm
                  · exact (StableAt.insert_ne hex).stable_trans (ihB _ _ _ _ hm)
                  · simp only [Option.pure_def, Option.some.injEq] at hm
                    subst hm; exact StableAt.insert_ne hex
                · -- switch
                  simp only [Option.bind_eq_bind, Option.bind_eq_some] at hm
                  obtain ⟨s2, hl, hm⟩ := hm
                  refine ((StableAt.insert_ne hex).stable_trans (ihL _ _ _ _ hl)).stable_trans ?_
                  split at hm
                  · obtain ⟨r3, hm⟩ := map_fst_eq_some hm
                    exact ihR _ _ _ _ _ hm
                  · simp only [Option.pure_def, Option.some.injEq] at hm
                    subst hm; exact StableAt.stable_refl _
                · -- comptime
                  obtain ⟨r1, hm⟩ := map_fst_eq_some hm
                  exact (StableAt.insert_ne hex).stable_trans (ihR _ _ _ _ _ hm)
                · -- deref
                  obtain ⟨r1, hm⟩ := map_fst_eq_some hm
                  exact (StableAt.insert_ne hex).stable_trans (ihR _ _ _ _ _ hm)
                · -- ref
                  simp only [Option.bind_eq_bind, Option.bind_eq_some] at hm
                  obtain ⟨⟨om, osub⟩, hfp, hm⟩ := hm
                  obtain ⟨⟨m2, sub2⟩, hnp, hm⟩ := hm
                  simp [Ty.asPointer] at hnp
                · -- binary
                  simp only [Option.bind_eq_bind, Option.bind_eq_some] at hm
                  obtain ⟨⟨s2, r2⟩, ha, hm⟩ := hm
                  obtain ⟨r3, hm⟩ := map_fst_eq_some hm
                  exact (((StableAt.insert_ne hex).stable_trans (ihR _ _ _ _ _ ha)).stable_trans
                    (ihR _ _ _ _ _ hm))
                · -- unary
                  obtain ⟨r1, hm⟩ := map_fst_eq_some hm
                  exact (StableAt.insert_ne hex).stable_trans (ihR _ _ _ _ _ hm)
                · -- local
                  split at hm
                  · simp only [Option.bind_eq_bind, Option.bind_eq_some] at hm
                    obtain ⟨⟨s3, chg⟩, hrv, hm⟩ := hm
                    have hs3 : StableAt e0 s s3 :=
                      (StableAt.insert_ne hex).stable_trans (ihR _ _ _ _ _ hrv)
                    cases chg <;>
                      simp only [Bool.false_eq_true, reduceIte, Option.pure_def,
                        Option.bind_eq_bind, Option.bind_eq_some,
                        Option.some.injEq, exists_eq_left'] at hm
                    · exact (hs3.stable_clearLocalUsages _).stable_trans (ihU _ _ _ hm)
                    · exact ((hs3.stable_insertLocalTy _ _).stable_clearLocalUsages _).stable_trans
                        (ihU _ _ _ hm)
                  · simp only [Option.pure_def, Option.bind_eq_bind,
                      Option.some_bind] at hm
                    exact ((StableAt.insert_ne hex).stable_clearLocalUsages _).stable_trans
                      (ihU _ _ _ hm)
                · -- structLiteral
                  simp only [Option.bind_eq_bind, Option.bind_eq_some] at hm
                  obtain ⟨mt, hms, hm⟩ := hm
                  exact (StableAt.insert_ne hex).stable_trans (ihM _ _ _ _ hm)
                · -- catch-all
                  simp only [Option.pure_def, Option.some.injEq] at hm
                  subst hm; exact StableAt.insert_ne hex
              · -- ordinary replacement
                simp only [Option.map_eq_map, Option.map_eq_some'] at h
                obtain ⟨sF, hm, hfr⟩ := h
                simp only [Prod.mk.injEq] at hfr
                obtain ⟨hfr1, _⟩ := hfr
                subst hfr1
                split at hm
                · -- intLiteral
                  (repeat' split at hm) <;>
                    (simp only [Option.pure_def, Option.some.injEq] at hm
                     subst hm
                     first
                       | exact StableAt.insert_ne hex
                       | exact (StableAt.insert_ne hex).stable_pushDiag _)
                · -- arrayLiteral
                  split at hm
                  · exact (StableAt.insert_ne hex).stable_trans (ihL _ _ _ _ hm)
                  · exact ((StableAt.insert_ne hex).stable_trans (StableAt.insert_ne hex)).stable_trans
                      (ihL _ _ _ _ hm)
                  · simp at hm
                · -- paren
                  obtain ⟨r1, hm⟩ := map_fst_eq_some hm
                  exact (StableAt.insert_ne hex).stable_trans (ihR _ _ _ _ _ hm)
                · -- block
                  split at hm
                  · simp only [Option.bind_eq_bind, Option.bind_eq_some] at hm
                    obtain ⟨s2, hbv, hm⟩ := hm
                    refine ((StableAt.insert_ne hex).stable_trans (ihB _ _ _ _ hbv)).stable_trans ?_
                    split at hm
                    · obtain ⟨r1, hm⟩ := map_fst_eq_some hm
                      exact ihR _ _ _ _ _ hm
                    · simp only [Option.pure_def, Option.some.injEq] at hm
                      subst hm; exact StableAt.stable_refl _
                  · simp only [Option.pure_def, Option.bind_eq_bind,
                      Option.some_bind] at hm
                    split at hm
                    · obtain ⟨r1, hm⟩ := map_fst_eq_some hm
                      exact (StableAt.insert_ne hex).stable_trans (ihR _ _ _ _ _ hm)
                    · simp only [Option.some.injEq] at hm
                      subst hm; exact StableAt.insert_ne hex
                · -- if
                  simp only [Option.bind_eq_bind, Option.bind_eq_some] at hm
                  obtain ⟨⟨s2, r2⟩, hb, hm⟩ := hm
                  refine ((StableAt.insert_ne hex).stable_trans (ihR _ _ _ _ _ hb)).stable_trans ?_
                  split at hm
                  · obtain ⟨r3, hm⟩ := map_fst_eq_some hm
                    exact ihR _ _ _ _ _ hm
                  · simp only [Option.pure_def, Option.some.injEq] at hm
                    subst hm; exact StableAt.stable_refl _
                · -- while
                  split at hm
                  · exact (StableAt.insert_ne hex).stable_trans (ihB _ _ _ _ hm)
                  · simp only [Option.pure_def, Option.some.injEq] at hm
                    subst hm; exact StableAt.insert_ne hex
                · -- switch
                  simp only [Option.bind_eq_bind, Option.bind_eq_some] at hm
                  obtain ⟨s2, hl, hm⟩ := hm
                  refine ((StableAt.insert_ne hex).stable_trans (ihL _ _ _ _ hl)).stable_trans ?_
                  split at hm
                  · obtain ⟨r3, hm⟩ := map_fst_eq_some hm
                    exact ihR _ _ _ _ _ hm
                  · simp only [Option.pure_def, Option.some.injEq] at hm
                    subst hm; exact StableAt.stable_refl _
                · -- comptime
                  obtain ⟨r1, hm⟩ := map_fst_eq_some hm
                  exact (StableAt.insert_ne hex).stable_trans (ihR _ _ _ _ _ hm)
                · -- deref
                  obtain ⟨r1, hm⟩ := map_fst_eq_some hm
                  exact (StableAt.insert_ne hex).stable_trans (ihR _ _ _ _ _ hm)
                · -- ref
                  simp only [Option.bind_eq_bind, Option.bind_eq_some] at hm
                  obtain ⟨⟨om, osub⟩, hfp, hm⟩ := hm
                  obtain ⟨⟨m2, sub2⟩, hnp, hm⟩ := hm
                  obtain ⟨⟨s3, r3⟩, hr, hm⟩ := hm
                  simp only [Option.pure_def, Option.some.injEq] at hm
                  subst hm
                  exact ((StableAt.insert_ne hex).stable_trans (ihR _ _ _ _ _ hr)).stable_trans
                    (StableAt.insert_ne hex)
                · -- binary
                  simp only [Option.bind_eq_bind, Option.bind_eq_some] at hm
                  obtain ⟨⟨s2, r2⟩, ha, hm⟩ := hm
                  obtain ⟨r3, hm⟩ := map_fst_eq_some hm
                  exact (((StableAt.insert_ne hex).stable_trans (ihR _ _ _ _ _ ha)).stable_trans
                    (ihR _ _ _ _ _ hm))
                · -- unary
                  obtain ⟨r1, hm⟩ := map_fst_eq_some hm
                  exact (StableAt.insert_ne hex).stable_trans (ihR _ _ _ _ _ hm)
                · -- local
                  split at hm
                  · simp only [Option.bind_eq_bind, Option.bind_eq_some] at hm
                    obtain ⟨⟨s3, chg⟩, hrv, hm⟩ := hm
                    have hs3 : StableAt e0 s s3 :=
                      (StableAt.insert_ne hex).stable_trans (ihR _ _ _ _ _ hrv)
                    cases chg <;>
                      simp only [Bool.false_eq_true, reduceIte, Option.pure_def,
                        Option.bind_eq_bind, Option.bind_eq_some,
                        Option.some.injEq, exists_eq_left'] at hm
                    · exact (hs3.stable_clearLocalUsages _).stable_trans (ihU _ _ _ hm)
                    · exact ((hs3.stable_insertLocalTy _ _).stable_clearLocalUsages _).stable_trans
                        (ihU _ _ _ hm)
                  · simp only [Option.pure_def, Option.bind_eq_bind,
                      Option.some_bind] at hm
                    exact ((StableAt.insert_ne hex).stable_clearLocalUsages _).stable_trans
                      (ihU _ _ _ hm)
                · -- structLiteral
                  simp only [Option.bind_eq_bind, Option.bind_eq_some] at hm
                  obtain ⟨mt, hms, hm⟩ := hm
                  exact (StableAt.insert_ne hex).stable_trans (ihM _ _ _ _ hm)
                · -- catch-all
                  simp only [Option.pure_def, Option.some.injEq] at hm
                  subst hm; exact StableAt.insert_ne hex
      · -- replaceWeakTysList
        intro s es t s' h
        cases es with
        | nil =>
            simp only [replaceWeakTysList, Option.pure_def,
              Option.some.injEq] at h
            subst h; exact StableAt.stable_refl s
        | cons e rest =>
            simp only [replaceWeakTysList, Option.bind_eq_bind,
              Option.bind_eq_some] at h
            obtain ⟨⟨s1, r1⟩, h1, h2⟩ := h
            exact (ihR _ _ _ _ _ h1).stable_trans (ihL _ _ _ _ h2)
      · -- replaceWeakTysBreakValues
        intro s us t s' h
        cases us with
        | nil =>
            simp only [replaceWeakTysBreakValues, Option.pure_def,
              Option.some.injEq] at h
            subst h; exact StableAt.stable_refl s
        | cons usage rest =>
            simp only [replaceWeakTysBreakValues] at h
            split at h
            · simp only [Option.bind_eq_bind, Option.bind_eq_some] at h
              obtain ⟨s1, h1, h2⟩ := h
              obtain ⟨r1, h1⟩ := map_fst_eq_some h1
              exact (ihR _ _ _ _ _ h1).stable_trans (ihB _ _ _ _ h2)
            · simp only [Option.pure_def, Option.bind_eq_bind, Option.some_bind] at h
              exact ihB _ _ _ _ h
      · -- replaceWeakTysMembers
        intro s ms mt s' h
        cases ms with
        | nil =>
            simp only [replaceWeakTysMembers, Option.pure_def,
              Option.some.injEq] at h
            subst h; exact StableAt.stable_refl s
        | cons hd rest =>
            simp only [replaceWeakTysMembers] at h
            split at h
            · simp only [Option.pure_def, Option.bind_eq_bind, Option.some_bind] at h
              exact ihM _ _ _ _ h
            · simp only [Option.bind_eq_bind, Option.bind_eq_some] at h
              obtain ⟨mty, _, h⟩ := h
              obtain ⟨s1, h1, h2⟩ := h
              obtain ⟨r1, h1⟩ := map_fst_eq_some h1
              exact (ihR _ _ _ _ _ h1).stable_trans (ihM _ _ _ _ h2)
      · -- reinferUsages
        intro s us s' h
        cases us with
        | nil =>
            simp only [reinferUsages, Option.pure_def, Option.some.injEq] at h
            subst h; exact StableAt.stable_refl s
        | cons usage rest =>
            simp only [reinferUsages] at h
            split at h
            · -- Stmt::LocalDef
              split at h
              · simp only [Option.bind_eq_bind, Option.bind_eq_some] at h
                obtain ⟨⟨s2, ty2⟩, hv, h⟩ := h
                have base := ihE _ _ _ _ hv
                split at h <;>
                  simp only [Option.pure_def, Option.bind_eq_bind,
                    Option.some_bind] at h
                · exact (base.stable_insertLocalTy _ _).stable_trans (ihU _ _ _ h)
                · exact base.stable_trans (ihU _ _ _ h)
              · simp only [Option.pure_def, Option.bind_eq_bind,
                  Option.some_bind] at h
                exact ihU _ _ _ h
            · -- Stmt::Assign
              simp only [Option.bind_eq_bind, Option.bind_eq_some] at h
              obtain ⟨⟨s2, dty⟩, hd, h⟩ := h
              obtain ⟨⟨s3, vty⟩, hv, h⟩ := h
              have base := (ihE _ _ _ _ hd).stable_trans (ihE _ _ _ _ hv)
              split at h
              · simp only [Option.bind_eq_bind, Option.bind_eq_some] at h
                obtain ⟨⟨s4, r4⟩, hra, h⟩ := h
                obtain ⟨s5, hrb, h⟩ := h
                obtain ⟨r5, hrb⟩ := map_fst_eq_some hrb
                exact (((base.stable_trans (ihR _ _ _ _ _ hra)).stable_trans
                  (ihR _ _ _ _ _ hrb)).stable_trans (ihU _ _ _ h))
              · simp only [Option.pure_def, Option.bind_eq_bind,
                  Option.some_bind] at h
                exact base.stable_trans (ihU _ _ _ h)
              · split at h
                · simp only [Option.bind_eq_bind, Option.bind_eq_some] at h
                  obtain ⟨s4, hra, h⟩ := h
                  obtain ⟨r4, hra⟩ := map_fst_eq_some hra
                  exact (base.stable_trans (ihR _ _ _ _ _ hra)).stable_trans (ihU _ _ _ h)
                · split at h
                  · simp only [Option.bind_eq_bind, Option.bind_eq_some] at h
                    obtain ⟨s4, hra, h⟩ := h
                    obtain ⟨r4, hra⟩ := map_fst_eq_some hra
                    exact (base.stable_trans (ihR _ _ _ _ _ hra)).stable_trans (ihU _ _ _ h)
                  · simp only [Option.pure_def, Option.bind_eq_bind,
                      Option.some_bind] at h
                    exact base.stable_trans (ihU _ _ _ h)
            · -- Stmt::Expr
              simp only [Option.bind_eq_bind, Option.bind_eq_some] at h
              obtain ⟨s1, h1, h⟩ := h
              obtain ⟨r1, h1⟩ := map_fst_eq_some h1
              exact (ihE _ _ _ _ h1).stable_trans (ihU _ _ _ h)
            · -- Stmt::Break (some value)
              simp only [Option.bind_eq_bind, Option.bind_eq_some] at h
              obtain ⟨s1, h1, h⟩ := h
              obtain ⟨r1, h1⟩ := map_fst_eq_some h1
              exact (ihE _ _ _ _ h1).stable_trans (ihU _ _ _ h)
            · simp only [Option.pure_def, Option.bind_eq_bind,
                Option.some_bind] at h
              exact ihU _ _ _ h
            · -- Stmt::Defer
              simp only [Option.bind_eq_bind, Option.bind_eq_some] at h
              obtain ⟨s1, h1, h⟩ := h
              obtain ⟨r1, h1⟩ := map_fst_eq_some h1
              exact (ihE _ _ _ _ h1).stable_trans (ihU _ _ _ h)
            · simp only [Option.pure_def, Option.bind_eq_bind,
                Option.some_bind] at h
              exact ihU _ _ _ h
      · -- reinferExpr
        intro s e s' t h
        simp only [reinferExpr] at h
        split at h
        · simp only [Option.pure_def, Option.some.injEq, Prod.mk.injEq] at h
          obtain ⟨rfl, rfl⟩ := h
          exact StableAt.stable_refl s
        · simp only [Option.bind_eq_bind, Option.bind_eq_some] at h
          obtain ⟨s1, hw, hp⟩ := h
          simp only [Option.pure_def, Option.some.injEq, Prod.mk.injEq] at hp
          obtain ⟨rfl, rfl⟩ := hp
          exact ihW _ _ _ hw
      · -- reinferWalk
        intro s e s' h
        simp only [reinferWalk] at h
        split at h
        · -- arrayLiteral
          simp only [Option.bind_eq_bind, Option.bind_eq_some] at h
          obtain ⟨s1, h1, h2⟩ := h
          exact (ihWL _ _ _ h1).stable_trans (ihRl _ _ _ h2)
        · -- index
          simp only [Option.bind_eq_bind, Option.bind_eq_some] at h
          obtain ⟨s1, ha, s2, hb, h2⟩ := h
          exact ((ihW _ _ _ ha).stable_trans (ihW _ _ _ hb)).stable_trans (ihRl _ _ _ h2)
        · -- cast
          simp only [Option.bind_eq_bind, Option.bind_eq_some] at h
          obtain ⟨s1, h1, h2⟩ := h
          exact (ihW _ _ _ h1).stable_trans (ihRl _ _ _ h2)
        · -- ref
          simp only [Option.bind_eq_bind, Option.bind_eq_some] at h
          obtain ⟨s1, h1, h2⟩ := h
          exact (ihW _ _ _ h1).stable_trans (ihRl _ _ _ h2)
        · -- deref
          simp only [Option.bind_eq_bind, Option.bind_eq_some] at h
          obtain ⟨s1, h1, h2⟩ := h
          exact (ihW _ _ _ h1).stable_trans (ihRl _ _ _ h2)
        · -- binary
          simp only [Option.bind_eq_bind, Option.bind_eq_some] at h
          obtain ⟨s1, ha, s2, hb, h2⟩ := h
          exact ((ihW _ _ _ ha).stable_trans (ihW _ _ _ hb)).stable_trans (ihRl _ _ _ h2)
        · -- unary
          simp only [Option.bind_eq_bind, Option.bind_eq_some] at h
          obtain ⟨s1, h1, h2⟩ := h
          exact (ihW _ _ _ h1).stable_trans (ihRl _ _ _ h2)
        · -- paren
          simp only [Option.bind_eq_bind, Option.bind_eq_some] at h
          obtain ⟨s1, h1, h2⟩ := h
          exact (ihW _ _ _ h1).stable_trans (ihRl _ _ _ h2)
        · -- block
          simp only [Option.bind_eq_bind, Option.bind_eq_some] at h
          obtain ⟨s1, ha, h⟩ := h
          refine StableAt.stable_trans (ihWS _ _ _ ha) ?_
          split at h
          · simp only [Option.bind_eq_bind, Option.bind_eq_some] at h
            obtain ⟨s2, hb, h2⟩ := h
            exact (ihW _ _ _ hb).stable_trans (ihRl _ _ _ h2)
          · simp only [Option.pure_def, Option.bind_eq_bind,
              Option.some_bind] at h
            exact ihRl _ _ _ h
        · -- if
          simp only [Option.bind_eq_bind, Option.bind_eq_some] at h
          obtain ⟨s1, ha, s2, hb, h⟩ := h
          refine StableAt.stable_trans ((ihW _ _ _ ha).stable_trans (ihW _ _ _ hb)) ?_
          split at h
          · simp only [Option.bind_eq_bind, Option.bind_eq_some] at h
            obtain ⟨s3, hc, h2⟩ := h
            exact (ihW _ _ _ hc).stable_trans (ihRl _ _ _ h2)
          · simp only [Option.pure_def, Option.bind_eq_bind,
              Option.some_bind] at h
            exact ihRl _ _ _ h
        · -- while
          split at h
          · simp only [Option.bind_eq_bind, Option.bind_eq_some] at h
            obtain ⟨s1, ha, s2, hb, h2⟩ := h
            exact ((ihW _ _ _ ha).stable_trans (ihW _ _ _ hb)).stable_trans (ihRl _ _ _ h2)
          · simp only [Option.pure_def, Option.bind_eq_bind, Option.some_bind,
              Option.bind_eq_some] at h
            obtain ⟨s1, hb, h2⟩ := h
            exact (ihW _ _ _ hb).stable_trans (ihRl _ _ _ h2)
        · -- switch
          simp only [Option.bind_eq_bind, Option.bind_eq_some] at h
          obtain ⟨s1, ha, s2, hb, h⟩ := h
          refine StableAt.stable_trans ((ihW _ _ _ ha).stable_trans (ihWL _ _ _ hb)) ?_
          split at h
          · simp only [Option.bind_eq_bind, Option.bind_eq_some] at h
            obtain ⟨s3, hc, h2⟩ := h
            exact (ihW _ _ _ hc).stable_trans (ihRl _ _ _ h2)
          · simp only [Option.pure_def, Option.bind_eq_bind,
              Option.some_bind] at h
            exact ihRl _ _ _ h
        · -- call
          simp only [Option.bind_eq_bind, Option.bind_eq_some] at h
          obtain ⟨s1, ha, s2, hb, h2⟩ := h
          exact ((ihW _ _ _ ha).stable_trans (ihWL _ _ _ hb)).stable_trans (ihRl _ _ _ h2)
        · -- structLiteral
          simp only [Option.bind_eq_bind, Option.bind_eq_some] at h
          obtain ⟨s1, h1, h2⟩ := h
          exact (ihWL _ _ _ h1).stable_trans (ihRl _ _ _ h2)
        · -- comptime
          simp only [Option.bind_eq_bind, Option.bind_eq_some] at h
          obtain ⟨s1, h1, h2⟩ := h
          exact (ihW _ _ _ h1).stable_trans (ihRl _ _ _ h2)
        · simp only [Option.pure_def, Option.bind_eq_bind,
            Option.some_bind] at h
          exact ihRl _ _ _ h
      · -- reinferWalkList
        intro s es s' h
        cases es with
        | nil =>
            simp only [reinferWalkList, Option.pure_def, Option.some.injEq] at h
            subst h; exact StableAt.stable_refl s
        | cons e rest =>
            simp only [reinferWalkList, Option.bind_eq_bind,
              Option.bind_eq_some] at h
            obtain ⟨s1, h1, h2⟩ := h
            exact (ihW _ _ _ h1).stable_trans (ihWL _ _ _ h2)
      · -- reinferWalkStmts
        intro s sts s' h
        cases sts with
        | nil =>
            simp only [reinferWalkStmts, Option.pure_def, Option.some.injEq] at h
            subst h; exact StableAt.stable_refl s
        | cons stmt rest =>
            simp only [reinferWalkStmts] at h
            split at h
            · -- expr
              simp only [Option.bind_eq_bind, Option.bind_eq_some] at h
              obtain ⟨s1, h1, h2⟩ := h
              exact (ihW _ _ _ h1).stable_trans (ihWS _ _ _ h2)
            · -- localDef
              split at h
              · simp only [Option.bind_eq_bind, Option.bind_eq_some] at h
                obtain ⟨s1, hv, s2, hrule, h2⟩ := h
                exact ((ihW _ _ _ hv).stable_trans
                  (reinferLocalDefStmt_stable hrule)).stable_trans (ihWS _ _ _ h2)
              · simp only [Option.pure_def, Option.bind_eq_bind,
                  Option.some_bind, Option.bind_eq_some] at h
                obtain ⟨s2, hrule, h2⟩ := h
                exact (reinferLocalDefStmt_stable hrule).stable_trans (ihWS _ _ _ h2)
            · -- assign
              simp only [Option.bind_eq_bind, Option.bind_eq_some] at h
              obtain ⟨s1, hd, s2, hv, h2⟩ := h
              exact ((ihW _ _ _ hd).stable_trans (ihW _ _ _ hv)).stable_trans (ihWS _ _ _ h2)
            · -- break some
              simp only [Option.bind_eq_bind, Option.bind_eq_some] at h
              obtain ⟨s1, h1, h2⟩ := h
              exact (ihW _ _ _ h1).stable_trans (ihWS _ _ _ h2)
            · simp only [Option.pure_def, Option.bind_eq_bind,
                Option.some_bind] at h
              exact ihWS _ _ _ h
            · simp only [Option.pure_def, Option.bind_eq_bind,
                Option.some_bind] at h
              exact ihWS _ _ _ h
            · -- defer
              simp only [Option.bind_eq_bind, Option.bind_eq_some] at h
              obtain ⟨s1, h1, h2⟩ := h
              exact (ihW _ _ _ h1).stable_trans (ihWS _ _ _ h2)
      · -- reinferRule
        intro s e s' h
        simp only [reinferRule] at h
        split at h
        · simp only [Option.pure_def, Option.some.injEq] at h
          subst h; exact StableAt.stable_refl s
        · -- each branch computes the new type purely (state untouched) or,
          -- for `Binary`, through two guarded replacements; the final
          -- update goes through `reinferUpdateExprTy`
          split at h <;>
            (simp only [Option.bind_eq_bind, Option.bind_eq_some] at h
             obtain ⟨⟨s1, nq⟩, hA, h⟩ := h
             first
             | ((repeat' split at hA) <;>
                 (simp only [Option.pure_def, Option.some.injEq,
                    Prod.mk.injEq] at hA
                  obtain ⟨hA1, hA2⟩ := hA
                  subst hA1; subst hA2
                  simp only [Option.pure_def, Option.some.injEq] at h
                  first
                    | (subst h; exact StableAt.stable_refl _)
                    | exact reinferUpdateExprTy_stable h))
             | (split at hA <;>
                 first
                 | (simp only [Option.bind_eq_bind, Option.bind_eq_some] at hA
                    obtain ⟨⟨s2, r2⟩, ha, ⟨⟨s3, r3⟩, hb, hp⟩⟩ := hA
                    simp only [Option.pure_def, Option.some.injEq,
                      Prod.mk.injEq] at hp
                    obtain ⟨hp1, hp2⟩ := hp
                    subst hp1; subst hp2
                    refine ((ihR _ _ _ _ _ ha).stable_trans
                      (ihR _ _ _ _ _ hb)).stable_trans ?_
                    simp only [Option.pure_def, Option.some.injEq] at h
                    first
                      | (subst h; exact StableAt.stable_refl _)
                      | exact reinferUpdateExprTy_stable h)
                 | (simp only [Option.pure_def, Option.some.injEq,
                      Prod.mk.injEq] at hA
                    obtain ⟨hA1, hA2⟩ := hA
                    subst hA1; subst hA2
                    simp only [Option.pure_def, Option.some.injEq] at h
                    first
                      | (subst h; exact StableAt.stable_refl _)
                      | exact reinferUpdateExprTy_stable h)))

set_option maxHeartbeats 1000000 in
/-- In the anonymous-array-to-slice conversion case, `replace_weak_tys`
returns `false` and the expression's final recorded type is the
non-anonymous array, not the requested slice. -/
theorem rwt_conversion (B : Bodies) (fuel : Nat) (s : InferenceState)
    (e : Nat) (T : Ty) (s' : InferenceState) (r : Bool) (sz : Nat)
    (sub0 nsub : Ty)
    (hf : s.exprTys e = .array true sz sub0) (hT : T = .slice nsub)
    (h : replaceWeakTys B fuel s e T = some (s', r))
    (hmiss : B.exprs e ≠ .missing)
    (hguard : (s.exprTys e).isWeakReplaceableBy T = true) :
    r = false ∧ s'.exprTys e = .array false sz nsub := by
  subst hT
  cases fuel with
  | zero => simp [replaceWeakTys] at h
  | succ fuel =>
    obtain ⟨nR, nL, nB, nM, nU, nE, nW, nWL, nWS, nRl⟩ := nest_stable B e fuel
    simp only [replaceWeakTys] at h
    split at h
    · rename_i hc; exact absurd hc hmiss
    · split at h
      · rename_i hc1 hc2; exact absurd hguard (by simp [hc2])
      · split at h
        · rename_i msz msub mnsub heq1 heq2
          rw [hf] at heq1
          injection heq1 with ha1 ha2 ha3
          injection heq2 with hb1
          subst ha2; subst ha3; subst hb1
          simp only [Option.map_eq_map, Option.map_eq_some'] at h
          obtain ⟨sF, hm, hfr⟩ := h
          simp only [Prod.mk.injEq] at hfr
          obtain ⟨hfr1, hfr2⟩ := hfr
          subst hfr1
          refine ⟨hfr2.symm, ?_⟩
          have hst : StableAt e (s.insertExprTy e (Ty.array false sz nsub))
              sF := by
            split at hm
            · -- intLiteral
              (repeat' split at hm) <;>
                (simp only [Option.pure_def, Option.some.injEq] at hm
                 subst hm
                 first
                   | exact StableAt.stable_refl _
                   | exact (StableAt.stable_refl _).stable_pushDiag _)
            · -- arrayLiteral
              exact nL _ _ _ _ hm
            · -- paren
              obtain ⟨r1, hm⟩ := map_fst_eq_some hm
              exact nR _ _ _ _ _ hm
            · -- block
              split at hm
              · simp only [Option.bind_eq_bind, Option.bind_eq_some] at hm
                obtain ⟨s2, hbv, hm⟩ := hm
                refine (nB _ _ _ _ hbv).stable_trans ?_
                split at hm
                · obtain ⟨r1, hm⟩ := map_fst_eq_some hm
                  exact nR _ _ _ _ _ hm
                · simp only [Option.pure_def, Option.some.injEq] at hm
                  subst hm; exact StableAt.stable_refl _
              · simp only [Option.pure_def, Option.bind_eq_bind,
                  Option.some_bind] at hm
                split at hm
                · obtain ⟨r1, hm⟩ := map_fst_eq_some hm
                  exact nR _ _ _ _ _ hm
                · simp only [Option.some.injEq] at hm
                  subst hm; exact StableAt.stable_refl _
            · -- if
              simp only [Option.bind_eq_bind, Option.bind_eq_some] at hm
              obtain ⟨⟨s2, r2⟩, hc, hm⟩ := hm
              refine (nR _ _ _ _ _ hc).stable_trans ?_
              split at hm
              · obtain ⟨r3, hm⟩ := map_fst_eq_some hm
                exact nR _ _ _ _ _ hm
              · simp only [Option.pure_def, Option.some.injEq] at hm
                subst hm; exact StableAt.stable_refl _
            · -- while
              split at hm
              · exact nB _ _ _ _ hm
              · simp only [Option.pure_def, Option.some.injEq] at hm
                subst hm; exact StableAt.stable_refl _
            · -- switch
              simp only [Option.bind_eq_bind, Option.bind_eq_some] at hm
              obtain ⟨s2, hl, hm⟩ := hm
              refine (nL _ _ _ _ hl).stable_trans ?_
              split at hm
              · obtain ⟨r3, hm⟩ := map_fst_eq_some hm
                exact nR _ _ _ _ _ hm
              · simp only [Option.pure_def, Option.some.injEq] at hm
                subst hm; exact StableAt.stable_refl _
            · -- comptime
              obtain ⟨r1, hm⟩ := map_fst_eq_some hm
              exact nR _ _ _ _ _ hm
            · -- deref
              obtain ⟨r1, hm⟩ := map_fst_eq_some hm
              exact nR _ _ _ _ _ hm
            · -- ref
              simp only [Option.bind_eq_bind, Option.bind_eq_some] at hm
              obtain ⟨⟨om, osub⟩, hfp, hm⟩ := hm
              obtain ⟨⟨m2, sub2m⟩, hnp, hm⟩ := hm
              simp [Ty.asPointer] at hnp
            · -- binary
              simp only [Option.bind_eq_bind, Option.bind_eq_some] at hm
              obtain ⟨⟨s2, r2⟩, ha, hm⟩ := hm
              obtain ⟨r3, hm⟩ := map_fst_eq_some hm
              exact (nR _ _ _ _ _ ha).stable_trans (nR _ _ _ _ _ hm)
            · -- unary
              obtain ⟨r1, hm⟩ := map_fst_eq_some hm
              exact nR _ _ _ _ _ hm
            · -- local
              split at hm
              · simp only [Option.bind_eq_bind, Option.bind_eq_some] at hm
                obtain ⟨⟨s3, chg⟩, hrv, hm⟩ := hm
                have hs3 := nR _ _ _ _ _ hrv
                cases chg <;>
                  simp only [Bool.false_eq_true, reduceIte, Option.pure_def,
                    Option.bind_eq_bind, Option.bind_eq_some,
                    Option.some.injEq, exists_eq_left'] at hm
                · exact (hs3.stable_clearLocalUsages _).stable_trans (nU _ _ _ hm)
                · exact ((hs3.stable_insertLocalTy _ _).stable_clearLocalUsages _).stable_trans
                    (nU _ _ _ hm)
              · simp only [Option.pure_def, Option.bind_eq_bind,
                  Option.some_bind] at hm
                exact ((StableAt.stable_refl _).stable_clearLocalUsages _).stable_trans (nU _ _ _ hm)
            · -- structLiteral
              simp only [Option.bind_eq_bind, Option.bind_eq_some] at hm
              obtain ⟨mt, hms, hm⟩ := hm
              exact nM _ _ _ _ hm
            · -- catch-all
              simp only [Option.pure_def, Option.some.injEq] at hm
              subst hm; exact StableAt.stable_refl _
          rw [hst (insert_nonsrc_self s e _ rfl), insertExprTy_self]
        · rename_i hne
          exact (hne sz sub0 nsub hf rfl).elim

theorem rwt_missing {B : Bodies} {fuel : Nat} {s s' : InferenceState}
    {e : Nat} {T : Ty} {r : Bool}
    (h : replaceWeakTys B (fuel + 1) s e T = some (s', r))
    (hm : B.exprs e = .missing) : r = false ∧ s' = s := by
  simp only [replaceWeakTys] at h
  split at h
  · simp only [Option.pure_def, Option.some.injEq, Prod.mk.injEq] at h
    exact ⟨h.2.symm, h.1.symm⟩
  · rename_i hc; exact absurd hm hc

theorem rwt_noguard {B : Bodies} {fuel : Nat} {s s' : InferenceState}
    {e : Nat} {T : Ty} {r : Bool}
    (h : replaceWeakTys B (fuel + 1) s e T = some (s', r))
    (hg : (s.exprTys e).isWeakReplaceableBy T = false) :
    r = false ∧ s' = s := by
  simp only [replaceWeakTys] at h
  split at h
  · simp only [Option.pure_def, Option.some.injEq, Prod.mk.injEq] at h
    exact ⟨h.2.symm, h.1.symm⟩
  · simp only [Option.pure_def, Option.some.injEq, Prod.mk.injEq] at h
    exact ⟨h.2.symm, h.1.symm⟩

theorem rwt_guard_of_true {B : Bodies} {fuel : Nat} {s s' : InferenceState}
    {e : Nat} {T : Ty}
    (h : replaceWeakTys B fuel s e T = some (s', true)) :
    (s.exprTys e).isWeakReplaceableBy T = true := by
  cases fuel with
  | zero => simp [replaceWeakTys] at h
  | succ fuel =>
    simp only [replaceWeakTys] at h
    split at h
    · simp at h
    · split at h
      · simp at h
      · rename_i h1 h2
        simpa using h2

theorem rwt_default_true {B : Bodies} {fuel : Nat} {s s' : InferenceState}
    {e : Nat} {T : Ty} {r : Bool}
    (h : replaceWeakTys B fuel s e T = some (s', r))
    (hmiss : B.exprs e ≠ .missing)
    (hguard : (s.exprTys e).isWeakReplaceableBy T = true)
    (hnc : ∀ sz sub0 nsub, ¬(s.exprTys e = .array true sz sub0 ∧
      T = .slice nsub)) :
    r = true := by
  cases fuel with
  | zero => simp [replaceWeakTys] at h
  | succ fuel =>
    simp only [replaceWeakTys] at h
    split at h
    · rename_i hc; exact absurd hc hmiss
    · split at h
      · rename_i hc1 hc2; exact absurd hguard (by simp [hc2])
      · split at h
        · exfalso
          rename_i heq9 hx9
          exact hnc _ _ _ ⟨heq9, rfl⟩
        · simp only [Option.map_eq_map, Option.map_eq_some'] at h
          obtain ⟨sF, hm, hfr⟩ := h
          simp only [Prod.mk.injEq] at hfr
          exact hfr.2.symm

theorem rwt_second {B : Bodies} {fuel fuel2 : Nat} {s s1 : InferenceState}
    {e : Nat} {T : Ty} {r : Bool}
    (h : replaceWeakTys B fuel s e T = some (s1, r)) :
    replaceWeakTys B (fuel2 + 1) s1 e T = some (s1, false) := by
  rcases rwt_result_nonsource B fuel s e T s1 r h with
    ⟨hm, rfl, _⟩ | ⟨hg, rfl, _⟩ | hns
  · simp [replaceWeakTys, hm]
  · simp only [replaceWeakTys]
    split <;> simp [hg]
  · simp only [replaceWeakTys]
    split <;> simp [neverSource_not_source _ _ hns]

/-- C2: `replace_weak_tys` is idempotent: immediately after a completed call
with some type `T`, a second call on the same expression with the same `T`
leaves the expression-type table and the local-type table (indeed the whole
state) unchanged. -/
theorem replace_weak_tys_idempotent {B : Bodies} {fuel fuel2 : Nat}
    {s s1 s2 : InferenceState} {e : Nat} {T : Ty} {r1 r2 : Bool}
    (h1 : replaceWeakTys B fuel s e T = some (s1, r1))
    (h2 : replaceWeakTys B fuel2 s1 e T = some (s2, r2)) :
    s2.exprTys = s1.exprTys ∧ s2.localTys = s1.localTys := by
  cases fuel2 with
  | zero => simp [replaceWeakTys] at h2
  | succ fuel2 =>
    rw [rwt_second h1] at h2
    simp only [Option.some.injEq, Prod.mk.injEq] at h2
    rw [h2.1]
    exact ⟨rfl, rfl⟩

/-- A one-expression test program: every expression is the integer
literal `5`. -/
def wBodies : Bodies where
  exprs := fun _ => .intLiteral 5
  stmts := fun _ => .expr 0
  localDefs := fun _ => ⟨none, none, false⟩
  assigns := fun _ => ⟨0, 0, none⟩
  lambdas := fun _ => ⟨none, 0, false⟩
  comptimes := fun _ => 0
  blockToScopeId := fun _ => none
  scopeIdUsages := fun _ => []
  numLocalDefs := 0

/-- A state in which every expression still has the weak integer type. -/
def wState : InferenceState where
  exprTys := fun _ => .uInt 0
  localTys := fun _ => .unknown
  localUsages := fun _ => []
  diags := []

/-- The state after replacing expression 0's weak `{uint}` by `u32`. -/
def wState1 : InferenceState := wState.insertExprTy 0 (.uInt 32)

theorem wFirstCall :
    replaceWeakTys wBodies 1 wState 0 (Ty.uInt 32) = some (wState1, true) := by
  simp [replaceWeakTys, wBodies, wState, wState1, Ty.isWeakReplaceableBy,
    Ty.getMaxIntSize, InferenceState.insertExprTy]

theorem wSecondCall :
    replaceWeakTys wBodies 1 wState1 0 (Ty.uInt 32) = some (wState1, false) := by
  simp [replaceWeakTys, wBodies, wState, wState1, Ty.isWeakReplaceableBy,
    InferenceState.insertExprTy]

theorem replace_weak_tys_idempotent_witness :
    replaceWeakTys wBodies 1 wState 0 (Ty.uInt 32) = some (wState1, true) ∧
    replaceWeakTys wBodies 1 wState1 0 (Ty.uInt 32) = some (wState1, false) ∧
    (wState1.exprTys = wState1.exprTys ∧
      wState1.localTys = wState1.localTys) :=
  ⟨wFirstCall, wSecondCall,
    replace_weak_tys_idempotent wFirstCall wSecondCall⟩

/-- C3: the Boolean returned by `replace_weak_tys` is `false` on both early
exits (with the state unchanged), is `false` in the anonymous-array-to-slice
case — where the expression ends up with the non-anonymous array type, not
the slice —, is `true` in every other completed replacement, and `true`
implies the expression's top-level type actually changed. -/
theorem replace_weak_tys_return_value (B : Bodies) (fuel : Nat)
    (s s' : InferenceState) (e : Nat) (T : Ty) (r : Bool)
    (h : replaceWeakTys B fuel s e T = some (s', r)) :
    (B.exprs e = .missing → r = false ∧ s' = s) ∧
    ((s.exprTys e).isWeakReplaceableBy T = false → r = false ∧ s' = s) ∧
    (∀ sz sub0 nsub, B.exprs e ≠ .missing →
      (s.exprTys e).isWeakReplaceableBy T = true →
      s.exprTys e = .array true sz sub0 → T = .slice nsub →
      r = false ∧ s'.exprTys e = .array false sz nsub) ∧
    (B.exprs e ≠ .missing → (s.exprTys e).isWeakReplaceableBy T = true →
      (∀ sz sub0 nsub, ¬(s.exprTys e = .array true sz sub0 ∧
        T = .slice nsub)) → r = true) ∧
    (r = true → s'.exprTys e ≠ s.exprTys e) := by
  refine ⟨?_, ?_, ?_, ?_, ?_⟩
  · intro hm
    cases fuel with
    | zero => simp [replaceWeakTys] at h
    | succ fuel => exact rwt_missing h hm
  · intro hg
    cases fuel with
    | zero => simp [replaceWeakTys] at h
    | succ fuel => exact rwt_noguard h hg
  · intro sz sub0 nsub hmiss hguard hf hT
    exact rwt_conversion B fuel s e T s' r sz sub0 nsub hf hT h hmiss hguard
  · intro hmiss hguard hnc
    exact rwt_default_true h hmiss hguard hnc
  · intro hr
    subst hr
    have hg := rwt_guard_of_true h
    rcases rwt_result_nonsource B fuel s e T s' true h with
      ⟨_, _, hc⟩ | ⟨hc, _, _⟩ | hns
    · exact absurd hc (by simp)
    · rw [hc] at hg; exact absurd hg (by simp)
    · intro heq
      have hsrc := neverSource_eq_false_of_source hg
      rw [heq] at hns
      rw [hns] at hsrc
      exact absurd hsrc (by simp)

theorem replace_weak_tys_return_value_witness :
    replaceWeakTys wBodies 1 wState 0 (Ty.uInt 32) = some (wState1, true) ∧
    (true = true → wState1.exprTys 0 ≠ wState.exprTys 0) :=
  ⟨wFirstCall, (replace_weak_tys_return_value wBodies 1 wState wState1 0
    (Ty.uInt 32) true wFirstCall).2.2.2.2⟩

/-- C9: during re-inference an integer literal whose current type is the
weak `{uint}` and whose value exceeds `u32::MAX` is re-typed `u64`, one
whose current type is the weak `{int}` and whose value exceeds `i32::MAX`
is re-typed `i64`, and weak integer literals within those bounds keep
their current type (the state is unchanged). -/
theorem reinfer_int_literal_widens (B : Bodies) (fuel : Nat)
    (s s' : InferenceState) (e : Nat) (num : Nat)
    (he : B.exprs e = .intLiteral num)
    (h : reinferRule B (fuel + 1) s e = some s') :
    (s.exprTys e = .uInt 0 → num > 2 ^ 32 - 1 → s'.exprTys e = .uInt 64) ∧
    (s.exprTys e = .iInt 0 → num > 2 ^ 31 - 1 → s'.exprTys e = .iInt 64) ∧
    (s.exprTys e = .uInt 0 → num ≤ 2 ^ 32 - 1 → s' = s) ∧
    (s.exprTys e = .iInt 0 → num ≤ 2 ^ 31 - 1 → s' = s) := by
  refine ⟨?_, ?_, ?_, ?_⟩ <;> intro hprev hnum
  · simp only [reinferRule, he, hprev] at h
    rw [if_neg (by simp)] at h
    rw [if_pos hnum] at h
    simp only [Option.pure_def, Option.bind_eq_bind, Option.some_bind] at h
    simp only [reinferUpdateExprTy, hprev] at h
    rw [if_neg (by simp [Ty.isWeakReplaceableBy])] at h
    rw [if_pos (by simp [lossOfDistinct, arrayToSlice, strongIntToWeakInt])]
      at h
    simp only [Option.pure_def, Option.some.injEq] at h
    subst h
    exact insertExprTy_self s e _
  · simp only [reinferRule, he, hprev] at h
    rw [if_neg (by simp)] at h
    rw [if_pos hnum] at h
    simp only [Option.pure_def, Option.bind_eq_bind, Option.some_bind] at h
    simp only [reinferUpdateExprTy, hprev] at h
    rw [if_neg (by simp [Ty.isWeakReplaceableBy])] at h
    rw [if_pos (by simp [lossOfDistinct, arrayToSlice, strongIntToWeakInt])]
      at h
    simp only [Option.pure_def, Option.some.injEq] at h
    subst h
    exact insertExprTy_self s e _
  · simp only [reinferRule, he, hprev] at h
    rw [if_neg (by simp)] at h
    rw [if_neg (by simpa using hnum)] at h
    simp only [Option.pure_def, Option.bind_eq_bind, Option.some_bind,
      Option.some.injEq] at h
    exact h.symm
  · simp only [reinferRule, he, hprev] at h
    rw [if_neg (by simp)] at h
    rw [if_neg (by simpa using hnum)] at h
    simp only [Option.pure_def, Option.bind_eq_bind, Option.some_bind,
      Option.some.injEq] at h
    exact h.symm

/-- A one-expression test program whose literal exceeds `u32::MAX`. -/
def w9Bodies : Bodies := { wBodies with exprs := fun _ => .intLiteral 5000000000 }

/-- The state after the widening re-inference. -/
def w9After : InferenceState := wState.insertExprTy 0 (.uInt 64)

theorem w9Call : reinferRule w9Bodies 1 wState 0 = some w9After := by
  simp [reinferRule, reinferUpdateExprTy, w9Bodies, wBodies, wState, w9After,
    lossOfDistinct, arrayToSlice, strongIntToWeakInt, Ty.isWeakReplaceableBy,
    InferenceState.insertExprTy]

theorem reinfer_int_literal_widens_witness :
    reinferRule w9Bodies 1 wState 0 = some w9After ∧
    w9After.exprTys 0 = Ty.uInt 64 :=
  ⟨w9Call, (reinfer_int_literal_widens w9Bodies 0 wState w9After 0
    5000000000 rfl w9Call).1 rfl (by decide)⟩

/-! ## `expect_match` and the pure `infer_expr` branches -/

/-- `expect_match` (globals.rs 2669-2736).  The int-literal fast path
stores the expected type (unless the bit width is the platform sentinel
255), reports an oversized literal, and returns `true`; `Unknown` on either
side fails silently; otherwise `can_fit_into` decides, a failure pushing a
`Mismatch` diagnostic.  Returns the updated state and the Boolean result. -/
def expectMatch (B : Bodies) (s : InferenceState) (found expected : Ty)
    (expr : Nat) : InferenceState × Bool :=
  match B.exprs expr, expected with
  | .intLiteral num, .iInt bitWidth
  | .intLiteral num, .uInt bitWidth =>
      let s := if bitWidth ≠ 255 then s.insertExprTy expr expected else s
      let s :=
        match expected.getMaxIntSize with
        | some maxSize =>
            if num > maxSize then
              s.pushDiag ⟨.intTooBigForType num maxSize expected, some expr⟩
            else s
        | none => s
      (s, true)
  | _, _ =>
      if found.isUnknown || expected.isUnknown then (s, false)
      else if found.canFitInto expected = false then
        (s.pushDiag ⟨.mismatch (.concrete expected) found, some expr⟩, false)
      else (s, true)

/-- The `Expr::If` branch of `infer_expr` (globals.rs 1478-1551). -/
def inferIf (B : Bodies) (fuel : Nat) (s : InferenceState) (expr : Nat)
    (condition body : Nat) (elseBranch : Option Nat) :
    Option (InferenceState × Ty) :=
  let condTy := s.exprTys condition
  let (s, _) := expectMatch B s condTy .bool condition
  let bodyTy := s.exprTys body
  match elseBranch with
  | some elseBranch =>
      let elseTy := s.exprTys elseBranch
      if elseTy = .unknown then pure (s, elseTy)
      else
        match bodyTy.max elseTy with
        | some realTy => do
            let (s, _) ← replaceWeakTys B fuel s body realTy
            let (s, _) ← replaceWeakTys B fuel s elseBranch realTy
            pure (s, realTy)
        | none =>
            pure (s.pushDiag ⟨.ifMismatch bodyTy elseTy, some expr⟩,
              Ty.unknown)
  | none =>
      let s :=
        if bodyTy ≠ .noEval ∧ bodyTy.isVoid = false ∧
            bodyTy.isUnknown = false then
          s.pushDiag ⟨.missingElse bodyTy, some expr⟩
        else s
      if bodyTy = .noEval then pure (s, Ty.void) else pure (s, bodyTy)

/-- The `Expr::Deref` branch of `infer_expr` (globals.rs 1281-1312). -/
def inferDeref (s : InferenceState) (expr : Nat) (pointer : Nat) :
    InferenceState × Ty :=
  let derefTy := s.exprTys pointer
  match derefTy with
  | .rawPtr _ => (s.pushDiag ⟨.derefRaw, some expr⟩, Ty.unknown)
  | .pointer _ subTy => (s, subTy)
  | _ =>
      if derefTy.isUnknown = false then
        (s.pushDiag ⟨.derefNonPointer derefTy, some expr⟩, Ty.unknown)
      else (s, Ty.unknown)

/-- The `Expr::Index` branch of `infer_expr` (globals.rs 1133-1191). -/
def inferIndex (B : Bodies) (fuel : Nat) (s : InferenceState) (expr : Nat)
    (source index : Nat) : Option (InferenceState × Ty) := do
  let sourceTy := s.exprTys source
  let derefSourceTy := stripPointers sourceTy
  let indexTy := s.exprTys index
  let (s, fits) := expectMatch B s indexTy (.uInt 255) index
  let s ←
    if fits then (·.1) <$> replaceWeakTys B fuel s index (.uInt 255)
    else pure s
  if derefSourceTy = .unknown then
    pure (s, Ty.unknown)
  else if derefSourceTy = .rawSlice then
    pure (s.pushDiag ⟨.indexRaw, some expr⟩, Ty.unknown)
  else
    match derefSourceTy.asArray with
    | some (actualSize, arraySubTy) =>
        match B.exprs index with
        | .intLiteral idx =>
            if idx ≥ actualSize then
              pure (s.pushDiag ⟨.indexOutOfBounds idx actualSize sourceTy,
                some expr⟩, arraySubTy)
            else pure (s, arraySubTy)
        | _ => pure (s, arraySubTy)
    | none =>
        match derefSourceTy.asSlice with
        | some sliceSubTy => pure (s, sliceSubTy)
        | none =>
            pure (s.pushDiag ⟨.indexNonArray sourceTy, some expr⟩,
              Ty.unknown)

/-- The argument loop of the `Expr::Call` branch (globals.rs 1925-2021),
fueled because a varargs parameter re-examines the same argument.  `none`
models the source's `unwrap`/`assert!` panics. -/
def inferCallArgsLoop (B : Bodies) (e : Nat) :
    Nat → InferenceState → List (Ty × Bool × Bool) → List Nat →
    Option InferenceState
  | 0, _, _, _ => none
  | _ + 1, s, [], [] => pure s
  | fuel + 1, s, (paramTy, varargs, impossible) :: restP, [] =>
      if varargs then inferCallArgsLoop B e fuel s restP []
      else
        let s :=
          if impossible = false ∧ paramTy ≠ .unknown then
            s.pushDiag ⟨.missingArg (.concrete paramTy), some e⟩
          else s
        inferCallArgsLoop B e fuel s restP []
  | fuel + 1, s, [], arg :: restA =>
      let argTy := s.exprTys arg
      inferCallArgsLoop B e fuel
        (s.pushDiag ⟨.extraArg argTy, some arg⟩) [] restA
  | fuel + 1, s, (paramTy, varargs, impossible) :: restP, arg :: restA =>
      let argTy := s.exprTys arg
      if varargs then
        match paramTy.asSlice with
        | none => none
        | some actualSubTy =>
            if argTy.canFitInto actualSubTy then do
              let (s, _) ← replaceWeakTys B fuel s arg actualSubTy
              inferCallArgsLoop B e fuel s
                ((paramTy, varargs, impossible) :: restP) restA
            else
              match restP with
              | nextParam :: restP2 =>
                  inferCallArgsLoop B e fuel s (nextParam :: restP2)
                    (arg :: restA)
              | [] =>
                  if argTy.isUnknown then none
                  else
                    inferCallArgsLoop B e fuel
                      (s.pushDiag ⟨.mismatch (.concrete actualSubTy) argTy,
                        some arg⟩)
                      ((paramTy, varargs, impossible) :: restP) restA
      else do
        let (s, _) := expectMatch B s argTy paramTy arg
        let (s, _) ← replaceWeakTys B fuel s arg paramTy
        inferCallArgsLoop B e fuel s restP restA
  termination_by fuel _ _ _ => fuel

/-- The `Expr::Call` branch of `infer_expr` (globals.rs 1921-2037). -/
def inferCall (B : Bodies) (fuel : Nat) (s : InferenceState) (expr : Nat)
    (callee : Nat) (args : List Nat) : Option (InferenceState × Ty) :=
  let calleeTy := s.exprTys callee
  match calleeTy.asFunction with
  | some (params, returnTy) => do
      let s ← inferCallArgsLoop B expr fuel s params.toList args
      pure (s, returnTy)
  | none =>
      if calleeTy ≠ .unknown then
        pure (s.pushDiag ⟨.calledNonFunction calleeTy, some expr⟩,
          Ty.unknown)
      else pure (s, Ty.unknown)

/-- C4: for an `if` with no `else` branch: when the body's type is neither
`Void` nor `NoEval` nor `Unknown`, a `MissingElse` diagnostic carrying the
body's type is emitted (and the `if` keeps the body's type); when the
body's type is `NoEval`, the whole `if` expression is typed `Void` (and no
diagnostic is added). -/
theorem infer_if_no_else (B : Bodies) (fuel : Nat) (s s1 s' : InferenceState)
    (e cond body : Nat) (t bodyTy : Ty)
    (hs1 : (expectMatch B s (s.exprTys cond) .bool cond).1 = s1)
    (hb : s1.exprTys body = bodyTy)
    (h : inferIf B fuel s e cond body none = some (s', t)) :
    (bodyTy ≠ .noEval → bodyTy.isVoid = false → bodyTy.isUnknown = false →
      s' = s1.pushDiag ⟨.missingElse bodyTy, some e⟩ ∧ t = bodyTy) ∧
    (bodyTy = .noEval → t = .void ∧ s' = s1) := by
  simp only [inferIf, hs1, hb] at h
  constructor
  · intro h1 h2 h3
    rw [if_neg h1] at h
    rw [if_pos ⟨h1, h2, h3⟩] at h
    simp only [Option.pure_def, Option.some.injEq, Prod.mk.injEq] at h
    exact ⟨h.1.symm, h.2.symm⟩
  · intro h1
    rw [if_pos h1] at h
    rw [if_neg (by simp [h1])] at h
    simp only [Option.pure_def, Option.some.injEq, Prod.mk.injEq] at h
    exact ⟨h.2.symm, h.1.symm⟩

/-- A program whose expression 0 is `if e1 { e2 }` over integer literals. -/
def w4B : Bodies :=
  { wBodies with exprs := fun i =>
      if i = 0 then .«if» 1 2 none else .intLiteral 5 }

/-- The state of the `if` program after the condition check: the condition
(an `{uint}` literal) does not fit `bool`, so a `Mismatch` was pushed. -/
def w4S1 : InferenceState :=
  wState.pushDiag ⟨.mismatch (.concrete .bool) (.uInt 0), some 1⟩

theorem infer_if_no_else_witness :
    inferIf w4B 1 wState 0 1 2 none =
      some (w4S1.pushDiag ⟨.missingElse (.uInt 0), some 0⟩, Ty.uInt 0) ∧
    ((Ty.uInt 0) ≠ .noEval ∧ (Ty.uInt 0).isVoid = false ∧
      (Ty.uInt 0).isUnknown = false) :=
  ⟨rfl,
   by
    have := (infer_if_no_else w4B 1 wState w4S1
      (w4S1.pushDiag ⟨.missingElse (.uInt 0), some 0⟩) 0 1 2
      (Ty.uInt 0) (Ty.uInt 0) rfl rfl rfl).1 (by decide) (by decide)
      (by decide)
    exact ⟨by decide, by decide, by decide⟩⟩

/-- C8 counterexample: `expect_match`'s int-literal fast path precedes the
`Unknown` check, so checking an int-literal expression of `Unknown` type
against a concrete integer type returns `true`, not `false`: the claimed
"returns false whenever the found or the expected type is Unknown" fails. -/
theorem expect_match_unknown_fast_path :
    (expectMatch wBodies wState Ty.unknown (Ty.iInt 32) 0).2 = true := rfl

/-- A state in which every expression has type `Unknown`. -/
def w8S : InferenceState :=
  { exprTys := fun _ => .unknown
    localTys := fun _ => .unknown
    localUsages := fun _ => []
    diags := [] }

/-- C8 amended: outside the int-literal fast path, `expect_match` returns
`false` with no diagnostic whenever the found or the expected type is
`Unknown`; calling a callee of `Unknown` type produces `Unknown` with no
`CalledNonFunction`; dereferencing an `Unknown` produces `Unknown` with no
`DerefNonPointer` — in each case the state is returned unchanged. -/
theorem unknown_no_cascade (B : Bodies) (fuel : Nat) (s : InferenceState)
    (e p c : Nat) (found expected : Ty) (args : List Nat) :
    ((found.isUnknown = true ∨ expected.isUnknown = true) →
      (∀ num bw, ¬(B.exprs e = .intLiteral num ∧
        (expected = .iInt bw ∨ expected = .uInt bw))) →
      expectMatch B s found expected e = (s, false)) ∧
    (s.exprTys c = .unknown →
      inferCall B fuel s e c args = some (s, Ty.unknown)) ∧
    (s.exprTys p = .unknown →
      inferDeref s e p = (s, Ty.unknown)) := by
  refine ⟨?_, ?_, ?_⟩
  · intro hu hnc
    simp only [expectMatch]
    split
    · rename_i num bw heq
      exact absurd ⟨heq, Or.inl rfl⟩ (hnc num bw)
    · rename_i num bw heq
      exact absurd ⟨heq, Or.inr rfl⟩ (hnc num bw)
    · rw [if_pos]
      rcases hu with hu | hu
      · simp [hu]
      · simp [hu]
  · intro hc
    simp only [inferCall, hc]
    rw [if_neg (by simp)]
    simp [Ty.asFunction]
  · intro hp
    simp only [inferDeref, hp]
    rw [if_neg (by simp [Ty.isUnknown])]

theorem unknown_no_cascade_witness :
    expectMatch wBodies w8S Ty.unknown Ty.bool 0 = (w8S, false) ∧
    inferCall wBodies 1 w8S 0 1 [] = some (w8S, Ty.unknown) ∧
    inferDeref w8S 0 1 = (w8S, Ty.unknown) :=
  ⟨(unknown_no_cascade wBodies 1 w8S 0 1 1 Ty.unknown Ty.bool []).1
      (Or.inl rfl)
      (by intro num bw h; rcases h.2 with h2 | h2 <;> simp at h2),
   (unknown_no_cascade wBodies 1 w8S 0 1 1 Ty.unknown Ty.bool []).2.1 rfl,
   (unknown_no_cascade wBodies 1 w8S 0 1 1 Ty.unknown Ty.bool []).2.2 rfl⟩

/-- A state whose expression 1 (the index source) is a `rawslice` and whose
other expressions are weak `{uint}` literals. -/
def w6S : InferenceState :=
  { exprTys := fun i => if i = 1 then .rawSlice else .uInt 0
    localTys := fun _ => .unknown
    localUsages := fun _ => []
    diags := [] }

/-- The state of the rawslice-index program after the index expression has
been strengthened to `usize`. -/
def w6S2 : InferenceState := w6S.insertExprTy 2 (.uInt 255)

theorem w6IndexStep :
    ((·.1) <$> replaceWeakTys wBodies 1 w6S 2 (.uInt 255) : Option _) =
      some w6S2 := by
  simp [replaceWeakTys, wBodies, w6S, w6S2, Ty.isWeakReplaceableBy,
    Ty.getMaxIntSize, InferenceState.insertExprTy]

/-- C6 counterexample: indexing into a `rawslice` does NOT succeed without
diagnostics — it pushes an `IndexRaw` diagnostic and types the expression
`Unknown`, contradicting the claim that `RawSlice` is accepted like
`Array` and `Slice`. -/
theorem index_raw_slice_diagnostic :
    inferIndex wBodies 1 w6S 0 1 2 =
      some (w6S2.pushDiag ⟨.indexRaw, some 0⟩, Ty.unknown) := by
  have h1 : expectMatch wBodies w6S (w6S.exprTys 2) (.uInt 255) 2 =
      (w6S, true) := rfl
  simp only [inferIndex, h1, reduceIte]
  rw [w6IndexStep]
  simp only [Option.bind_eq_bind, Option.some_bind]
  rw [if_neg (by simp [w6S, stripPointers])]
  rw [if_pos (by simp [w6S, stripPointers])]
  rfl

/-- C6 amended: the source type is stripped of its pointer chain; an
`Unknown` result yields `Unknown` silently; a `rawslice` yields an
`IndexRaw` diagnostic and `Unknown`; an array yields its element type,
with an `IndexOutOfBounds` diagnostic exactly when the index is an integer
literal at least the array's size; a slice yields its element type; any
other stripped type yields an `IndexNonArray` diagnostic and `Unknown`. -/
theorem infer_index_characterization (B : Bodies) (fuel : Nat)
    (s s1 s2 s' : InferenceState) (e src idx : Nat) (t : Ty) (fits : Bool)
    (hem : expectMatch B s (s.exprTys idx) (.uInt 255) idx = (s1, fits))
    (hrep : (if fits then ((·.1) <$> replaceWeakTys B fuel s1 idx (.uInt 255))
        else pure s1) = some s2)
    (h : inferIndex B fuel s e src idx = some (s', t)) :
    (stripPointers (s.exprTys src) = .unknown → s' = s2 ∧ t = .unknown) ∧
    (stripPointers (s.exprTys src) = .rawSlice →
      s' = s2.pushDiag ⟨.indexRaw, some e⟩ ∧ t = .unknown) ∧
    (∀ an sz sub, stripPointers (s.exprTys src) = .array an sz sub →
      ((∀ num, B.exprs idx = .intLiteral num → num ≥ sz →
          s' = s2.pushDiag ⟨.indexOutOfBounds num sz (s.exprTys src), some e⟩
            ∧ t = sub) ∧
       (∀ num, B.exprs idx = .intLiteral num → num < sz →
          s' = s2 ∧ t = sub))) ∧
    (∀ sub, stripPointers (s.exprTys src) = .slice sub →
      s' = s2 ∧ t = sub) ∧
    (stripPointers (s.exprTys src) ≠ .unknown →
      stripPointers (s.exprTys src) ≠ .rawSlice →
      (stripPointers (s.exprTys src)).asArray = none →
      (stripPointers (s.exprTys src)).asSlice = none →
      s' = s2.pushDiag ⟨.indexNonArray (s.exprTys src), some e⟩ ∧
        t = .unknown) := by
  simp only [inferIndex] at h
  rw [hem] at h
  have hk : (if stripPointers (s.exprTys src) = Ty.unknown then
        pure (s2, Ty.unknown)
      else if stripPointers (s.exprTys src) = Ty.rawSlice then
        pure (s2.pushDiag ⟨.indexRaw, some e⟩, Ty.unknown)
      else
        match (stripPointers (s.exprTys src)).asArray with
        | some (actualSize, arraySubTy) =>
            match B.exprs idx with
            | .intLiteral idx2 =>
                if idx2 ≥ actualSize then
                  pure (s2.pushDiag ⟨.indexOutOfBounds idx2 actualSize
                    (s.exprTys src), some e⟩, arraySubTy)
                else pure (s2, arraySubTy)
            | _ => pure (s2, arraySubTy)
        | none =>
            match (stripPointers (s.exprTys src)).asSlice with
            | some sliceSubTy => pure (s2, sliceSubTy)
            | none => pure (s2.pushDiag ⟨.indexNonArray (s.exprTys src),
                some e⟩, Ty.unknown) : Option (InferenceState × Ty))
      = some (s', t) := by
    cases fits
    · simp only [Bool.false_eq_true, reduceIte] at hrep h
      simp only [Option.pure_def, Option.some.injEq] at hrep
      subst hrep
      exact h
    · simp only [reduceIte] at hrep h
      rw [hrep] at h
      simpa only [Option.bind_eq_bind, Option.some_bind] using h
  clear h hrep
  refine ⟨?_, ?_, ?_, ?_, ?_⟩
  · intro hd
    rw [if_pos hd] at hk
    simp only [Option.pure_def, Option.some.injEq, Prod.mk.injEq] at hk
    exact ⟨hk.1.symm, hk.2.symm⟩
  · intro hd
    rw [if_neg (by simp [hd]), if_pos hd] at hk
    simp only [Option.pure_def, Option.some.injEq, Prod.mk.injEq] at hk
    exact ⟨hk.1.symm, hk.2.symm⟩
  · intro an sz sub hd
    rw [if_neg (by simp [hd]), if_neg (by simp [hd])] at hk
    rw [hd] at hk
    simp only [Ty.asArray] at hk
    constructor
    · intro num hnum hge
      rw [hnum] at hk
      dsimp only at hk
      rw [if_pos hge] at hk
      simp only [Option.pure_def, Option.some.injEq, Prod.mk.injEq] at hk
      exact ⟨hk.1.symm, hk.2.symm⟩
    · intro num hnum hlt
      rw [hnum] at hk
      dsimp only at hk
      rw [if_neg (by omega)] at hk
      simp only [Option.pure_def, Option.some.injEq, Prod.mk.injEq] at hk
      exact ⟨hk.1.symm, hk.2.symm⟩
  · intro sub hd
    rw [if_neg (by simp [hd]), if_neg (by simp [hd])] at hk
    rw [hd] at hk
    simp only [Ty.asArray, Ty.asSlice] at hk
    simp only [Option.pure_def, Option.some.injEq, Prod.mk.injEq] at hk
    exact ⟨hk.1.symm, hk.2.symm⟩
  · intro hd1 hd2 hd3 hd4
    rw [if_neg hd1, if_neg hd2] at hk
    rw [hd3, hd4] at hk
    simp only [Option.pure_def, Option.some.injEq, Prod.mk.injEq] at hk
    exact ⟨hk.1.symm, hk.2.symm⟩

theorem infer_index_characterization_witness :
    inferIndex wBodies 1 w6S 0 1 2 =
      some (w6S2.pushDiag ⟨.indexRaw, some 0⟩, Ty.unknown) ∧
    (w6S2.pushDiag ⟨.indexRaw, some 0⟩ = w6S2.pushDiag ⟨.indexRaw, some 0⟩
      ∧ Ty.unknown = Ty.unknown) :=
  ⟨index_raw_slice_diagnostic,
   (infer_index_characterization wBodies 1 w6S w6S w6S2
      (w6S2.pushDiag ⟨.indexRaw, some 0⟩) 0 1 2 Ty.unknown true rfl
      (by rw [if_pos rfl]; exact w6IndexStep)
      index_raw_slice_diagnostic).2.1 (by simp [w6S, stripPointers])⟩

/-! ## The `Expr::Switch` branch -/

/-- The variant map built at the top of the switch branch
(globals.rs 1584-1601): variant name to (variant type, included flag);
`none` models the `unreachable!` on a non-`Variant` entry. -/
def buildVariantMap : List Ty → Option (List (Name × Ty × Bool))
  | [] => some []
  | v :: rest =>
      match v with
      | .variant enumUid name uid subTy disc =>
          (buildVariantMap rest).map
            (fun m => (name, Ty.variant enumUid name uid subTy disc, false) :: m)
      | _ => none

/-- `variants.get_mut(&name)`: first entry with the name. -/
def lookupVariant : List (Name × Ty × Bool) → Name → Option (Ty × Bool)
  | [], _ => none
  | (n, t, inc) :: rest, name =>
      if n = name then some (t, inc) else lookupVariant rest name

/-- `variant.included_in_switch = true` on the first entry with the name. -/
def markIncluded : List (Name × Ty × Bool) → Name → List (Name × Ty × Bool)
  | [], _ => []
  | (n, t, inc) :: rest, name =>
      if n = name then (n, t, true) :: rest
      else (n, t, inc) :: markIncluded rest name

/-- The `for arm in arms` loop of the switch branch (globals.rs 1605-1668):
skip nameless arms, report unknown variant names, report duplicates, mark
coverage, and unify the arm types into `first_arm_ty`. -/
def switchArmsLoop (scrutineeTy : Ty) (e : Nat) :
    InferenceState → List SwitchArm → List (Name × Ty × Bool) → Option Ty →
    InferenceState × List (Name × Ty × Bool) × Option Ty
  | s, [], m, f => (s, m, f)
  | s, arm :: rest, m, f =>
      match arm.variantName with
      | none => switchArmsLoop scrutineeTy e s rest m f
      | some name =>
          match lookupVariant m name with
          | none =>
              switchArmsLoop scrutineeTy e
                (s.pushDiag ⟨.nonExistentVariant name scrutineeTy,
                  some arm.body⟩)
                rest m f
          | some (vty, inc) =>
              let sm :=
                if inc then
                  (s.pushDiag ⟨.switchAlreadyCoversVariant vty, some e⟩, m)
                else (s, markIncluded m name)
              let s := sm.1
              let m := sm.2
              let foundArmTy := s.exprTys arm.body
              match f with
              | none => switchArmsLoop scrutineeTy e s rest m (some foundArmTy)
              | some firstTy =>
                  if firstTy = .unknown then
                    switchArmsLoop scrutineeTy e s rest m (some firstTy)
                  else
                    match firstTy.max foundArmTy with
                    | some realTy =>
                        switchArmsLoop scrutineeTy e s rest m (some realTy)
                    | none =>
                        switchArmsLoop scrutineeTy e
                          (s.pushDiag ⟨.switchMismatch foundArmTy firstTy,
                            some arm.body⟩)
                          rest m (some Ty.unknown)

/-- The coverage loop of the no-default case (globals.rs 1698-1717): one
`SwitchDoesNotCoverVariant` per entry whose flag is still `false`. -/
def switchCoverageLoop (e : Nat) :
    InferenceState → List (Name × Ty × Bool) → InferenceState
  | s, [] => s
  | s, (_, vty, inc) :: rest =>
      if inc then switchCoverageLoop e s rest
      else
        switchCoverageLoop e
          (s.pushDiag ⟨.switchDoesNotCoverVariant vty, some e⟩) rest

/-- The `Expr::Switch` branch of `infer_expr` (globals.rs 1567-1729). -/
def inferSwitch (B : Bodies) (fuel : Nat) (s : InferenceState) (e : Nat)
    (scrutinee : Nat) (arms : List SwitchArm) (default : Option Nat) :
    Option (InferenceState × Ty) :=
  let scrutineeTy := s.exprTys scrutinee
  match scrutineeTy with
  | .enum uid variants =>
      match buildVariantMap variants.toList with
      | none => none
      | some vmap => do
          let (s, m, f) := switchArmsLoop scrutineeTy e s arms vmap none
          let (s, f) ←
            match default with
            | some defaultBody =>
                let defaultTy := s.exprTys defaultBody
                (match f with
                | none => pure (s, some defaultTy)
                | some firstTy =>
                    if firstTy = .unknown then pure (s, some firstTy)
                    else
                      match firstTy.max defaultTy with
                      | some realTy => do
                          let (s, _) ←
                            replaceWeakTys B fuel s defaultBody realTy
                          pure (s, some realTy)
                      | none =>
                          pure (s.pushDiag
                            ⟨.switchMismatch defaultTy firstTy,
                              some defaultBody⟩, some Ty.unknown))
            | none => pure (switchCoverageLoop e s m, f)
          let s ←
            match f with
            | some firstTy =>
                if firstTy ≠ .unknown then
                  replaceWeakTysList B fuel s (arms.map SwitchArm.body)
                    firstTy
                else pure s
            | none => pure s
          pure (s, f.getD Ty.void)
  | _ => pure (s, Ty.unknown)

/-! ## Diagnostic discipline of the nest

`replace_weak_tys` and re-inference only ever append diagnostics, and the
only kind they append is `IntTooBigForType`.  This lets the switch claims
track coverage diagnostics through the weak-type propagation calls. -/

def OnlyIntDiags (s s' : InferenceState) : Prop :=
  ∃ l, s'.diags = s.diags ++ l ∧
    ∀ d ∈ l, ∃ n m t, d.kind = TyDiagnosticKind.intTooBigForType n m t

theorem OnlyIntDiags.diags_refl (s : InferenceState) : OnlyIntDiags s s :=
  ⟨[], by simp, by simp⟩

theorem OnlyIntDiags.diags_trans {a b c : InferenceState} (h1 : OnlyIntDiags a b)
    (h2 : OnlyIntDiags b c) : OnlyIntDiags a c := by
  obtain ⟨l1, e1, p1⟩ := h1
  obtain ⟨l2, e2, p2⟩ := h2
  refine ⟨l1 ++ l2, by rw [e2, e1, List.append_assoc], ?_⟩
  intro d hd
  rcases List.mem_append.1 hd with hd | hd
  · exact p1 d hd
  · exact p2 d hd

theorem OnlyIntDiags.insert_base {s : InferenceState} {x : Nat} {v : Ty} :
    OnlyIntDiags s (s.insertExprTy x v) := ⟨[], by simp [InferenceState.insertExprTy], by simp⟩

theorem OnlyIntDiags.diags_pushDiag {s t : InferenceState} (h : OnlyIntDiags s t)
    (n m : Nat) (ty : Ty) (x : Option Nat) :
    OnlyIntDiags s (t.pushDiag ⟨.intTooBigForType n m ty, x⟩) := by
  obtain ⟨l, e1, p1⟩ := h
  refine ⟨l ++ [⟨.intTooBigForType n m ty, x⟩], ?_, ?_⟩
  · simp [InferenceState.pushDiag, e1]
  · intro d hd
    rcases List.mem_append.1 hd with hd | hd
    · exact p1 d hd
    · simp only [List.mem_singleton] at hd
      subst hd
      exact ⟨n, m, ty, rfl⟩

theorem OnlyIntDiags.diags_insertLocalTy {s t : InferenceState}
    (h : OnlyIntDiags s t) (i : Nat) (v : Ty) :
    OnlyIntDiags s (t.insertLocalTy i v) := h

theorem OnlyIntDiags.diags_clearLocalUsages {s t : InferenceState}
    (h : OnlyIntDiags s t) (i : Nat) :
    OnlyIntDiags s (t.clearLocalUsages i) := h

theorem OnlyIntDiags.insert {s t : InferenceState} (h : OnlyIntDiags s t)
    (i : Nat) (v : Ty) : OnlyIntDiags s (t.insertExprTy i v) := h

theorem reinferUpdateExprTy_diags {s s' : InferenceState} {x : Nat}
    {v : Ty} (h : reinferUpdateExprTy s x v = some s') : OnlyIntDiags s s' := by
  rw [reinferUpdateExprTy] at h
  split at h
  · exact absurd h (by simp)
  · split at h <;> simp only [Option.pure_def, Option.some.injEq] at h <;>
      subst h
    · exact OnlyIntDiags.insert_base
    · exact OnlyIntDiags.diags_refl s

theorem reinferUpdateLocalTy_diags {s s' : InferenceState} {x : Nat}
    {v : Ty} (h : reinferUpdateLocalTy s x v = some s') : OnlyIntDiags s s' := by
  rw [reinferUpdateLocalTy] at h
  split at h
  · exact absurd h (by simp)
  · split at h <;> simp only [Option.pure_def, Option.some.injEq] at h <;>
      subst h
    · exact OnlyIntDiags.diags_refl s
    · exact OnlyIntDiags.diags_refl s

theorem reinferLocalDefStmt_diags {B : Bodies} {s s' : InferenceState}
    {l : Nat} (h : reinferLocalDefStmt B s l = some s') : OnlyIntDiags s s' := by
  rw [reinferLocalDefStmt] at h
  split at h
  · simp only [Option.pure_def, Option.some.injEq] at h; subst h
    exact OnlyIntDiags.diags_refl s
  · split at h
    · simp only [Option.pure_def, Option.some.injEq] at h; subst h
      exact OnlyIntDiags.diags_refl s
    · exact reinferUpdateLocalTy_diags h

set_option maxHeartbeats 1000000 in
theorem nest_diags (B : Bodies) : ∀ fuel : Nat,
    (∀ s e t s' r, replaceWeakTys B fuel s e t = some (s', r) → OnlyIntDiags s s') ∧
    (∀ s es t s', replaceWeakTysList B fuel s es t = some s' → OnlyIntDiags s s') ∧
    (∀ s us t s', replaceWeakTysBreakValues B fuel s us t = some s' →
      OnlyIntDiags s s') ∧
    (∀ s ms mt s', replaceWeakTysMembers B fuel s ms mt = some s' →
      OnlyIntDiags s s') ∧
    (∀ s us s', reinferUsages B fuel s us = some s' → OnlyIntDiags s s') ∧
    (∀ s e s' t, reinferExpr B fuel s e = some (s', t) → OnlyIntDiags s s') ∧
    (∀ s e s', reinferWalk B fuel s e = some s' → OnlyIntDiags s s') ∧
    (∀ s es s', reinferWalkList B fuel s es = some s' → OnlyIntDiags s s') ∧
    (∀ s sts s', reinferWalkStmts B fuel s sts = some s' → OnlyIntDiags s s') ∧
    (∀ s e s', reinferRule B fuel s e = some s' → OnlyIntDiags s s') := by
  intro fuel
  induction fuel with
  | zero =>
      refine ⟨?_, ?_, ?_, ?_, ?_, ?_, ?_, ?_, ?_, ?_⟩
      · intro s e t s' r h; simp [replaceWeakTys] at h
      · intro s es t s' h; simp [replaceWeakTysList] at h
      · intro s us t s' h; simp [replaceWeakTysBreakValues] at h
      · intro s ms mt s' h; simp [replaceWeakTysMembers] at h
      · intro s us s' h; simp [reinferUsages] at h
      · intro s e s' t h; simp [reinferExpr] at h
      · intro s e s' h; simp [reinferWalk] at h
      · intro s es s' h; simp [reinferWalkList] at h
      · intro s sts s' h; simp [reinferWalkStmts] at h
      · intro s e s' h; simp [reinferRule] at h
  | succ fuel ih =>
      obtain ⟨ihR, ihL, ihB, ihM, ihU, ihE, ihW, ihWL, ihWS, ihRl⟩ := ih
      refine ⟨?_, ?_, ?_, ?_, ?_, ?_, ?_, ?_, ?_, ?_⟩
      · -- replaceWeakTys
        intro s e t s' r h
        simp only [replaceWeakTys] at h
        split at h
        · -- Expr::Missing: early exit, no change
          simp only [Option.pure_def, Option.some.injEq, Prod.mk.injEq] at h
          obtain ⟨h1, _⟩ := h; subst h1; exact OnlyIntDiags.diags_refl _
        · split at h
          · -- not weak-replaceable: early exit, no change
            simp only [Option.pure_def, Option.some.injEq, Prod.mk.injEq] at h
            obtain ⟨h1, _⟩ := h; subst h1; exact OnlyIntDiags.diags_refl _
          · rename_i hmiss hguard
            have hg : (s.exprTys e).isWeakReplaceableBy t = true := by
              simpa using hguard
            split at h
            · -- anonymous array adjusted to a named array
              simp only [Option.map_eq_map, Option.map_eq_some'] at h
              obtain ⟨sF, hm, hfr⟩ := h
              simp only [Prod.mk.injEq] at hfr
              obtain ⟨hfr1, _⟩ := hfr
              subst hfr1
              split at hm
              · -- intLiteral
                (repeat' split at hm) <;>
                  (simp only [Option.pure_def, Option.some.injEq] at hm
                   subst hm
                   first
                     | exact OnlyIntDiags.insert_base
                     | exact OnlyIntDiags.insert_base.diags_pushDiag _ _ _ _)
              · -- arrayLiteral
                exact OnlyIntDiags.insert_base.diags_trans (ihL _ _ _ _ hm)
              · -- paren
                obtain ⟨r1, hm⟩ := map_fst_eq_some hm
                exact OnlyIntDiags.insert_base.diags_trans (ihR _ _ _ _ _ hm)
              · -- block
                split at hm
                · simp only [Option.bind_eq_bind, Option.bind_eq_some] at hm
                  obtain ⟨s2, hbv, hm⟩ := hm
                  refine (OnlyIntDiags.insert_base.diags_trans (ihB _ _ _ _ hbv)).diags_trans ?_
                  split at hm
                  · obtain ⟨r1, hm⟩ := map_fst_eq_some hm
                    exact ihR _ _ _ _ _ hm
                  · simp only [Option.pure_def, Option.some.injEq] at hm
                    subst hm; exact OnlyIntDiags.diags_refl _
                · simp only [Option.pure_def, Option.bind_eq_bind,
                    Option.some_bind] at hm
                  split at hm
                  · obtain ⟨r1, hm⟩ := map_fst_eq_some hm
                    exact OnlyIntDiags.insert_base.diags_trans (ihR _ _ _ _ _ hm)
                  · simp only [Option.some.injEq] at hm
                    subst hm; exact OnlyIntDiags.insert_base
              · -- if
                simp only [Option.bind_eq_bind, Option.bind_eq_some] at hm
                obtain ⟨⟨s2, r2⟩, hb, hm⟩ := hm
                refine (OnlyIntDiags.insert_base.diags_trans (ihR _ _ _ _ _ hb)).diags_trans ?_
                split at hm
                · obtain ⟨r3, hm⟩ := map_fst_eq_some hm
                  exact ihR _ _ _ _ _ hm
                · simp only [Option.pure_def, Option.some.injEq] at hm
                  subst hm; exact OnlyIntDiags.diags_refl _
              · -- while
                split at hm
                · exact OnlyIntDiags.insert_base.diags_trans (ihB _ _ _ _ hm)
                · simp only [Option.pure_def, Option.some.injEq] at hm
                  subst hm; exact OnlyIntDiags.insert_base
              · -- switch
                simp only [Option.bind_eq_bind, Option.bind_eq_some] at hm
                obtain ⟨s2, hl, hm⟩ := hm
                refine (OnlyIntDiags.insert_base.diags_trans (ihL _ _ _ _ hl)).diags_trans ?_
                split at hm
                · obtain ⟨r3, hm⟩ := map_fst_eq_some hm
                  exact ihR _ _ _ _ _ hm
                · simp only [Option.pure_def, Option.some.injEq] at hm
                  subst hm; exact OnlyIntDiags.diags_refl _
              · -- comptime
                obtain ⟨r1, hm⟩ := map_fst_eq_some hm
                exact OnlyIntDiags.insert_base.diags_trans (ihR _ _ _ _ _ hm)
              · -- deref
                obtain ⟨r1, hm⟩ := map_fst_eq_some hm
                exact OnlyIntDiags.insert_base.diags_trans (ihR _ _ _ _ _ hm)
              · -- ref
                simp only [Option.bind_eq_bind, Option.bind_eq_some] at hm
                obtain ⟨⟨om, osub⟩, hfp, hm⟩ := hm
                obtain ⟨⟨m2, sub2⟩, hnp, hm⟩ := hm
                simp [Ty.asPointer] at hnp
              · -- binary
                simp only [Option.bind_eq_bind, Option.bind_eq_some] at hm
                obtain ⟨⟨s2, r2⟩, ha, hm⟩ := hm
                obtain ⟨r3, hm⟩ := map_fst_eq_some hm
                exact ((OnlyIntDiags.insert_base.diags_trans (ihR _ _ _ _ _ ha)).diags_trans
                  (ihR _ _ _ _ _ hm))
              · -- unary
                obtain ⟨r1, hm⟩ := map_fst_eq_some hm
                exact OnlyIntDiags.insert_base.diags_trans (ihR _ _ _ _ _ hm)
              · -- local
                split at hm
                · simp only [Option.bind_eq_bind, Option.bind_eq_some] at hm
                  obtain ⟨⟨s3, chg⟩, hrv, hm⟩ := hm
                  have hs3 : OnlyIntDiags s s3 :=
                    OnlyIntDiags.insert_base.diags_trans (ihR _ _ _ _ _ hrv)
                  cases chg <;>
                    simp only [Bool.false_eq_true, reduceIte, Option.pure_def,
                      Option.bind_eq_bind, Option.bind_eq_some,
                      Option.some.injEq, exists_eq_left'] at hm
                  · exact (hs3.diags_clearLocalUsages _).diags_trans (ihU _ _ _ hm)
                  · exact ((hs3.diags_insertLocalTy _ _).diags_clearLocalUsages _).diags_trans
                      (ihU _ _ _ hm)
                · simp only [Option.pure_def, Option.bind_eq_bind,
                    Option.some_bind] at hm
                  exact (OnlyIntDiags.insert_base.diags_clearLocalUsages _).diags_trans
                    (ihU _ _ _ hm)
              · -- structLiteral
                simp only [Option.bind_eq_bind, Option.bind_eq_some] at hm
                obtain ⟨mt, hms, hm⟩ := hm
                exact OnlyIntDiags.insert_base.diags_trans (ihM _ _ _ _ hm)
              · -- catch-all
                simp only [Option.pure_def, Option.some.injEq] at hm
                subst hm; exact OnlyIntDiags.insert_base
            · -- ordinary replacement
              simp only [Option.map_eq_map, Option.map_eq_some'] at h
              obtain ⟨sF, hm, hfr⟩ := h
              simp only [Prod.mk.injEq] at hfr
              obtain ⟨hfr1, _⟩ := hfr
              subst hfr1
              split at hm
              · -- intLiteral
                (repeat' split at hm) <;>
                  (simp only [Option.pure_def, Option.some.injEq] at hm
                   subst hm
                   first
                     | exact OnlyIntDiags.insert_base
                     | exact OnlyIntDiags.insert_base.diags_pushDiag _ _ _ _)
              · -- arrayLiteral
                split at hm
                · exact OnlyIntDiags.insert_base.diags_trans (ihL _ _ _ _ hm)
                · exact (OnlyIntDiags.insert_base.diags_trans OnlyIntDiags.insert_base).diags_trans
                    (ihL _ _ _ _ hm)
                · simp at hm
              · -- paren
                obtain ⟨r1, hm⟩ := map_fst_eq_some hm
                exact OnlyIntDiags.insert_base.diags_trans (ihR _ _ _ _ _ hm)
              · -- block
                split at hm
                · simp only [Option.bind_eq_bind, Option.bind_eq_some] at hm
                  obtain ⟨s2, hbv, hm⟩ := hm
                  refine (OnlyIntDiags.insert_base.diags_trans (ihB _ _ _ _ hbv)).diags_trans ?_
                  split at hm
                  · obtain ⟨r1, hm⟩ := map_fst_eq_some hm
                    exact ihR _ _ _ _ _ hm
                  · simp only [Option.pure_def, Option.some.injEq] at hm
                    subst hm; exact OnlyIntDiags.diags_refl _
                · simp only [Option.pure_def, Option.bind_eq_bind,
                    Option.some_bind] at hm
                  split at hm
                  · obtain ⟨r1, hm⟩ := map_fst_eq_some hm
                    exact OnlyIntDiags.insert_base.diags_trans (ihR _ _ _ _ _ hm)
                  · simp only [Option.some.injEq] at hm
                    subst hm; exact OnlyIntDiags.insert_base
              · -- if
                simp only [Option.bind_eq_bind, Option.bind_eq_some] at hm
                obtain ⟨⟨s2, r2⟩, hb, hm⟩ := hm
                refine (OnlyIntDiags.insert_base.diags_trans (ihR _ _ _ _ _ hb)).diags_trans ?_
                split at hm
                · obtain ⟨r3, hm⟩ := map_fst_eq_some hm
                  exact ihR _ _ _ _ _ hm
                · simp only [Option.pure_def, Option.some.injEq] at hm
                  subst hm; exact OnlyIntDiags.diags_refl _
              · -- while
                split at hm
                · exact OnlyIntDiags.insert_base.diags_trans (ihB _ _ _ _ hm)
                · simp only [Option.pure_def, Option.some.injEq] at hm
                  subst hm; exact OnlyIntDiags.insert_base
              · -- switch
                simp only [Option.bind_eq_bind, Option.bind_eq_some] at hm
                obtain ⟨s2, hl, hm⟩ := hm
                refine (OnlyIntDiags.insert_base.diags_trans (ihL _ _ _ _ hl)).diags_trans ?_
                split at hm
                · obtain ⟨r3, hm⟩ := map_fst_eq_some hm
                  exact ihR _ _ _ _ _ hm
                · simp only [Option.pure_def, Option.some.injEq] at hm
                  subst hm; exact OnlyIntDiags.diags_refl _
              · -- comptime
                obtain ⟨r1, hm⟩ := map_fst_eq_some hm
                exact OnlyIntDiags.insert_base.diags_trans (ihR _ _ _ _ _ hm)
              · -- deref
                obtain ⟨r1, hm⟩ := map_fst_eq_some hm
                exact OnlyIntDiags.insert_base.diags_trans (ihR _ _ _ _ _ hm)
              · -- ref
                simp only [Option.bind_eq_bind, Option.bind_eq_some] at hm
                obtain ⟨⟨om, osub⟩, hfp, hm⟩ := hm
                obtain ⟨⟨m2, sub2⟩, hnp, hm⟩ := hm
                obtain ⟨⟨s3, r3⟩, hr, hm⟩ := hm
                simp only [Option.pure_def, Option.some.injEq] at hm
                subst hm
                exact (OnlyIntDiags.insert_base.diags_trans (ihR _ _ _ _ _ hr)).diags_trans
                  OnlyIntDiags.insert_base
              · -- binary
                simp only [Option.bind_eq_bind, Option.bind_eq_some] at hm
                obtain ⟨⟨s2, r2⟩, ha, hm⟩ := hm
                obtain ⟨r3, hm⟩ := map_fst_eq_some hm
                exact ((OnlyIntDiags.insert_base.diags_trans (ihR _ _ _ _ _ ha)).diags_trans
                  (ihR _ _ _ _ _ hm))
              · -- unary
                obtain ⟨r1, hm⟩ := map_fst_eq_some hm
                exact OnlyIntDiags.insert_base.diags_trans (ihR _ _ _ _ _ hm)
              · -- local
                split at hm
                · simp only [Option.bind_eq_bind, Option.bind_eq_some] at hm
                  obtain ⟨⟨s3, chg⟩, hrv, hm⟩ := hm
                  have hs3 : OnlyIntDiags s s3 :=
                    OnlyIntDiags.insert_base.diags_trans (ihR _ _ _ _ _ hrv)
                  cases chg <;>
                    simp only [Bool.false_eq_true, reduceIte, Option.pure_def,
                      Option.bind_eq_bind, Option.bind_eq_some,
                      Option.some.injEq, exists_eq_left'] at hm
                  · exact (hs3.diags_clearLocalUsages _).diags_trans (ihU _ _ _ hm)
                  · exact ((hs3.diags_insertLocalTy _ _).diags_clearLocalUsages _).diags_trans
                      (ihU _ _ _ hm)
                · simp only [Option.pure_def, Option.bind_eq_bind,
                    Option.some_bind] at hm
                  exact (OnlyIntDiags.insert_base.diags_clearLocalUsages _).diags_trans
                    (ihU _ _ _ hm)
              · -- structLiteral
                simp only [Option.bind_eq_bind, Option.bind_eq_some] at hm
                obtain ⟨mt, hms, hm⟩ := hm
                exact OnlyIntDiags.insert_base.diags_trans (ihM _ _ _ _ hm)
              · -- catch-all
                simp only [Option.pure_def, Option.some.injEq] at hm
                subst hm; exact OnlyIntDiags.insert_base
      · -- replaceWeakTysList
        intro s es t s' h
        cases es with
        | nil =>
            simp only [replaceWeakTysList, Option.pure_def,
              Option.some.injEq] at h
            subst h; exact OnlyIntDiags.diags_refl s
        | cons e rest =>
            simp only [replaceWeakTysList, Option.bind_eq_bind,
              Option.bind_eq_some] at h
            obtain ⟨⟨s1, r1⟩, h1, h2⟩ := h
            exact (ihR _ _ _ _ _ h1).diags_trans (ihL _ _ _ _ h2)
      · -- replaceWeakTysBreakValues
        intro s us t s' h
        cases us with
        | nil =>
            simp only [replaceWeakTysBreakValues, Option.pure_def,
              Option.some.injEq] at h
            subst h; exact OnlyIntDiags.diags_refl s
        | cons usage rest =>
            simp only [replaceWeakTysBreakValues] at h
            split at h
            · simp only [Option.bind_eq_bind, Option.bind_eq_some] at h
              obtain ⟨s1, h1, h2⟩ := h
              obtain ⟨r1, h1⟩ := map_fst_eq_some h1
              exact (ihR _ _ _ _ _ h1).diags_trans (ihB _ _ _ _ h2)
            · simp only [Option.pure_def, Option.bind_eq_bind, Option.some_bind] at h
              exact ihB _ _ _ _ h
      · -- replaceWeakTysMembers
        intro s ms mt s' h
        cases ms with
        | nil =>
            simp only [replaceWeakTysMembers, Option.pure_def,
              Option.some.injEq] at h
            subst h; exact OnlyIntDiags.diags_refl s
        | cons hd rest =>
            simp only [replaceWeakTysMembers] at h
            split at h
            · simp only [Option.pure_def, Option.bind_eq_bind, Option.some_bind] at h
              exact ihM _ _ _ _ h
            · simp only [Option.bind_eq_bind, Option.bind_eq_some] at h
              obtain ⟨mty, _, h⟩ := h
              obtain ⟨s1, h1, h2⟩ := h
              obtain ⟨r1, h1⟩ := map_fst_eq_some h1
              exact (ihR _ _ _ _ _ h1).diags_trans (ihM _ _ _ _ h2)
      · -- reinferUsages
        intro s us s' h
        cases us with
        | nil =>
            simp only [reinferUsages, Option.pure_def, Option.some.injEq] at h
            subst h; exact OnlyIntDiags.diags_refl s
        | cons usage rest =>
            simp only [reinferUsages] at h
            split at h
            · -- Stmt::LocalDef
              split at h
              · simp only [Option.bind_eq_bind, Option.bind_eq_some] at h
                obtain ⟨⟨s2, ty2⟩, hv, h⟩ := h
                have base := ihE _ _ _ _ hv
                split at h <;>
                  simp only [Option.pure_def, Option.bind_eq_bind,
                    Option.some_bind] at h
                · exact (base.diags_insertLocalTy _ _).diags_trans (ihU _ _ _ h)
                · exact base.diags_trans (ihU _ _ _ h)
              · simp only [Option.pure_def, Option.bind_eq_bind,
                  Option.some_bind] at h
                exact ihU _ _ _ h
            · -- Stmt::Assign
              simp only [Option.bind_eq_bind, Option.bind_eq_some] at h
              obtain ⟨⟨s2, dty⟩, hd, h⟩ := h
              obtain ⟨⟨s3, vty⟩, hv, h⟩ := h
              have base := (ihE _ _ _ _ hd).diags_trans (ihE _ _ _ _ hv)
              split at h
              · simp only [Option.bind_eq_bind, Option.bind_eq_some] at h
                obtain ⟨⟨s4, r4⟩, hra, h⟩ := h
                obtain ⟨s5, hrb, h⟩ := h
                obtain ⟨r5, hrb⟩ := map_fst_eq_some hrb
                exact (((base.diags_trans (ihR _ _ _ _ _ hra)).diags_trans
                  (ihR _ _ _ _ _ hrb)).diags_trans (ihU _ _ _ h))
              · simp only [Option.pure_def, Option.bind_eq_bind,
                  Option.some_bind] at h
                exact base.diags_trans (ihU _ _ _ h)
              · split at h
                · simp only [Option.bind_eq_bind, Option.bind_eq_some] at h
                  obtain ⟨s4, hra, h⟩ := h
                  obtain ⟨r4, hra⟩ := map_fst_eq_some hra
                  exact (base.diags_trans (ihR _ _ _ _ _ hra)).diags_trans (ihU _ _ _ h)
                · split at h
                  · simp only [Option.bind_eq_bind, Option.bind_eq_some] at h
                    obtain ⟨s4, hra, h⟩ := h
                    obtain ⟨r4, hra⟩ := map_fst_eq_some hra
                    exact (base.diags_trans (ihR _ _ _ _ _ hra)).diags_trans (ihU _ _ _ h)
                  · simp only [Option.pure_def, Option.bind_eq_bind,
                      Option.some_bind] at h
                    exact base.diags_trans (ihU _ _ _ h)
            · -- Stmt::Expr
              simp only [Option.bind_eq_bind, Option.bind_eq_some] at h
              obtain ⟨s1, h1, h⟩ := h
              obtain ⟨r1, h1⟩ := map_fst_eq_some h1
              exact (ihE _ _ _ _ h1).diags_trans (ihU _ _ _ h)
            · -- Stmt::Break (some value)
              simp only [Option.bind_eq_bind, Option.bind_eq_some] at h
              obtain ⟨s1, h1, h⟩ := h
              obtain ⟨r1, h1⟩ := map_fst_eq_some h1
              exact (ihE _ _ _ _ h1).diags_trans (ihU _ _ _ h)
            · simp only [Option.pure_def, Option.bind_eq_bind,
                Option.some_bind] at h
              exact ihU _ _ _ h
            · -- Stmt::Defer
              simp only [Option.bind_eq_bind, Option.bind_eq_some] at h
              obtain ⟨s1, h1, h⟩ := h
              obtain ⟨r1, h1⟩ := map_fst_eq_some h1
              exact (ihE _ _ _ _ h1).diags_trans (ihU _ _ _ h)
            · simp only [Option.pure_def, Option.bind_eq_bind,
                Option.some_bind] at h
              exact ihU _ _ _ h
      · -- reinferExpr
        intro s e s' t h
        simp only [reinferExpr] at h
        split at h
        · simp only [Option.pure_def, Option.some.injEq, Prod.mk.injEq] at h
          obtain ⟨rfl, rfl⟩ := h
          exact OnlyIntDiags.diags_refl s
        · simp only [Option.bind_eq_bind, Option.bind_eq_some] at h
          obtain ⟨s1, hw, hp⟩ := h
          simp only [Option.pure_def, Option.some.injEq, Prod.mk.injEq] at hp
          obtain ⟨rfl, rfl⟩ := hp
          exact ihW _ _ _ hw
      · -- reinferWalk
        intro s e s' h
        simp only [reinferWalk] at h
        split at h
        · -- arrayLiteral
          simp only [Option.bind_eq_bind, Option.bind_eq_some] at h
          obtain ⟨s1, h1, h2⟩ := h
          exact (ihWL _ _ _ h1).diags_trans (ihRl _ _ _ h2)
        · -- index
          simp only [Option.bind_eq_bind, Option.bind_eq_some] at h
          obtain ⟨s1, ha, s2, hb, h2⟩ := h
          exact ((ihW _ _ _ ha).diags_trans (ihW _ _ _ hb)).diags_trans (ihRl _ _ _ h2)
        · -- cast
          simp only [Option.bind_eq_bind, Option.bind_eq_some] at h
          obtain ⟨s1, h1, h2⟩ := h
          exact (ihW _ _ _ h1).diags_trans (ihRl _ _ _ h2)
        · -- ref
          simp only [Option.bind_eq_bind, Option.bind_eq_some] at h
          obtain ⟨s1, h1, h2⟩ := h
          exact (ihW _ _ _ h1).diags_trans (ihRl _ _ _ h2)
        · -- deref
          simp only [Option.bind_eq_bind, Option.bind_eq_some] at h
          obtain ⟨s1, h1, h2⟩ := h
          exact (ihW _ _ _ h1).diags_trans (ihRl _ _ _ h2)
        · -- binary
          simp only [Option.bind_eq_bind, Option.bind_eq_some] at h
          obtain ⟨s1, ha, s2, hb, h2⟩ := h
          exact ((ihW _ _ _ ha).diags_trans (ihW _ _ _ hb)).diags_trans (ihRl _ _ _ h2)
        · -- unary
          simp only [Option.bind_eq_bind, Option.bind_eq_some] at h
          obtain ⟨s1, h1, h2⟩ := h
          exact (ihW _ _ _ h1).diags_trans (ihRl _ _ _ h2)
        · -- paren
          simp only [Option.bind_eq_bind, Option.bind_eq_some] at h
          obtain ⟨s1, h1, h2⟩ := h
          exact (ihW _ _ _ h1).diags_trans (ihRl _ _ _ h2)
        · -- block
          simp only [Option.bind_eq_bind, Option.bind_eq_some] at h
          obtain ⟨s1, ha, h⟩ := h
          refine OnlyIntDiags.diags_trans (ihWS _ _ _ ha) ?_
          split at h
          · simp only [Option.bind_eq_bind, Option.bind_eq_some] at h
            obtain ⟨s2, hb, h2⟩ := h
            exact (ihW _ _ _ hb).diags_trans (ihRl _ _ _ h2)
          · simp only [Option.pure_def, Option.bind_eq_bind,
              Option.some_bind] at h
            exact ihRl _ _ _ h
        · -- if
          simp only [Option.bind_eq_bind, Option.bind_eq_some] at h
          obtain ⟨s1, ha, s2, hb, h⟩ := h
          refine OnlyIntDiags.diags_trans ((ihW _ _ _ ha).diags_trans (ihW _ _ _ hb)) ?_
          split at h
          · simp only [Option.bind_eq_bind, Option.bind_eq_some] at h
            obtain ⟨s3, hc, h2⟩ := h
            exact (ihW _ _ _ hc).diags_trans (ihRl _ _ _ h2)
          · simp only [Option.pure_def, Option.bind_eq_bind,
              Option.some_bind] at h
            exact ihRl _ _ _ h
        · -- while
          split at h
          · simp only [Option.bind_eq_bind, Option.bind_eq_some] at h
            obtain ⟨s1, ha, s2, hb, h2⟩ := h
            exact ((ihW _ _ _ ha).diags_trans (ihW _ _ _ hb)).diags_trans (ihRl _ _ _ h2)
          · simp only [Option.pure_def, Option.bind_eq_bind, Option.some_bind,
              Option.bind_eq_some] at h
            obtain ⟨s1, hb, h2⟩ := h
            exact (ihW _ _ _ hb).diags_trans (ihRl _ _ _ h2)
        · -- switch
          simp only [Option.bind_eq_bind, Option.bind_eq_some] at h
          obtain ⟨s1, ha, s2, hb, h⟩ := h
          refine OnlyIntDiags.diags_trans ((ihW _ _ _ ha).diags_trans (ihWL _ _ _ hb)) ?_
          split at h
          · simp only [Option.bind_eq_bind, Option.bind_eq_some] at h
            obtain ⟨s3, hc, h2⟩ := h
            exact (ihW _ _ _ hc).diags_trans (ihRl _ _ _ h2)
          · simp only [Option.pure_def, Option.bind_eq_bind,
              Option.some_bind] at h
            exact ihRl _ _ _ h
        · -- call
          simp only [Option.bind_eq_bind, Option.bind_eq_some] at h
          obtain ⟨s1, ha, s2, hb, h2⟩ := h
          exact ((ihW _ _ _ ha).diags_trans (ihWL _ _ _ hb)).diags_trans (ihRl _ _ _ h2)
        · -- structLiteral
          simp only [Option.bind_eq_bind, Option.bind_eq_some] at h
          obtain ⟨s1, h1, h2⟩ := h
          exact (ihWL _ _ _ h1).diags_trans (ihRl _ _ _ h2)
        · -- comptime
          simp only [Option.bind_eq_bind, Option.bind_eq_some] at h
          obtain ⟨s1, h1, h2⟩ := h
          exact (ihW _ _ _ h1).diags_trans (ihRl _ _ _ h2)
        · simp only [Option.pure_def, Option.bind_eq_bind,
            Option.some_bind] at h
          exact ihRl _ _ _ h
      · -- reinferWalkList
        intro s es s' h
        cases es with
        | nil =>
            simp only [reinferWalkList, Option.pure_def, Option.some.injEq] at h
            subst h; exact OnlyIntDiags.diags_refl s
        | cons e rest =>
            simp only [reinferWalkList, Option.bind_eq_bind,
              Option.bind_eq_some] at h
            obtain ⟨s1, h1, h2⟩ := h
            exact (ihW _ _ _ h1).diags_trans (ihWL _ _ _ h2)
      · -- reinferWalkStmts
        intro s sts s' h
        cases sts with
        | nil =>
            simp only [reinferWalkStmts, Option.pure_def, Option.some.injEq] at h
            subst h; exact OnlyIntDiags.diags_refl s
        | cons stmt rest =>
            simp only [reinferWalkStmts] at h
            split at h
            · -- expr
              simp only [Option.bind_eq_bind, Option.bind_eq_some] at h
              obtain ⟨s1, h1, h2⟩ := h
              exact (ihW _ _ _ h1).diags_trans (ihWS _ _ _ h2)
            · -- localDef
              split at h
              · simp only [Option.bind_eq_bind, Option.bind_eq_some] at h
                obtain ⟨s1, hv, s2, hrule, h2⟩ := h
                exact ((ihW _ _ _ hv).diags_trans
                  (reinferLocalDefStmt_diags hrule)).diags_trans (ihWS _ _ _ h2)
              · simp only [Option.pure_def, Option.bind_eq_bind,
                  Option.some_bind, Option.bind_eq_some] at h
                obtain ⟨s2, hrule, h2⟩ := h
                exact (reinferLocalDefStmt_diags hrule).diags_trans (ihWS _ _ _ h2)
            · -- assign
              simp only [Option.bind_eq_bind, Option.bind_eq_some] at h
              obtain ⟨s1, hd, s2, hv, h2⟩ := h
              exact ((ihW _ _ _ hd).diags_trans (ihW _ _ _ hv)).diags_trans (ihWS _ _ _ h2)
            · -- break some
              simp only [Option.bind_eq_bind, Option.bind_eq_some] at h
              obtain ⟨s1, h1, h2⟩ := h
              exact (ihW _ _ _ h1).diags_trans (ihWS _ _ _ h2)
            · simp only [Option.pure_def, Option.bind_eq_bind,
                Option.some_bind] at h
              exact ihWS _ _ _ h
            · simp only [Option.pure_def, Option.bind_eq_bind,
                Option.some_bind] at h
              exact ihWS _ _ _ h
            · -- defer
              simp only [Option.bind_eq_bind, Option.bind_eq_some] at h
              obtain ⟨s1, h1, h2⟩ := h
              exact (ihW _ _ _ h1).diags_trans (ihWS _ _ _ h2)
      · -- reinferRule
        intro s e s' h
        simp only [reinferRule] at h
        split at h
        · simp only [Option.pure_def, Option.some.injEq] at h
          subst h; exact OnlyIntDiags.diags_refl s
        · -- each branch computes the new type purely (state untouched) or,
          -- for `Binary`, through two guarded replacements; the final
          -- update goes through `reinferUpdateExprTy`
          split at h <;>
            (simp only [Option.bind_eq_bind, Option.bind_eq_some] at h
             obtain ⟨⟨s1, nq⟩, hA, h⟩ := h
             first
             | ((repeat' split at hA) <;>
                 (simp only [Option.pure_def, Option.some.injEq,
                    Prod.mk.injEq] at hA
                  obtain ⟨hA1, hA2⟩ := hA
                  subst hA1; subst hA2
                  simp only [Option.pure_def, Option.some.injEq] at h
                  first
                    | (subst h; exact OnlyIntDiags.diags_refl _)
                    | exact reinferUpdateExprTy_diags h))
             | (split at hA <;>
                 first
                 | (simp only [Option.bind_eq_bind, Option.bind_eq_some] at hA
                    obtain ⟨⟨s2, r2⟩, ha, ⟨⟨s3, r3⟩, hb, hp⟩⟩ := hA
                    simp only [Option.pure_def, Option.some.injEq,
                      Prod.mk.injEq] at hp
                    obtain ⟨hp1, hp2⟩ := hp
                    subst hp1; subst hp2
                    refine ((ihR _ _ _ _ _ ha).diags_trans
                      (ihR _ _ _ _ _ hb)).diags_trans ?_
                    simp only [Option.pure_def, Option.some.injEq] at h
                    first
                      | (subst h; exact OnlyIntDiags.diags_refl _)
                      | exact reinferUpdateExprTy_diags h)
                 | (simp only [Option.pure_def, Option.some.injEq,
                      Prod.mk.injEq] at hA
                    obtain ⟨hA1, hA2⟩ := hA
                    subst hA1; subst hA2
                    simp only [Option.pure_def, Option.some.injEq] at h
                    first
                      | (subst h; exact OnlyIntDiags.diags_refl _)
                      | exact reinferUpdateExprTy_diags h)))

/-- Coverage diagnostics (`SwitchDoesNotCoverVariant`). -/
def isCoverageDiag (d : TyDiagnostic) : Bool :=
  match d.kind with
  | .switchDoesNotCoverVariant _ => true
  | _ => false

/-- Duplicate-arm diagnostics (`SwitchAlreadyCoversVariant`). -/
def isAlreadyCoversDiag (d : TyDiagnostic) : Bool :=
  match d.kind with
  | .switchAlreadyCoversVariant _ => true
  | _ => false

/-- Any state extension that appends only `IntTooBigForType` diagnostics
preserves the count of every other diagnostic shape. -/
theorem OnlyIntDiags.countP_eq {s s' : InferenceState}
    (h : OnlyIntDiags s s') (p : TyDiagnostic → Bool)
    (hp : ∀ n m t x, p ⟨.intTooBigForType n m t, x⟩ = false) :
    s'.diags.countP p = s.diags.countP p := by
  obtain ⟨l, e, hl⟩ := h
  rw [e, List.countP_append]
  suffices hz : l.countP p = 0 by omega
  rw [List.countP_eq_zero]
  intro d hd
  obtain ⟨n, m, t, hk⟩ := hl d hd
  cases d with
  | mk kind ex =>
      simp only at hk
      subst hk
      simp [hp]

theorem countP_pushDiag (s : InferenceState) (d : TyDiagnostic)
    (p : TyDiagnostic → Bool) :
    (s.pushDiag d).diags.countP p =
      s.diags.countP p + (if p d then 1 else 0) := by
  simp [InferenceState.pushDiag, List.countP_append, List.countP_cons,
    List.countP_nil]

theorem mem_pushDiag {s : InferenceState} {d : TyDiagnostic}
    (d' : TyDiagnostic) (h : d ∈ s.diags) : d ∈ (s.pushDiag d').diags := by
  simp only [InferenceState.pushDiag, List.mem_append]
  exact Or.inl h

theorem lookupVariant_mark_self {m : List (Name × Ty × Bool)} {n : Name}
    {t : Ty} {inc : Bool} (h : lookupVariant m n = some (t, inc)) :
    lookupVariant (markIncluded m n) n = some (t, true) := by
  induction m with
  | nil => simp [lookupVariant] at h
  | cons hd rest ih =>
      obtain ⟨n0, t0, i0⟩ := hd
      by_cases hn : n0 = n
      · subst hn
        rw [lookupVariant, if_pos rfl] at h
        simp only [Option.some.injEq, Prod.mk.injEq] at h
        simp [markIncluded, lookupVariant, h.1]
      · simp only [lookupVariant, if_neg hn] at h
        simp only [markIncluded, if_neg hn, lookupVariant, if_neg hn]
        exact ih h

theorem lookupVariant_mark_ne {m : List (Name × Ty × Bool)} {n n' : Name}
    (hne : n' ≠ n) :
    lookupVariant (markIncluded m n) n' = lookupVariant m n' := by
  induction m with
  | nil => simp [markIncluded]
  | cons hd rest ih =>
      obtain ⟨n0, t0, i0⟩ := hd
      by_cases hn : n0 = n
      · subst hn
        have hn0 : ¬ n0 = n' := fun hc => hne (hc ▸ rfl)
        simp [markIncluded, lookupVariant, hn0]
      · by_cases hn' : n0 = n'
        · subst hn'
          simp [markIncluded, lookupVariant, hn]
        · simp [markIncluded, lookupVariant, hn, hn', ih]

/-- A state extension that appends no coverage diagnostic. -/
def NonCovExt (s s' : InferenceState) : Prop :=
  ∃ l, s'.diags = s.diags ++ l ∧ ∀ d ∈ l, isCoverageDiag d = false

theorem NonCovExt.ncov_refl (s : InferenceState) : NonCovExt s s :=
  ⟨[], by simp, by simp⟩

theorem NonCovExt.ncov_trans {a b c : InferenceState} (h1 : NonCovExt a b)
    (h2 : NonCovExt b c) : NonCovExt a c := by
  obtain ⟨l1, e1, p1⟩ := h1
  obtain ⟨l2, e2, p2⟩ := h2
  refine ⟨l1 ++ l2, by rw [e2, e1, List.append_assoc], ?_⟩
  intro d hd
  rcases List.mem_append.1 hd with hd | hd
  · exact p1 d hd
  · exact p2 d hd

theorem NonCovExt.ncov_push {s : InferenceState} {d : TyDiagnostic}
    (hd : isCoverageDiag d = false) : NonCovExt s (s.pushDiag d) := by
  refine ⟨[d], by simp [InferenceState.pushDiag], ?_⟩
  intro d' hd'
  simp only [List.mem_singleton] at hd'
  subst hd'
  exact hd

/-- The arms loop never pushes a coverage diagnostic, and only appends. -/
theorem switchArmsLoop_noCov (scrutTy : Ty) (e : Nat) :
    ∀ (arms : List SwitchArm) (s : InferenceState) m f,
      NonCovExt s (switchArmsLoop scrutTy e s arms m f).1
  | [], s, m, f => NonCovExt.ncov_refl s
  | arm :: rest, s, m, f => by
      simp only [switchArmsLoop]
      split
      · exact switchArmsLoop_noCov scrutTy e rest s m f
      · split
        · exact NonCovExt.ncov_trans (NonCovExt.ncov_push (by rfl))
            (switchArmsLoop_noCov scrutTy e rest _ m f)
        · rename_i name hlk vty inc hl
          split
          · exact NonCovExt.ncov_trans
              (by
                split
                · exact NonCovExt.ncov_push (by rfl)
                · exact NonCovExt.ncov_refl s)
              (switchArmsLoop_noCov scrutTy e rest _ _ _)
          · split
            · exact NonCovExt.ncov_trans
                (by
                  split
                  · exact NonCovExt.ncov_push (by rfl)
                  · exact NonCovExt.ncov_refl s)
                (switchArmsLoop_noCov scrutTy e rest _ _ _)
            · split
              · exact NonCovExt.ncov_trans
                  (by
                    split
                    · exact NonCovExt.ncov_push (by rfl)
                    · exact NonCovExt.ncov_refl s)
                  (switchArmsLoop_noCov scrutTy e rest _ _ _)
              · refine NonCovExt.ncov_trans ?_
                  (switchArmsLoop_noCov scrutTy e rest _ _ _)
                refine NonCovExt.ncov_trans ?_
                  (NonCovExt.ncov_push (by rfl))
                split
                · exact NonCovExt.ncov_push (by rfl)
                · exact NonCovExt.ncov_refl s

theorem markIncluded_names (m : List (Name × Ty × Bool)) (n : Name) :
    (markIncluded m n).map (fun p => p.1) = m.map (fun p => p.1) := by
  induction m with
  | nil => simp [markIncluded]
  | cons hd rest ih =>
      obtain ⟨n0, t0, i0⟩ := hd
      by_cases hn : n0 = n
      · simp [markIncluded, hn]
      · simp [markIncluded, hn, ih]

theorem lookupVariant_eq_none {m : List (Name × Ty × Bool)} {n : Name} :
    lookupVariant m n = none ↔ n ∉ m.map (fun p => p.1) := by
  induction m with
  | nil => simp [lookupVariant]
  | cons hd rest ih =>
      obtain ⟨n0, t0, i0⟩ := hd
      by_cases hn : n0 = n
      · subst hn
        simp [lookupVariant]
      · simp only [lookupVariant, if_neg hn, List.map_cons, List.mem_cons, ih]
        have hnn : ¬ n = n0 := fun hc => hn hc.symm
        simp [hnn]

theorem lookup_of_mem_nodup {m : List (Name × Ty × Bool)}
    (hnd : (m.map (fun p => p.1)).Nodup) {p : Name × Ty × Bool}
    (hp : p ∈ m) : lookupVariant m p.1 = some (p.2.1, p.2.2) := by
  induction m with
  | nil => simp at hp
  | cons hd rest ih =>
      obtain ⟨n0, t0, i0⟩ := hd
      simp only [List.map_cons, List.nodup_cons] at hnd
      rcases List.mem_cons.1 hp with hp | hp
      · subst hp
        simp [lookupVariant]
      · have hne : n0 ≠ p.1 := by
          intro hc
          exact hnd.1 (hc ▸ List.mem_map_of_mem (fun q => q.1) hp)
        simp only [lookupVariant, if_neg hne]
        exact ih hnd.2 hp

theorem map_mark_id {m : List (Name × Ty × Bool)} {n : Name}
    (hn : n ∉ m.map (fun p => p.1)) :
    m.map (fun p => if p.1 = n then (p.1, p.2.1, true) else p) = m := by
  induction m with
  | nil => simp
  | cons hd rest ih =>
      simp only [List.map_cons, List.mem_cons] at hn
      push_neg at hn
      simp only [List.map_cons]
      rw [if_neg (fun hc => hn.1 hc.symm)]
      rw [ih hn.2]

theorem markIncluded_eq_map {m : List (Name × Ty × Bool)} {n : Name}
    (hnd : (m.map (fun p => p.1)).Nodup) :
    markIncluded m n =
      m.map (fun p => if p.1 = n then (p.1, p.2.1, true) else p) := by
  induction m with
  | nil => simp [markIncluded]
  | cons hd rest ih =>
      obtain ⟨n0, t0, i0⟩ := hd
      simp only [List.map_cons, List.nodup_cons] at hnd
      by_cases hn : n0 = n
      · subst hn
        simp only [markIncluded, List.map_cons]
        simp only [if_true]
        rw [map_mark_id hnd.1]
      · simp only [markIncluded, List.map_cons]
        rw [if_neg hn, if_neg hn, ih hnd.2]

theorem map_pair_eta (m : List (Name × Ty × Bool)) :
    m.map (fun p => (p.1, p.2.1, p.2.2)) = m := by
  induction m with
  | nil => simp
  | cons hd rest ih =>
      obtain ⟨n0, t0, i0⟩ := hd
      simp [ih]

set_option maxHeartbeats 1000000 in
/-- The variant map produced by the arms loop: every entry is flagged
included exactly when it was already flagged or some arm names it. -/
theorem switchArmsLoop_map (scrutTy : Ty) (e : Nat) :
    ∀ (arms : List SwitchArm) (s : InferenceState)
      (m : List (Name × Ty × Bool)) (f : Option Ty),
      (m.map (fun p => p.1)).Nodup →
      (switchArmsLoop scrutTy e s arms m f).2.1 =
        m.map (fun p => (p.1, p.2.1,
          p.2.2 || arms.any (fun a => a.variantName = some p.1)))
  | [], s, m, f, hnd => by
      simp only [switchArmsLoop, List.any_nil, Bool.or_false]
      exact (map_pair_eta m).symm
  | arm :: rest, s, m, f, hnd => by
      simp only [switchArmsLoop]
      split
      · rename_i hvn
        rw [switchArmsLoop_map scrutTy e rest s m f hnd]
        apply List.map_congr_left
        intro p hp
        simp [List.any_cons, hvn]
      · rename_i name hvn
        split
        · rename_i hlk
          rw [switchArmsLoop_map scrutTy e rest _ m f hnd]
          apply List.map_congr_left
          intro p hp
          have hne : ¬ name = p.1 := by
            intro hc
            rw [lookupVariant_eq_none] at hlk
            exact hlk (hc ▸ List.mem_map_of_mem (fun q => q.1) hp)
          simp [List.any_cons, hvn, hne]
        · rename_i vty inc hlk
          cases inc
          · have hnd' : ((markIncluded m name).map (fun p => p.1)).Nodup := by
              rw [markIncluded_names]; exact hnd
            simp only [Bool.false_eq_true, reduceIte]
            (repeat' split) <;>
              (rw [switchArmsLoop_map scrutTy e rest _ _ _ hnd']
               rw [markIncluded_eq_map hnd]
               rw [List.map_map]
               apply List.map_congr_left
               intro p hp
               by_cases hpn : p.1 = name
               · simp [hpn, hvn, List.any_cons, Function.comp]
               · simp [hpn, hvn, List.any_cons, Function.comp, Ne.symm hpn])
          · simp only [reduceIte]
            (repeat' split) <;>
              (rw [switchArmsLoop_map scrutTy e rest _ _ _ hnd]
               apply List.map_congr_left
               intro p hp
               by_cases hpn : p.1 = name
               · have hl2 := lookup_of_mem_nodup hnd hp
                 rw [hpn] at hl2
                 rw [hlk] at hl2
                 simp only [Option.some.injEq, Prod.mk.injEq] at hl2
                 simp [hpn, hvn, List.any_cons, hl2.2.symm]
               · simp [hpn, hvn, List.any_cons, Ne.symm hpn])

/-- The coverage loop appends exactly one `SwitchDoesNotCoverVariant` per
entry whose included flag is still false. -/
theorem switchCoverageLoop_diags (e : Nat) :
    ∀ (m : List (Name × Ty × Bool)) (s : InferenceState),
      (switchCoverageLoop e s m).diags =
        s.diags ++ (m.filter (fun p => !p.2.2)).map
          (fun p => ⟨.switchDoesNotCoverVariant p.2.1, some e⟩)
  | [], s => by simp [switchCoverageLoop]
  | (n, t, inc) :: rest, s => by
      cases inc
      · simp only [switchCoverageLoop, Bool.false_eq_true, reduceIte]
        rw [switchCoverageLoop_diags e rest]
        simp [InferenceState.pushDiag, List.filter_cons]
      · simp only [switchCoverageLoop, reduceIte]
        rw [switchCoverageLoop_diags e rest]
        simp [List.filter_cons]

/-- Every entry of the freshly built variant map is unflagged. -/
theorem buildVariantMap_flags :
    ∀ (l : List Ty) (vmap : List (Name × Ty × Bool)),
      buildVariantMap l = some vmap → ∀ p ∈ vmap, p.2.2 = false
  | [], vmap, h => by
      simp only [buildVariantMap, Option.some.injEq] at h
      subst h
      simp
  | v :: rest, vmap, h => by
      simp only [buildVariantMap] at h
      split at h
      · simp only [Option.map_eq_map, Option.map_eq_some'] at h
        obtain ⟨m', hm', hv⟩ := h
        subst hv
        intro p hp
        rcases List.mem_cons.1 hp with hp | hp
        · subst hp; rfl
        · exact buildVariantMap_flags rest m' hm' p hp
      · simp at h

/-- Diagnostics survive the arms loop. -/
theorem switchArmsLoop_mem_diags {scrutTy : Ty} {e : Nat}
    {arms : List SwitchArm} {s : InferenceState} {m f} {d : TyDiagnostic}
    (h : d ∈ s.diags) :
    d ∈ (switchArmsLoop scrutTy e s arms m f).1.diags := by
  obtain ⟨l, hl, _⟩ := switchArmsLoop_noCov scrutTy e arms s m f
  rw [hl]
  exact List.mem_append_left _ h

theorem self_mem_pushDiag (s : InferenceState) (d : TyDiagnostic) :
    d ∈ (s.pushDiag d).diags := by
  simp [InferenceState.pushDiag]

set_option maxHeartbeats 1000000 in
/-- An arm naming a variant whose flag is already set produces a
`SwitchAlreadyCoversVariant` diagnostic. -/
theorem switchArmsLoop_dup_mem (scrutTy : Ty) (e : Nat) :
    ∀ (arms : List SwitchArm) (s : InferenceState) m f (n : Name) (vty : Ty),
      lookupVariant m n = some (vty, true) →
      (∃ arm ∈ arms, arm.variantName = some n) →
      (⟨.switchAlreadyCoversVariant vty, some e⟩ : TyDiagnostic) ∈
        (switchArmsLoop scrutTy e s arms m f).1.diags
  | [], s, m, f, n, vty, hlk, hex => by
      obtain ⟨arm, harm, _⟩ := hex
      simp at harm
  | arm :: rest, s, m, f, n, vty, hlk, hex => by
      by_cases hvn : arm.variantName = some n
      · simp only [switchArmsLoop, hvn, hlk, reduceIte]
        (repeat' split) <;>
          (apply switchArmsLoop_mem_diags
           first
             | exact self_mem_pushDiag _ _
             | exact mem_pushDiag _ (self_mem_pushDiag _ _))
      · obtain ⟨arm', harm', hname⟩ := hex
        rcases List.mem_cons.1 harm' with harm' | harm'
        · exact absurd (harm' ▸ hname) hvn
        · have hex' : ∃ a ∈ rest, a.variantName = some n := ⟨arm', harm', hname⟩
          simp only [switchArmsLoop]
          split
          · exact switchArmsLoop_dup_mem scrutTy e rest s m f n vty hlk hex'
          · rename_i name hvn2
            split
            · exact switchArmsLoop_dup_mem scrutTy e rest _ m f n vty hlk hex'
            · rename_i vty2 inc2 hlk2
              have hnne : n ≠ name := by
                intro hc
                exact hvn (hc ▸ hvn2)
              cases inc2 <;>
                simp only [Bool.false_eq_true, reduceIte] <;>
                (repeat' split) <;>
                  (apply switchArmsLoop_dup_mem scrutTy e rest _ _ _ n vty _
                    hex'
                   first
                     | (rw [lookupVariant_mark_ne hnne]; exact hlk)
                     | exact hlk)

set_option maxHeartbeats 1000000 in
/-- Two arms naming the same (not yet covered) variant produce a
`SwitchAlreadyCoversVariant` diagnostic for that variant's type. -/
theorem switchArmsLoop_dup2_mem (scrutTy : Ty) (e : Nat) :
    ∀ (arms : List SwitchArm) (s : InferenceState) m f (n : Name) (vty : Ty),
      lookupVariant m n = some (vty, false) →
      2 ≤ arms.countP (fun a => a.variantName = some n) →
      (⟨.switchAlreadyCoversVariant vty, some e⟩ : TyDiagnostic) ∈
        (switchArmsLoop scrutTy e s arms m f).1.diags
  | [], s, m, f, n, vty, hlk, hcnt => by simp at hcnt
  | arm :: rest, s, m, f, n, vty, hlk, hcnt => by
      by_cases hvn : arm.variantName = some n
      · have hone : 1 ≤ rest.countP (fun a => a.variantName = some n) := by
          have h2 : (arm :: rest).countP (fun a => a.variantName = some n) =
              rest.countP (fun a => a.variantName = some n) + 1 := by
            rw [List.countP_cons]
            simp [hvn]
          rw [h2] at hcnt
          exact Nat.succ_le_succ_iff.mp hcnt
        have hex : ∃ a ∈ rest, a.variantName = some n := by
          have hpos : 0 < rest.countP (fun a => a.variantName = some n) :=
            hone
          obtain ⟨a, ha, hpa⟩ := List.countP_pos.1 hpos
          exact ⟨a, ha, by simpa using hpa⟩
        simp only [switchArmsLoop, hvn, hlk, Bool.false_eq_true, reduceIte]
        (repeat' split) <;>
          (apply switchArmsLoop_dup_mem scrutTy e rest _ _ _ n vty
            (lookupVariant_mark_self hlk) hex)
      · have hcnt' : 2 ≤ rest.countP (fun a => a.variantName = some n) := by
          have h2 : (arm :: rest).countP (fun a => a.variantName = some n) =
              rest.countP (fun a => a.variantName = some n) := by
            rw [List.countP_cons]
            simp [hvn]
          rw [h2] at hcnt
          exact hcnt
        simp only [switchArmsLoop]
        split
        · exact switchArmsLoop_dup2_mem scrutTy e rest s m f n vty hlk hcnt'
        · rename_i name hvn2
          split
          · exact switchArmsLoop_dup2_mem scrutTy e rest _ m f n vty hlk
              hcnt'
          · rename_i vty2 inc2 hlk2
            have hnne : n ≠ name := by
              intro hc
              exact hvn (hc ▸ hvn2)
            cases inc2 <;>
              simp only [Bool.false_eq_true, reduceIte] <;>
              (repeat' split) <;>
                (apply switchArmsLoop_dup2_mem scrutTy e rest _ _ _ n vty _
                  hcnt'
                 first
                   | (rw [lookupVariant_mark_ne hnne]; exact hlk)
                   | exact hlk)

set_option maxHeartbeats 1000000 in
/-- With pairwise distinct arm names, none of which is already flagged, the
arms loop emits no `SwitchAlreadyCoversVariant` diagnostic. -/
theorem switchArmsLoop_nodup_count (scrutTy : Ty) (e : Nat) :
    ∀ (arms : List SwitchArm) (s : InferenceState) m f,
      (arms.filterMap (fun a => a.variantName)).Nodup →
      (∀ n vty, lookupVariant m n = some (vty, true) →
        ∀ arm ∈ arms, arm.variantName ≠ some n) →
      (switchArmsLoop scrutTy e s arms m f).1.diags.countP
          isAlreadyCoversDiag
        = s.diags.countP isAlreadyCoversDiag
  | [], s, m, f, hnd, hflag => by simp [switchArmsLoop]
  | arm :: rest, s, m, f, hnd, hflag => by
      simp only [switchArmsLoop]
      split
      · rename_i hvn
        refine switchArmsLoop_nodup_count scrutTy e rest s m f ?_ ?_
        · simpa [List.filterMap_cons, hvn] using hnd
        · intro n vty hlk a ha
          exact hflag n vty hlk a (List.mem_cons_of_mem _ ha)
      · rename_i name hvn
        have hnd2 : ¬ name ∈ rest.filterMap (fun a => a.variantName) ∧
            (rest.filterMap (fun a => a.variantName)).Nodup := by
          have h := hnd
          simp only [List.filterMap_cons, hvn] at h
          exact List.nodup_cons.1 h
        have hnd' := hnd2.2
        have hnotin : ∀ a ∈ rest, a.variantName ≠ some name := by
          intro a ha hc
          exact hnd2.1 (List.mem_filterMap.2 ⟨a, ha, hc⟩)
        split
        · rw [switchArmsLoop_nodup_count scrutTy e rest _ m f hnd'
            (fun n vty hlk a ha => hflag n vty hlk a
              (List.mem_cons_of_mem _ ha))]
          rw [countP_pushDiag]
          simp [isAlreadyCoversDiag]
        · rename_i vty inc hlk
          cases inc
          · simp only [Bool.false_eq_true, reduceIte]
            have hflag' : ∀ n2 vty2,
                lookupVariant (markIncluded m name) n2 = some (vty2, true) →
                ∀ a ∈ rest, a.variantName ≠ some n2 := by
              intro n2 vty2 hlk2 a ha hc
              by_cases hn2 : n2 = name
              · subst hn2
                exact hnotin a ha hc
              · rw [lookupVariant_mark_ne hn2] at hlk2
                exact hflag n2 vty2 hlk2 a (List.mem_cons_of_mem _ ha) hc
            (repeat' split) <;>
              first
                | (rw [switchArmsLoop_nodup_count scrutTy e rest _ _ _ hnd'
                      hflag']
                   rw [countP_pushDiag]
                   simp [isAlreadyCoversDiag])
                | exact switchArmsLoop_nodup_count scrutTy e rest _ _ _ hnd'
                    hflag'
          · exact absurd hvn
              (hflag name vty hlk arm (List.mem_cons_self arm rest))

/-- A state extension by diagnostics that are neither coverage nor
duplicate-arm diagnostics (`IntTooBigForType`, `SwitchMismatch`). -/
def BenignExt (s s' : InferenceState) : Prop :=
  ∃ l, s'.diags = s.diags ++ l ∧
    ∀ d ∈ l, isCoverageDiag d = false ∧ isAlreadyCoversDiag d = false

theorem BenignExt.benign_refl (s : InferenceState) : BenignExt s s :=
  ⟨[], by simp, by simp⟩

theorem BenignExt.benign_trans {a b c : InferenceState} (h1 : BenignExt a b)
    (h2 : BenignExt b c) : BenignExt a c := by
  obtain ⟨l1, e1, p1⟩ := h1
  obtain ⟨l2, e2, p2⟩ := h2
  refine ⟨l1 ++ l2, by rw [e2, e1, List.append_assoc], ?_⟩
  intro d hd
  rcases List.mem_append.1 hd with hd | hd
  · exact p1 d hd
  · exact p2 d hd

theorem BenignExt.benign_push {s : InferenceState} {d : TyDiagnostic}
    (h1 : isCoverageDiag d = false) (h2 : isAlreadyCoversDiag d = false) :
    BenignExt s (s.pushDiag d) := by
  refine ⟨[d], by simp [InferenceState.pushDiag], ?_⟩
  intro d' hd'
  simp only [List.mem_singleton] at hd'
  subst hd'
  exact ⟨h1, h2⟩

theorem BenignExt.of_onlyInt {s s' : InferenceState}
    (h : OnlyIntDiags s s') : BenignExt s s' := by
  obtain ⟨l, e1, p1⟩ := h
  refine ⟨l, e1, ?_⟩
  intro d hd
  obtain ⟨n, m, t, hk⟩ := p1 d hd
  cases d with
  | mk kind ex =>
      simp only at hk
      subst hk
      exact ⟨rfl, rfl⟩

theorem BenignExt.countP_cov {s s' : InferenceState} (h : BenignExt s s') :
    s'.diags.countP isCoverageDiag = s.diags.countP isCoverageDiag := by
  obtain ⟨l, e1, p1⟩ := h
  rw [e1, List.countP_append]
  suffices hz : l.countP isCoverageDiag = 0 by omega
  rw [List.countP_eq_zero]
  intro d hd
  simp [(p1 d hd).1]

theorem BenignExt.countP_already {s s' : InferenceState}
    (h : BenignExt s s') :
    s'.diags.countP isAlreadyCoversDiag =
      s.diags.countP isAlreadyCoversDiag := by
  obtain ⟨l, e1, p1⟩ := h
  rw [e1, List.countP_append]
  suffices hz : l.countP isAlreadyCoversDiag = 0 by omega
  rw [List.countP_eq_zero]
  intro d hd
  simp [(p1 d hd).2]

theorem BenignExt.mem {s s' : InferenceState} (h : BenignExt s s')
    {d : TyDiagnostic} (hd : d ∈ s.diags) : d ∈ s'.diags := by
  obtain ⟨l, e1, _⟩ := h
  rw [e1]
  exact List.mem_append_left _ hd

theorem NonCovExt.ncov_countP_cov {s s' : InferenceState} (h : NonCovExt s s') :
    s'.diags.countP isCoverageDiag = s.diags.countP isCoverageDiag := by
  obtain ⟨l, e1, p1⟩ := h
  rw [e1, List.countP_append]
  suffices hz : l.countP isCoverageDiag = 0 by omega
  rw [List.countP_eq_zero]
  intro d hd
  simp [p1 d hd]

theorem lookupVariant_mem :
    ∀ {m : List (Name × Ty × Bool)} {n : Name} {t : Ty} {inc : Bool},
      lookupVariant m n = some (t, inc) → (n, t, inc) ∈ m := by
  intro m
  induction m with
  | nil => intro n t inc h; simp [lookupVariant] at h
  | cons hd rest ih =>
      intro n t inc h
      obtain ⟨n0, t0, i0⟩ := hd
      by_cases hn : n0 = n
      · subst hn
        rw [lookupVariant, if_pos rfl] at h
        simp only [Option.some.injEq, Prod.mk.injEq] at h
        simp [h.1, h.2]
      · rw [lookupVariant, if_neg hn] at h
        exact List.mem_cons_of_mem _ (ih h)

theorem switchCoverageLoop_mem {e : Nat} {m} {s : InferenceState}
    {d : TyDiagnostic} (hd : d ∈ s.diags) :
    d ∈ (switchCoverageLoop e s m).diags := by
  rw [switchCoverageLoop_diags]
  exact List.mem_append_left _ hd

theorem switchCoverageLoop_countP_already (e : Nat)
    (m : List (Name × Ty × Bool)) (s : InferenceState) :
    (switchCoverageLoop e s m).diags.countP isAlreadyCoversDiag =
      s.diags.countP isAlreadyCoversDiag := by
  rw [switchCoverageLoop_diags, List.countP_append]
  suffices hz : ((m.filter (fun p => !p.2.2)).map
      (fun p => (⟨.switchDoesNotCoverVariant p.2.1, some e⟩ :
        TyDiagnostic))).countP isAlreadyCoversDiag = 0 by omega
  rw [List.countP_eq_zero]
  intro d hd
  obtain ⟨p, _, hp⟩ := List.mem_map.1 hd
  subst hp
  simp [isAlreadyCoversDiag]

theorem switchCoverageLoop_countP_cov (e : Nat)
    (m : List (Name × Ty × Bool)) (s : InferenceState) :
    (switchCoverageLoop e s m).diags.countP isCoverageDiag =
      s.diags.countP isCoverageDiag + (m.filter (fun p => !p.2.2)).length := by
  rw [switchCoverageLoop_diags, List.countP_append]
  congr 1
  rw [List.countP_map]
  have hconst : ∀ x ∈ m.filter (fun p => !p.2.2),
      ((isCoverageDiag ∘ fun p => (⟨.switchDoesNotCoverVariant p.2.1,
        some e⟩ : TyDiagnostic)) x = true ↔
       (fun _ : Name × Ty × Bool => true) x = true) := by
    intro x _
    simp [isCoverageDiag, Function.comp]
  exact (List.countP_congr hconst).trans (congrFun List.countP_true _)

/-- The final weak-type propagation step of the switch branch is benign. -/
theorem switch_tail_benign {B : Bodies} {fuel : Nat} {s2 s3 : InferenceState}
    {f2 : Option Ty} {arms : List SwitchArm}
    (h : (match f2 with
      | some firstTy =>
          if firstTy ≠ .unknown then
            replaceWeakTysList B fuel s2 (arms.map SwitchArm.body) firstTy
          else pure s2
      | none => pure s2) = some s3) :
    BenignExt s2 s3 := by
  split at h
  · split at h
    · exact BenignExt.of_onlyInt
        ((nest_diags B fuel).2.1 _ _ _ _ h)
    · simp only [Option.pure_def, Option.some.injEq] at h
      subst h
      exact BenignExt.benign_refl _
  · simp only [Option.pure_def, Option.some.injEq] at h
    subst h
    exact BenignExt.benign_refl _

/-- The default-arm unification step of the switch branch is benign. -/
theorem switch_default_benign {B : Bodies} {fuel : Nat}
    {s1 s2 : InferenceState} {f1 f2 : Option Ty} {defaultBody : Nat}
    (h : (match f1 with
      | none => pure (s1, some (s1.exprTys defaultBody))
      | some firstTy =>
          if firstTy = .unknown then pure (s1, some firstTy)
          else
            match firstTy.max (s1.exprTys defaultBody) with
            | some realTy => do
                let (s, _) ← replaceWeakTys B fuel s1 defaultBody realTy
                pure (s, some realTy)
            | none =>
                pure (s1.pushDiag ⟨.switchMismatch (s1.exprTys defaultBody)
                  firstTy, some defaultBody⟩, some Ty.unknown)) =
      some (s2, f2)) :
    BenignExt s1 s2 := by
  split at h
  · simp only [Option.pure_def, Option.some.injEq, Prod.mk.injEq] at h
    rw [← h.1]
    exact BenignExt.benign_refl _
  · split at h
    · simp only [Option.pure_def, Option.some.injEq, Prod.mk.injEq] at h
      rw [← h.1]
      exact BenignExt.benign_refl _
    · split at h
      · simp only [Option.bind_eq_bind, Option.bind_eq_some] at h
        obtain ⟨⟨s9, r9⟩, hr, h⟩ := h
        simp only [Option.pure_def, Option.some.injEq, Prod.mk.injEq] at h
        rw [← h.1]
        exact BenignExt.of_onlyInt ((nest_diags B fuel).1 _ _ _ _ _ hr)
      · simp only [Option.pure_def, Option.some.injEq, Prod.mk.injEq] at h
        rw [← h.1]
        exact BenignExt.benign_push rfl rfl

set_option maxHeartbeats 1000000 in
/-- C5: for a switch over an enum scrutinee (with distinct variant names):
without a default arm the final diagnostics contain exactly one
`SwitchDoesNotCoverVariant` per variant that no arm names; with a default
arm no coverage diagnostic is produced; an arm naming a variant that an
earlier arm already names yields a `SwitchAlreadyCoversVariant` for that
variant's type; and pairwise-distinct arm names yield none. -/
theorem infer_switch_coverage (B : Bodies) (fuel : Nat)
    (s s' : InferenceState) (e scrut : Nat) (arms : List SwitchArm)
    (default : Option Nat) (t : Ty) (uid : Nat) (variants : Tys)
    (vmap : List (Name × Ty × Bool))
    (hscrut : s.exprTys scrut = .enum uid variants)
    (hmap : buildVariantMap variants.toList = some vmap)
    (hnd : (vmap.map (fun p => p.1)).Nodup)
    (h : inferSwitch B fuel s e scrut arms default = some (s', t)) :
    (default = none →
      s'.diags.countP isCoverageDiag = s.diags.countP isCoverageDiag +
        vmap.countP (fun p =>
          !(arms.any (fun a => a.variantName = some p.1)))) ∧
    (default.isSome = true →
      s'.diags.countP isCoverageDiag = s.diags.countP isCoverageDiag) ∧
    (∀ n vty, lookupVariant vmap n = some (vty, false) →
      2 ≤ arms.countP (fun a => a.variantName = some n) →
      (⟨.switchAlreadyCoversVariant vty, some e⟩ : TyDiagnostic) ∈
        s'.diags) ∧
    ((arms.filterMap (fun a => a.variantName)).Nodup →
      s'.diags.countP isAlreadyCoversDiag =
        s.diags.countP isAlreadyCoversDiag) := by
  have hflags0 := buildVariantMap_flags variants.toList vmap hmap
  simp only [inferSwitch, hscrut, hmap] at h
  rcases hE : switchArmsLoop (Ty.enum uid variants) e s arms vmap none with
    ⟨s1, mf⟩
  rcases hmf : mf with ⟨m1, f1⟩
  subst hmf
  rw [hE] at h
  dsimp only at h
  have hnocov : NonCovExt s s1 := by
    have hx := switchArmsLoop_noCov (Ty.enum uid variants) e arms s vmap none
    rw [hE] at hx
    exact hx
  have hm1 : m1 = vmap.map (fun p => (p.1, p.2.1,
      p.2.2 || arms.any (fun a => a.variantName = some p.1))) := by
    have hx := switchArmsLoop_map (Ty.enum uid variants) e arms s vmap none
      hnd
    rw [hE] at hx
    exact hx
  have hmain : (default = none →
        BenignExt (switchCoverageLoop e s1 m1) s') ∧
      (default.isSome = true → BenignExt s1 s') := by
    constructor
    · intro hd
      subst hd
      simp only [Option.pure_def, Option.bind_eq_bind, Option.some_bind]
        at h
      split at h
      · split at h
        · simp only [Option.bind_eq_bind, Option.bind_eq_some] at h
          obtain ⟨s3, hL, hp⟩ := h
          simp only [Option.pure_def, Option.some.injEq, Prod.mk.injEq] at hp
          rw [← hp.1]
          exact BenignExt.of_onlyInt ((nest_diags B fuel).2.1 _ _ _ _ hL)
        · simp only [Option.pure_def, Option.some_bind, Option.some.injEq,
            Prod.mk.injEq] at h
          rw [← h.1]
          exact BenignExt.benign_refl _
      · simp only [Option.pure_def, Option.some_bind, Option.some.injEq,
          Prod.mk.injEq] at h
        rw [← h.1]
        exact BenignExt.benign_refl _
    · intro hd
      obtain ⟨d, hd⟩ := Option.isSome_iff_exists.1 hd
      subst hd
      simp only [Option.bind_eq_bind, Option.bind_eq_some] at h
      obtain ⟨y, hX, h⟩ := h
      rcases y with ⟨s2, f2⟩
      dsimp only at hX h
      have hben1 : BenignExt s1 s2 := by
        split at hX
        · simp only [Option.pure_def, Option.some.injEq,
            Prod.mk.injEq] at hX
          rw [← hX.1]
          exact BenignExt.benign_refl _
        · split at hX
          · simp only [Option.pure_def, Option.some.injEq,
              Prod.mk.injEq] at hX
            rw [← hX.1]
            exact BenignExt.benign_refl _
          · split at hX
            · simp only [Option.bind_eq_bind, Option.bind_eq_some] at hX
              obtain ⟨⟨s9, r9⟩, hr, hX⟩ := hX
              simp only [Option.pure_def, Option.some.injEq,
                Prod.mk.injEq] at hX
              rw [← hX.1]
              exact BenignExt.of_onlyInt
                ((nest_diags B fuel).1 _ _ _ _ _ hr)
            · simp only [Option.pure_def, Option.some.injEq,
                Prod.mk.injEq] at hX
              rw [← hX.1]
              exact BenignExt.benign_push rfl rfl
      have hben2 : BenignExt s2 s' := by
        split at h
        · split at h
          · simp only [Option.bind_eq_bind, Option.bind_eq_some] at h
            obtain ⟨s3, hL, hp⟩ := h
            simp only [Option.pure_def, Option.some.injEq,
              Prod.mk.injEq] at hp
            rw [← hp.1]
            exact BenignExt.of_onlyInt ((nest_diags B fuel).2.1 _ _ _ _ hL)
          · simp only [Option.pure_def, Option.some_bind, Option.some.injEq,
              Prod.mk.injEq] at h
            rw [← h.1]
            exact BenignExt.benign_refl _
        · simp only [Option.pure_def, Option.some_bind, Option.some.injEq,
            Prod.mk.injEq] at h
          rw [← h.1]
          exact BenignExt.benign_refl _
      exact hben1.benign_trans hben2
  refine ⟨?_, ?_, ?_, ?_⟩
  · intro hd
    rw [(hmain.1 hd).countP_cov]
    rw [switchCoverageLoop_countP_cov]
    rw [hnocov.ncov_countP_cov]
    congr 1
    rw [hm1, List.filter_map, List.length_map,
      ← List.countP_eq_length_filter]
    apply List.countP_congr
    intro p hp
    have hf := hflags0 p hp
    simp [Function.comp, hf]
  · intro hd
    rw [(hmain.2 hd).countP_cov]
    exact hnocov.ncov_countP_cov
  · intro n vty hlk hcnt
    have hmem : (⟨.switchAlreadyCoversVariant vty, some e⟩ :
        TyDiagnostic) ∈ s1.diags := by
      have hx := switchArmsLoop_dup2_mem (Ty.enum uid variants) e arms s
        vmap none n vty hlk hcnt
      rw [hE] at hx
      exact hx
    cases hdc : default with
    | none =>
        exact (hmain.1 hdc).mem (switchCoverageLoop_mem hmem)
    | some d =>
        exact (hmain.2 (by rw [hdc]; rfl)).mem hmem
  · intro hndarms
    have hcount : s1.diags.countP isAlreadyCoversDiag =
        s.diags.countP isAlreadyCoversDiag := by
      have hx := switchArmsLoop_nodup_count (Ty.enum uid variants) e arms s
        vmap none hndarms ?_
      · rw [hE] at hx
        exact hx
      · intro n vty hlk a ha hc
        have hmem := lookupVariant_mem hlk
        have := hflags0 _ hmem
        simp at this
    cases hdc : default with
    | none =>
        rw [(hmain.1 hdc).countP_already]
        rw [switchCoverageLoop_countP_already]
        exact hcount
    | some d =>
        rw [(hmain.2 (by rw [hdc]; rfl)).countP_already]
        exact hcount

/-- A three-variant enum (`R = 0`, `G = 1`, `B = 2`). -/
def w5Variants : Tys :=
  .cons (.variant 7 0 10 .void 0)
    (.cons (.variant 7 1 11 .void 1)
      (.cons (.variant 7 2 12 .void 2) .nil))

/-- A state whose expression 1 is the enum scrutinee and whose other
expressions (the arm bodies) are `void`. -/
def w5S : InferenceState :=
  { exprTys := fun i => if i = 1 then .enum 7 w5Variants else .void
    localTys := fun _ => .unknown
    localUsages := fun _ => []
    diags := [] }

/-- Arms covering `R` and `G` but not `B`. -/
def w5Arms : List SwitchArm := [⟨some 0, 2⟩, ⟨some 1, 3⟩]

/-- The freshly built variant map of the witness enum. -/
def w5Vmap : List (Name × Ty × Bool) :=
  [(0, .variant 7 0 10 .void 0, false), (1, .variant 7 1 11 .void 1, false),
   (2, .variant 7 2 12 .void 2, false)]

set_option maxHeartbeats 4000000 in
theorem w5Call : inferSwitch wBodies 3 w5S 0 1 w5Arms none =
    some (w5S.pushDiag
      ⟨.switchDoesNotCoverVariant (.variant 7 2 12 .void 2), some 0⟩,
      Ty.void) := by
  simp [inferSwitch, switchArmsLoop, switchCoverageLoop, w5S, w5Arms,
    w5Variants, buildVariantMap, lookupVariant, markIncluded, Tys.toList,
    replaceWeakTysList, replaceWeakTys, Ty.max, Ty.isWeakReplaceableBy,
    InferenceState.pushDiag]

theorem infer_switch_coverage_witness :
    inferSwitch wBodies 3 w5S 0 1 w5Arms none =
      some (w5S.pushDiag
        ⟨.switchDoesNotCoverVariant (.variant 7 2 12 .void 2), some 0⟩,
        Ty.void) ∧
    (w5S.pushDiag ⟨.switchDoesNotCoverVariant (.variant 7 2 12 .void 2),
        some 0⟩).diags.countP isCoverageDiag =
      w5S.diags.countP isCoverageDiag + 1 :=
  ⟨w5Call, by
    have hx := (infer_switch_coverage wBodies 3 w5S
      (w5S.pushDiag ⟨.switchDoesNotCoverVariant (.variant 7 2 12 .void 2),
        some 0⟩) 0 1 w5Arms none Ty.void 7 w5Variants w5Vmap rfl rfl
      (by decide) w5Call).1 rfl
    simpa [w5Vmap, w5Arms, List.countP_cons] using hx⟩

end Capy
